import Mathlib

/-!
# Robin Hood hash map with insertion-ordered iteration (`src/hashmap.h`)

A shallow embedding of the C++ class template `HashMap<KeyType, ValueType, Hash>`.

* `elements_` (a `std::list` of pairs) is a list of nodes; every node carries the number
  under which its list allocated it, and a list iterator is either a node number of some
  list or the past-the-end iterator of some list.
* `table_` is a list of iterators, `probe_seq_lens_` a list of naturals.
* Every `while` loop is a recursion on a fuel argument; the public operations start each
  loop with `table_.size()` units of fuel, and running out of fuel is the fault
  `Fault.outOfFuel`. A probe loop of `find`, `erase` or `insert_already_existed` that has
  not stopped after `table_.size()` steps has found every slot occupied and cannot stop
  later, since no step of these loops empties a slot.
* Dereferencing an iterator that is not a live node of the map's own list is the fault
  `Fault.badIterator`; `at` on a missing key is the fault `Fault.outOfRange`.
* `std::size_t` values are natural numbers (no operation of the class approaches
  `2 ^ 64`); the `float` comparison of the growth check is modelled by IEEE-754 binary32
  rounding (round to nearest, ties to even).
* The copy assignment is a function on a store of map objects, so that `m = m` is the
  call with equal addresses.
-/

namespace RobinHood

/-! ## Data model -/

/-- A `std::list` iterator: the past-the-end iterator of the list with identity `list`, or
the node number `id` allocated by the list with identity `list`. -/
inductive Iter where
  | endOf (list : Nat)
  | node (list : Nat) (id : Nat)
  deriving DecidableEq, Repr

/-- A node of `elements_`: the pair `(key, val)` together with the number `id` under
which the owning list allocated it. -/
structure Node (K V : Type) where
  id : Nat
  key : K
  val : V
  deriving Repr

/-- The ways a call can fail to produce a value. -/
inductive Fault where
  | outOfFuel
  | badIterator
  | outOfRange
  deriving DecidableEq, Repr

/-- The fields of `HashMap`. `listId` is the identity of the `elements_` list object and
`fresh` is the number the next allocated node receives. -/
structure HashMap (K V : Type) where
  listId : Nat
  fresh : Nat
  elements_ : List (Node K V)
  table_ : List Iter
  probe_seq_lens_ : List Nat
  hasher_ : K → Nat

/-- The constant `INITIAL_SIZE_`. -/
def INITIAL_SIZE_ : Nat := 8

/-- The constant `LOAD_FACTOR_`, the `float` 0.75, as the fraction 3 / 4. -/
def LOAD_FACTOR_ : Nat × Nat := (3, 4)

section Float

/-- The binary exponent `e` with `n / 2 ^ e < 2 ^ 24`, found by repeated halving. -/
def f32Exp : Nat → Nat → Nat
  | 0, _ => 0
  | fuel + 1, n => if n < 2 ^ 24 then 0 else f32Exp fuel (n / 2) + 1

/-- The value of `static_cast<float>(n)` for a natural number `n` below `2 ^ 128`:
the nearest number with a 24-bit significand, ties to the even significand. -/
def toFloat (n : Nat) : Nat :=
  let e := f32Exp n n
  let q := n / 2 ^ e
  let r := n % 2 ^ e
  if 2 * r < 2 ^ e then q * 2 ^ e
  else if 2 * r = 2 ^ e then (if q % 2 = 0 then q else q + 1) * 2 ^ e
  else (q + 1) * 2 ^ e

/-- The growth check `(size() + 1) > LOAD_FACTOR_ * table_.size()` of `insert`.
`LOAD_FACTOR_` is a `float`, so both sides are converted to `float`. Rounding to a 24-bit
significand commutes with the division by 4, hence the product `0.75f * float(cap)` is
`toFloat (3 * toFloat cap) / 4`, and the comparison is stated in quarters. -/
def needsRehash (size cap : Nat) : Bool :=
  decide (toFloat (LOAD_FACTOR_.1 * toFloat cap) < LOAD_FACTOR_.2 * toFloat (size + 1))

end Float

section Operations

variable {K V : Type}

/-- The iterator `elements_.end()`. -/
def HashMap.endIt (m : HashMap K V) : Iter := Iter.endOf m.listId

/-- The member `size()`. -/
def HashMap.size (m : HashMap K V) : Nat := m.elements_.length

/-- The member `empty()`. -/
def HashMap.empty (m : HashMap K V) : Bool := m.elements_.isEmpty

/-- The sequence of pairs visited from `begin()` to `end()`. -/
def HashMap.toList (m : HashMap K V) : List (K × V) :=
  m.elements_.map fun e => (e.key, e.val)

/-- The element access `table_[i]`. -/
def HashMap.slot (m : HashMap K V) (i : Nat) : Iter := m.table_.getD i m.endIt

/-- The element access `probe_seq_lens_[i]`. -/
def HashMap.psl (m : HashMap K V) (i : Nat) : Nat := m.probe_seq_lens_.getD i 0

/-- Dereferencing an iterator: defined for the live nodes of the map's own list. -/
def HashMap.deref (m : HashMap K V) : Iter → Except Fault (Node K V)
  | Iter.endOf _ => .error .badIterator
  | Iter.node l i =>
    if l = m.listId then
      match m.elements_.find? (fun e => e.id == i) with
      | some e => .ok e
      | none => .error .badIterator
    else .error .badIterator

/-- The step `++current_pos; if (current_pos == table_.size()) current_pos = 0;`. -/
def nextPos (n pos : Nat) : Nat := if pos + 1 = n then 0 else pos + 1

/-- The constructor `HashMap(Hash hash)`, for a list object with identity `l`. -/
def HashMap.new (l : Nat) (hash : K → Nat) : HashMap K V :=
  { listId := l, fresh := 0, elements_ := [],
    table_ := List.replicate INITIAL_SIZE_ (Iter.endOf l),
    probe_seq_lens_ := List.replicate INITIAL_SIZE_ 0,
    hasher_ := hash }

/-- The probing loop shared by `find` and `erase`: advance while the slot is occupied and
its key differs from `key`; the result is the position at which the loop stops. -/
def HashMap.locate [DecidableEq K] (m : HashMap K V) (key : K) : Nat → Nat → Except Fault Nat
  | 0, _ => .error .outOfFuel
  | fuel + 1, pos =>
    if m.slot pos ≠ m.endIt then
      match m.deref (m.slot pos) with
      | .error f => .error f
      | .ok e => if e.key = key then .ok pos else m.locate key fuel (nextPos m.table_.length pos)
    else .ok pos

/-- The member `find`. -/
def HashMap.find [DecidableEq K] (m : HashMap K V) (key : K) : Except Fault Iter :=
  match m.locate key m.table_.length (m.hasher_ key % m.table_.length) with
  | .error f => .error f
  | .ok pos => if m.slot pos = m.endIt then .ok m.endIt else .ok (m.slot pos)

/-- The loop of `insert_already_existed` on the two arrays: `it` and `cur` are the carried
`current_mapping_it` and `current_psl`. -/
def placeLoop (endIt : Iter) :
    Nat → List Iter → List Nat → Iter → Nat → Nat → Except Fault (List Iter × List Nat)
  | 0, _, _, _, _, _ => .error .outOfFuel
  | fuel + 1, t, d, it, cur, pos =>
    if t.getD pos endIt ≠ endIt then
      if d.getD pos 0 < cur then
        placeLoop endIt fuel (t.set pos it) (d.set pos cur) (t.getD pos endIt)
          (d.getD pos 0 + 1) (nextPos t.length pos)
      else
        placeLoop endIt fuel t d it (cur + 1) (nextPos t.length pos)
    else .ok (t.set pos it, d.set pos cur)

/-- The member `insert_already_existed`. -/
def HashMap.insert_already_existed (m : HashMap K V) (it : Iter) : Except Fault (HashMap K V) :=
  match m.deref it with
  | .error f => .error f
  | .ok e =>
    match placeLoop m.endIt m.table_.length m.table_ m.probe_seq_lens_ it 0
        (m.hasher_ e.key % m.table_.length) with
    | .error f => .error f
    | .ok (t, d) => .ok { m with table_ := t, probe_seq_lens_ := d }

/-- The loop of `rehash` over the nodes of `elements_`. -/
def HashMap.rehashLoop (m : HashMap K V) : List (Node K V) → Except Fault (HashMap K V)
  | [] => .ok m
  | e :: rest =>
    match m.insert_already_existed (Iter.node m.listId e.id) with
    | .error f => .error f
    | .ok m1 => m1.rehashLoop rest

/-- The member `rehash`. -/
def HashMap.rehash (m : HashMap K V) : Except Fault (HashMap K V) :=
  HashMap.rehashLoop
    { m with table_ := List.replicate (m.table_.length * 2) m.endIt,
             probe_seq_lens_ := List.replicate (m.probe_seq_lens_.length * 2) 0 }
    m.elements_

/-- The call `elements_.emplace_back(key, val)`. -/
def HashMap.emplaceBack (m : HashMap K V) (key : K) (val : V) : HashMap K V :=
  { m with elements_ := m.elements_ ++ [⟨m.fresh, key, val⟩], fresh := m.fresh + 1 }

/-- The member `insert`. -/
def HashMap.insert [DecidableEq K] (m : HashMap K V) (kv : K × V) : Except Fault (HashMap K V) :=
  match (if needsRehash m.size m.table_.length then m.rehash else .ok m) with
  | .error f => .error f
  | .ok m1 =>
    match m1.find kv.1 with
    | .error f => .error f
    | .ok it =>
      if it ≠ m1.endIt then .ok m1
      else (m1.emplaceBack kv.1 kv.2).insert_already_existed (Iter.node m1.listId m1.fresh)

/-- Exchange of the elements at positions `i` and `j`, as `std::swap(v[i], v[j])`. -/
def swapAt {α : Type} (l : List α) (dflt : α) (i j : Nat) : List α :=
  (l.set i (l.getD j dflt)).set j (l.getD i dflt)

/-- The backward-shift loop of `erase`: while the slot `cur` is occupied with a positive
displacement, its displacement is decremented and slot and displacement are exchanged with
those of `prev`. -/
def shiftLoop (endIt : Iter) :
    Nat → List Iter → List Nat → Nat → Nat → Except Fault (List Iter × List Nat)
  | 0, _, _, _, _ => .error .outOfFuel
  | fuel + 1, t, d, prev, cur =>
    if t.getD cur endIt ≠ endIt ∧ 0 < d.getD cur 0 then
      shiftLoop endIt fuel (swapAt t endIt prev cur)
        (swapAt (d.set cur (d.getD cur 0 - 1)) 0 prev cur) cur (nextPos t.length cur)
    else .ok (t, d)

/-- The member `erase`. -/
def HashMap.erase [DecidableEq K] (m : HashMap K V) (key : K) : Except Fault (HashMap K V) :=
  match m.locate key m.table_.length (m.hasher_ key % m.table_.length) with
  | .error f => .error f
  | .ok pos =>
    if m.slot pos = m.endIt then .ok m
    else
      match m.deref (m.slot pos) with
      | .error f => .error f
      | .ok e =>
        match shiftLoop m.endIt m.table_.length (m.table_.set pos m.endIt)
            (m.probe_seq_lens_.set pos 0) pos (nextPos m.table_.length pos) with
        | .error f => .error f
        | .ok (t, d) =>
          .ok { m with elements_ := m.elements_.filter (fun x => x.id != e.id),
                       table_ := t, probe_seq_lens_ := d }

/-- The member `operator[]`: the map after the call and the iterator whose `second` the
returned reference denotes. -/
def HashMap.index [DecidableEq K] [Inhabited V] (m : HashMap K V) (key : K) :
    Except Fault (HashMap K V × Iter) :=
  match m.find key with
  | .error f => .error f
  | .ok it =>
    if it = m.endIt then
      match m.insert (key, default) with
      | .error f => .error f
      | .ok m1 =>
        match m1.find key with
        | .error f => .error f
        | .ok it1 => .ok (m1, it1)
    else .ok (m, it)

/-- A write of `v` through the reference `it->second`. -/
def HashMap.assignAt (m : HashMap K V) (it : Iter) (v : V) : Except Fault (HashMap K V) :=
  match m.deref it with
  | .error f => .error f
  | .ok e =>
    .ok { m with elements_ := m.elements_.map fun x => if x.id = e.id then { x with val := v } else x }

/-- The statement `m[key] = v`. -/
def HashMap.indexAssign [DecidableEq K] [Inhabited V] (m : HashMap K V) (key : K) (v : V) :
    Except Fault (HashMap K V) :=
  match m.index key with
  | .error f => .error f
  | .ok (m1, it) => m1.assignAt it v

/-- The member `at`. -/
def HashMap.at [DecidableEq K] (m : HashMap K V) (key : K) : Except Fault V :=
  match m.find key with
  | .error f => .error f
  | .ok it =>
    if it = m.endIt then .error .outOfRange
    else
      match m.deref it with
      | .error f => .error f
      | .ok e => .ok e.val

/-- The member `clear`. -/
def HashMap.clear (m : HashMap K V) : HashMap K V :=
  { m with table_ := List.replicate m.table_.length m.endIt,
           probe_seq_lens_ := List.replicate m.probe_seq_lens_.length 0,
           elements_ := [] }

end Operations

/-! ## Invariants, reachable states and reference models -/

open List

variable {K V : Type}

/-- Table-level invariant of the open-addressing arrays. -/
structure TInv (endIt : Iter) (home : Iter → Nat) (t : List Iter) (d : List Nat) : Prop where
  len : d.length = t.length
  psl_lt : ∀ i, i < t.length → t.getD i endIt ≠ endIt → d.getD i 0 < t.length
  psl_ok : ∀ i, i < t.length → t.getD i endIt ≠ endIt →
    (home (t.getD i endIt) + d.getD i 0) % t.length = i
  chain : ∀ j, t.getD ((j + 1) % t.length) endIt ≠ endIt →
    0 < d.getD ((j + 1) % t.length) 0 →
    t.getD (j % t.length) endIt ≠ endIt ∧
      d.getD ((j + 1) % t.length) 0 ≤ d.getD (j % t.length) 0 + 1

/-- The hash of the key stored in the node an iterator refers to. -/
def HashMap.hashOf (m : HashMap K V) (it : Iter) : Nat :=
  match m.deref it with
  | .ok e => m.hasher_ e.key
  | .error _ => 0

/-- The iterator to a node of the map's own list. -/
def HashMap.handle (m : HashMap K V) (e : Node K V) : Iter := Iter.node m.listId e.id

/-- The index table is well formed and holds exactly the handles of the nodes `l`. -/
structure TableOK (m : HashMap K V) (l : List (Node K V)) : Prop where
  tinv : TInv m.endIt m.hashOf m.table_ m.probe_seq_lens_
  perm : (m.table_.filter (fun x => decide (x ≠ m.endIt))) ~ l.map m.handle

/-- The representation invariant of the container. -/
structure Inv (m : HashMap K V) : Prop where
  table : TableOK m m.elements_
  ids_nodup : (m.elements_.map (fun e => e.id)).Nodup
  keys_nodup : (m.elements_.map (fun e => e.key)).Nodup
  ids_lt : ∀ e, e ∈ m.elements_ → e.id < m.fresh
  size_lt : m.elements_.length < m.table_.length

/-- The states of a map object that the public mutating operations can produce from a
freshly constructed map. -/
inductive Reachable [DecidableEq K] [Inhabited V] : HashMap K V → Prop
  | new (l : Nat) (hash : K → Nat) : Reachable (HashMap.new l hash)
  | insert {m m' : HashMap K V} (kv : K × V) :
      Reachable m → m.insert kv = .ok m' → Reachable m'
  | erase {m m' : HashMap K V} (k : K) :
      Reachable m → m.erase k = .ok m' → Reachable m'
  | index {m m' : HashMap K V} (k : K) (it : Iter) :
      Reachable m → m.index k = .ok (m', it) → Reachable m'
  | indexAssign {m m' : HashMap K V} (k : K) (v : V) :
      Reachable m → m.indexAssign k v = .ok m' → Reachable m'
  | clear {m : HashMap K V} : Reachable m → Reachable m.clear

/-- Successive `insert` calls on the pairs of a sequence, as in the loop of the range
constructor. -/
def HashMap.insertAll [DecidableEq K] (m : HashMap K V) :
    List (K × V) → Except Fault (HashMap K V)
  | [] => .ok m
  | kv :: rest =>
    match m.insert kv with
    | .error f => .error f
    | .ok m1 => m1.insertAll rest

/-- A call of `insert` or of `erase`. -/
inductive Op (K V : Type) where
  | insert (kv : K × V)
  | erase (k : K)

/-- A sequence of `insert` and `erase` calls on one map object. -/
def HashMap.run [DecidableEq K] (m : HashMap K V) : List (Op K V) → Except Fault (HashMap K V)
  | [] => .ok m
  | Op.insert kv :: rest =>
    match m.insert kv with
    | .error f => .error f
    | .ok m1 => m1.run rest
  | Op.erase k :: rest =>
    match m.erase k with
    | .error f => .error f
    | .ok m1 => m1.run rest

/-- Reference insertion-ordered association list: `insert` appends the pair at the back if
the key is absent and does nothing otherwise. -/
def refInsert [DecidableEq K] (l : List (K × V)) (kv : K × V) : List (K × V) :=
  if kv.1 ∈ l.map Prod.fst then l else l ++ [kv]

/-- Reference insertion-ordered association list: `erase` removes the pair with the key. -/
def refErase [DecidableEq K] (l : List (K × V)) (k : K) : List (K × V) :=
  l.filter fun p => decide (p.1 ≠ k)

/-- The reference list after a sequence of calls. -/
def refRun [DecidableEq K] (l : List (K × V)) : List (Op K V) → List (K × V)
  | [] => l
  | Op.insert kv :: rest => refRun (refInsert l kv) rest
  | Op.erase k :: rest => refRun (refErase l k) rest

/-- The map built by `HashMap<int,int> m; m.insert({1, 10}); m.insert({9, 20});` with the
identity hash: both keys have home slot 1. -/
def sampleMap : HashMap Nat Nat :=
  { listId := 0, fresh := 2, elements_ := [⟨0, 1, 10⟩, ⟨1, 9, 20⟩],
    table_ := [Iter.endOf 0, Iter.node 0 0, Iter.node 0 1, Iter.endOf 0, Iter.endOf 0,
      Iter.endOf 0, Iter.endOf 0, Iter.endOf 0],
    probe_seq_lens_ := [0, 0, 1, 0, 0, 0, 0, 0],
    hasher_ := id }

/-- The copy assignment `*this = oth` in a store of map objects, where `dst` and `src` are
the addresses of `*this` and of `oth` and may be equal. The range-for loop runs over the
nodes `oth.elements_` holds when the loop starts: with `dst ≠ src` the loop does not change
that list, and with `dst = src` the list has just been cleared. -/
def copyAssign (store : Nat → HashMap K V) (dst src : Nat) : Nat → HashMap K V :=
  let s1 := Function.update store dst { store dst with elements_ := [] }
  let s2 := (s1 src).elements_.foldl
    (fun s x => Function.update s dst ((s dst).emplaceBack x.key x.val)) s1
  let s3 := Function.update s2 dst { s2 dst with table_ := (s2 src).table_ }
  let s4 := Function.update s3 dst { s3 dst with probe_seq_lens_ := (s3 src).probe_seq_lens_ }
  Function.update s4 dst { s4 dst with hasher_ := (s4 src).hasher_ }

/-- The map built by `HashMap<int,int> b; b.insert({1, 10});` with the identity hash, for
the list object with identity 1. -/
def sampleOther : HashMap Nat Nat :=
  { listId := 1, fresh := 1, elements_ := [⟨0, 1, 10⟩],
    table_ := [Iter.endOf 1, Iter.node 1 0, Iter.endOf 1, Iter.endOf 1, Iter.endOf 1,
      Iter.endOf 1, Iter.endOf 1, Iter.endOf 1],
    probe_seq_lens_ := [0, 0, 0, 0, 0, 0, 0, 0],
    hasher_ := id }

/-- A store with an empty map `a` at address 0 and the map `sampleOther` at the other
addresses. -/
def sampleStore : Nat → HashMap Nat Nat :=
  fun a => if a = 0 then HashMap.new 0 id else sampleOther

/-- The capacity after `n` further `insert` calls with keys that are not present, starting
from `cap` slots and `size` entries. -/
def growCap : Nat → Nat → Nat → Nat
  | cap, _, 0 => cap
  | cap, size, n + 1 => growCap (if needsRehash size cap then cap * 2 else cap) (size + 1) n

/-- The range constructor `HashMap(begin, end, hash)` on the pairs `kvs`, for a list object
with identity `l`. The constructor from an initializer list delegates to it. -/
def HashMap.fromRange [DecidableEq K] (l : Nat) (kvs : List (K × V)) (hash : K → Nat) :
    Except Fault (HashMap K V) :=
  (HashMap.new l hash).insertAll kvs

/-- The copy constructor `HashMap(const HashMap &oth)`, for a list object with identity
`l`: the range constructor on `oth.begin()`, `oth.end()` and `oth.hasher_`. -/
def HashMap.copy [DecidableEq K] (l : Nat) (oth : HashMap K V) : Except Fault (HashMap K V) :=
  HashMap.fromRange l oth.toList oth.hasher_

/-- The pair `*find(key)`, or `none` when `find(key)` returns `end()`. -/
def HashMap.lookup [DecidableEq K] (m : HashMap K V) (key : K) :
    Except Fault (Option (K × V)) :=
  match m.find key with
  | .error f => .error f
  | .ok it =>
    if it = m.endIt then .ok none
    else
      match m.deref it with
      | .error f => .error f
      | .ok e => .ok (some (e.key, e.val))

/-- Reference association list: the first pair with the key, if any. -/
def refLookup [DecidableEq K] (l : List (K × V)) (k : K) : Option (K × V) :=
  l.find? fun p => decide (p.1 = k)

/-- The first pair of every key of a sequence, in the order of these first occurrences. -/
def firstOccurrences [DecidableEq K] : List (K × V) → List (K × V)
  | [] => []
  | kv :: rest => kv :: (firstOccurrences rest).filter fun p => decide (p.1 ≠ kv.1)

/-- The number of slots of the index table that do not hold `elements_.end()`. -/
def HashMap.occupied (m : HashMap K V) : Nat :=
  (m.table_.filter fun x => decide (x ≠ m.endIt)).length

/-- A call of a public member on a map object: `insert`, `erase`, `operator[]` read as
a value (`index`), the assignment `m[k] = v` (`indexAssign`), `find`, `at` (`atKey`) and
`clear`. -/
inductive Call (K V : Type) where
  | insert (kv : K × V)
  | erase (k : K)
  | index (k : K)
  | indexAssign (k : K) (v : V)
  | find (k : K)
  | atKey (k : K)
  | clear

/-- What a call hands back to its caller: nothing, the outcome of `find` (the pair the
iterator points to, or `none` for `end()`), the value a returned reference denotes, or the
`std::out_of_range` exception of `at`. -/
inductive Out (K V : Type) where
  | done
  | found (p : Option (K × V))
  | value (v : V)
  | outOfRange

/-- One call: the map after the call and what the caller receives. The exception of `at`
leaves the map as it is; a fault of any other kind ends the run. -/
def HashMap.call [DecidableEq K] [Inhabited V] (m : HashMap K V) :
    Call K V → Except Fault (HashMap K V × Out K V)
  | Call.insert kv =>
    match m.insert kv with
    | .error f => .error f
    | .ok m1 => .ok (m1, Out.done)
  | Call.erase k =>
    match m.erase k with
    | .error f => .error f
    | .ok m1 => .ok (m1, Out.done)
  | Call.index k =>
    match m.index k with
    | .error f => .error f
    | .ok (m1, it) =>
      match m1.deref it with
      | .error f => .error f
      | .ok e => .ok (m1, Out.value e.val)
  | Call.indexAssign k v =>
    match m.indexAssign k v with
    | .error f => .error f
    | .ok m1 => .ok (m1, Out.done)
  | Call.find k =>
    match m.lookup k with
    | .error f => .error f
    | .ok p => .ok (m, Out.found p)
  | Call.atKey k =>
    match m.at k with
    | .ok v => .ok (m, Out.value v)
    | .error Fault.outOfRange => .ok (m, Out.outOfRange)
    | .error f => .error f
  | Call.clear => .ok (m.clear, Out.done)

/-- A sequence of calls on one map object: for every call what the caller receives, and
`size()` and the iteration sequence after the call. -/
def HashMap.trace [DecidableEq K] [Inhabited V] (m : HashMap K V) :
    List (Call K V) → Except Fault (List (Out K V × Nat × List (K × V)))
  | [] => .ok []
  | c :: rest =>
    match m.call c with
    | .error f => .error f
    | .ok (m1, o) =>
      match m1.trace rest with
      | .error f => .error f
      | .ok t => .ok ((o, m1.size, m1.toList) :: t)

/-- The map after a sequence of calls. -/
def HashMap.calls [DecidableEq K] [Inhabited V] (m : HashMap K V) :
    List (Call K V) → Except Fault (HashMap K V)
  | [] => .ok m
  | c :: rest =>
    match m.call c with
    | .error f => .error f
    | .ok (m1, _) => m1.calls rest

/-- Reference association list: the list after a call and what the caller receives. -/
def refCall [DecidableEq K] [Inhabited V] (l : List (K × V)) :
    Call K V → List (K × V) × Out K V
  | Call.insert kv => (refInsert l kv, Out.done)
  | Call.erase k => (refErase l k, Out.done)
  | Call.index k =>
    match refLookup l k with
    | some p => (l, Out.value p.2)
    | none => (l ++ [(k, default)], Out.value default)
  | Call.indexAssign k v =>
    match refLookup l k with
    | some _ => (l.map (fun p => if p.1 = k then (p.1, v) else p), Out.done)
    | none => (l ++ [(k, v)], Out.done)
  | Call.find k => (l, Out.found (refLookup l k))
  | Call.atKey k =>
    match refLookup l k with
    | some p => (l, Out.value p.2)
    | none => (l, Out.outOfRange)
  | Call.clear => ([], Out.done)

/-- Reference association list: the observations of a sequence of calls. -/
def refTrace [DecidableEq K] [Inhabited V] (l : List (K × V)) :
    List (Call K V) → List (Out K V × Nat × List (K × V))
  | [] => []
  | c :: rest => ((refCall l c).2, (refCall l c).1.length, (refCall l c).1) ::
      refTrace (refCall l c).1 rest

/-- Reference association list: the list after a sequence of calls. -/
def refCalls [DecidableEq K] [Inhabited V] (l : List (K × V)) :
    List (Call K V) → List (K × V)
  | [] => l
  | c :: rest => refCalls (refCall l c).1 rest

/-! ## Theorems -/

theorem getD_set_self {α : Type} (l : List α) (i : Nat) (a dflt : α) (h : i < l.length) :
    (l.set i a).getD i dflt = a := by
  simp [List.getD_eq_getElem?_getD, List.getElem?_set, h]

theorem getD_set_ne {α : Type} (l : List α) (i j : Nat) (a dflt : α) (h : i ≠ j) :
    (l.set i a).getD j dflt = l.getD j dflt := by
  simp [List.getD_eq_getElem?_getD, List.getElem?_set, h]

theorem nextPos_mod (n a : Nat) : nextPos n (a % n) = (a + 1) % n := by
  rcases Nat.eq_zero_or_pos n with rfl | hn
  · simp [nextPos]
  · unfold nextPos
    have hlt : a % n < n := Nat.mod_lt _ hn
    have e : (a + 1) % n = (a % n + 1) % n := (Nat.mod_add_mod a n 1).symm
    rw [e]
    generalize a % n = r at hlt
    split
    · next h => rw [h, Nat.mod_self]
    · next h => rw [Nat.mod_eq_of_lt (by omega)]

theorem mod_add_inj (n s a b : Nat) (ha : a < n) (hb : b < n)
    (h : (s + a) % n = (s + b) % n) : a = b := by
  have h1 : a ≡ b [MOD n] := Nat.ModEq.add_left_cancel' s h
  exact Nat.ModEq.eq_of_lt_of_lt h1 ha hb

theorem perm_set_cons (t : List Iter) (p : Nat) (y dflt : Iter) (hp : p < t.length) :
    (t.getD p dflt :: t.set p y) ~ (y :: t) := by
  rw [List.perm_iff_count]
  intro a
  rw [List.count_cons, List.count_cons, List.count_set _ _ _ _ hp, List.getD_eq_getElem _ _ hp]
  have hpos : (t[p] == a) = true → 0 < List.count a t := by
    intro h
    have : t[p] = a := by simpa using h
    rw [← this]
    exact List.count_pos_iff.mpr (List.getElem_mem _)
  by_cases h1 : (t[p] == a) = true <;> by_cases h2 : (y == a) = true
  · have := hpos h1
    simp only [h1, h2, if_true]
    omega
  · have := hpos h1
    simp only [h1, h2, if_true, if_false, Bool.false_eq_true]
    omega
  · simp only [h1, h2, if_true, if_false, Bool.false_eq_true]
    omega
  · simp only [h1, h2, if_true, if_false, Bool.false_eq_true]
    omega

theorem TInv.set_slot {endIt : Iter} {home : Iter → Nat} {t : List Iter} {d : List Nat}
    (h : TInv endIt home t d) (p : Nat) (hp : p < t.length) (x : Iter) (c : Nat)
    (hx : x ≠ endIt) (hc : c < t.length) (hok : (home x + c) % t.length = p)
    (hprev : 0 < c → ∀ j, (j + 1) % t.length = p →
      t.getD (j % t.length) endIt ≠ endIt ∧ c ≤ d.getD (j % t.length) 0 + 1)
    (hnext : ∀ j, j % t.length = p → t.getD ((j + 1) % t.length) endIt ≠ endIt →
      0 < d.getD ((j + 1) % t.length) 0 → d.getD ((j + 1) % t.length) 0 ≤ c + 1) :
    TInv endIt home (t.set p x) (d.set p c) := by
  have hpd : p < d.length := by rw [h.len]; exact hp
  refine ⟨by simp [h.len], ?_, ?_, ?_⟩
  · intro i hi hocc
    rw [List.length_set] at hi ⊢
    by_cases hip : p = i
    · subst hip
      rw [getD_set_self _ _ _ _ hpd]
      exact hc
    · rw [getD_set_ne _ _ _ _ _ hip] at hocc ⊢
      exact h.psl_lt i hi hocc
  · intro i hi hocc
    rw [List.length_set] at hi ⊢
    by_cases hip : p = i
    · subst hip
      rw [getD_set_self _ _ _ _ hpd, getD_set_self _ _ _ _ hp]
      exact hok
    · rw [getD_set_ne _ _ _ _ _ hip] at hocc ⊢
      rw [getD_set_ne _ _ _ _ _ hip]
      exact h.psl_ok i hi hocc
  · intro j hocc hpos
    rw [List.length_set] at hocc hpos ⊢
    by_cases ha : p = (j + 1) % t.length
    · rw [← ha] at hocc hpos ⊢
      rw [getD_set_self _ _ _ _ hpd] at hpos ⊢
      have hp1 := hprev hpos j ha.symm
      by_cases hb : p = j % t.length
      · rw [← hb, getD_set_self _ _ _ _ hp, getD_set_self _ _ _ _ hpd]
        exact ⟨hx, by omega⟩
      · rw [getD_set_ne _ _ _ _ _ hb, getD_set_ne _ _ _ _ _ hb]
        exact hp1
    · rw [getD_set_ne _ _ _ _ _ ha] at hocc hpos ⊢
      by_cases hb : p = j % t.length
      · rw [← hb, getD_set_self _ _ _ _ hp, getD_set_self _ _ _ _ hpd]
        exact ⟨hx, hnext j hb.symm hocc hpos⟩
      · rw [getD_set_ne _ _ _ _ _ hb, getD_set_ne _ _ _ _ _ hb]
        exact h.chain j hocc hpos

theorem mod_succ_congr (n a b : Nat) (h : a % n = b % n) : (a + 1) % n = (b + 1) % n := by
  rw [← Nat.mod_add_mod, h, Nat.mod_add_mod]

theorem placeLoop_spec (endIt : Iter) (home : Iter → Nat) (n s : Nat) :
    ∀ (k fuel : Nat) (t : List Iter) (d : List Nat) (it : Iter) (c j : Nat),
      t.length = n → TInv endIt home t d → it ≠ endIt →
      c ≤ j → j + k < n → k < fuel →
      (home it + c) % n = (s + j) % n →
      (∀ i, i < k → t.getD ((s + j + i) % n) endIt ≠ endIt) →
      t.getD ((s + j + k) % n) endIt = endIt →
      (0 < c → t.getD ((s + j - 1) % n) endIt ≠ endIt ∧
        c ≤ d.getD ((s + j - 1) % n) 0 + 1) →
      ∃ t' d', placeLoop endIt fuel t d it c ((s + j) % n) = .ok (t', d') ∧
        t'.length = n ∧ TInv endIt home t' d' ∧ (endIt :: t') ~ (it :: t) := by
  intro k
  induction k with
  | zero =>
    intro fuel t d it c j hlen hinv hit hcj hjk hfuel hhome _ hend hcar
    subst hlen
    obtain ⟨f, rfl⟩ : ∃ f, fuel = f + 1 := ⟨fuel - 1, by omega⟩
    have hn : 0 < t.length := by omega
    have hpos : (s + j) % t.length < t.length := Nat.mod_lt _ hn
    rw [Nat.add_zero] at hend
    refine ⟨t.set ((s + j) % t.length) it, d.set ((s + j) % t.length) c, ?_, ?_, ?_, ?_⟩
    · rw [placeLoop, if_neg (by rw [hend]; exact fun h => h rfl)]
    · simp
    · apply hinv.set_slot _ hpos _ _ hit (by omega) hhome
      · intro hc j0 hj0
        have hcar1 := hcar hc
        have e : j0 % t.length = (s + j - 1) % t.length := by
          apply Nat.ModEq.add_right_cancel' 1
          show (j0 + 1) % t.length = (s + j - 1 + 1) % t.length
          rw [hj0]; congr 1; omega
        rw [e]; exact hcar1
      · intro j0 hj0 hocc hpos1
        have := (hinv.chain j0 hocc hpos1).1
        rw [hj0] at this
        exact absurd hend this
    · have := perm_set_cons t ((s + j) % t.length) it endIt hpos
      rw [hend] at this
      exact this
  | succ k ih =>
    intro fuel t d it c j hlen hinv hit hcj hjk hfuel hhome hseg hend hcar
    subst hlen
    obtain ⟨f, rfl⟩ : ∃ f, fuel = f + 1 := ⟨fuel - 1, by omega⟩
    have hn : 0 < t.length := by omega
    have hpos : (s + j) % t.length < t.length := Nat.mod_lt _ hn
    have hocc : t.getD ((s + j) % t.length) endIt ≠ endIt := by
      have := hseg 0 (by omega)
      rwa [Nat.add_zero] at this
    have hne : ∀ i, i < k + 1 → (s + j) % t.length ≠ (s + (j + 1) + i) % t.length := by
      intro i hi heq
      have := mod_add_inj t.length s j (j + 1 + i) (by omega) (by omega)
        (by rw [heq]; congr 1; omega)
      omega
    have hnext : nextPos t.length ((s + j) % t.length) = (s + (j + 1)) % t.length := by
      rw [nextPos_mod]; congr 1
    rw [placeLoop, if_pos hocc]
    by_cases hsw : d.getD ((s + j) % t.length) 0 < c
    · rw [if_pos hsw, hnext]
      have hinv1 : TInv endIt home (t.set ((s + j) % t.length) it)
          (d.set ((s + j) % t.length) c) := by
        apply hinv.set_slot _ hpos _ _ hit (by omega) hhome
        · intro hc j0 hj0
          have hcar1 := hcar hc
          have e : j0 % t.length = (s + j - 1) % t.length := by
            apply Nat.ModEq.add_right_cancel' 1
            show (j0 + 1) % t.length = (s + j - 1 + 1) % t.length
            rw [hj0]; congr 1; omega
          rw [e]; exact hcar1
        · intro j0 hj0 hocc1 hpos1
          have := (hinv.chain j0 hocc1 hpos1).2
          rw [hj0] at this
          omega
      obtain ⟨t', d', hrun, hlen', hinv', hperm⟩ :=
        ih f (t.set ((s + j) % t.length) it) (d.set ((s + j) % t.length) c)
          (t.getD ((s + j) % t.length) endIt)
          (d.getD ((s + j) % t.length) 0 + 1) (j + 1) (by simp) hinv1 hocc (by omega)
          (by omega) (by omega)
          (mod_succ_congr _ _ _ (hinv.psl_ok _ hpos hocc))
          (by
            intro i hi
            rw [getD_set_ne _ _ _ _ _ (hne i (by omega))]
            have := hseg (i + 1) (by omega)
            have e : s + j + (i + 1) = s + (j + 1) + i := by omega
            rwa [e] at this)
          (by
            rw [getD_set_ne _ _ _ _ _ (hne k (by omega))]
            have e : s + j + (k + 1) = s + (j + 1) + k := by omega
            rwa [e] at hend)
          (by
            intro _
            have e : s + (j + 1) - 1 = s + j := by omega
            rw [e, getD_set_self _ _ _ _ hpos,
              getD_set_self _ _ _ _ (by rw [hinv.len]; exact hpos)]
            exact ⟨hit, by omega⟩)
      refine ⟨t', d', hrun, by simpa using hlen', hinv', hperm.trans ?_⟩
      exact perm_set_cons t ((s + j) % t.length) it endIt hpos
    · rw [if_neg hsw, hnext]
      obtain ⟨t', d', hrun, hlen', hinv', hperm⟩ :=
        ih f t d it (c + 1) (j + 1) rfl hinv hit (by omega) (by omega) (by omega)
          (mod_succ_congr _ _ _ hhome)
          (by
            intro i hi
            have := hseg (i + 1) (by omega)
            have e : s + j + (i + 1) = s + (j + 1) + i := by omega
            rwa [e] at this)
          (by
            have e : s + j + (k + 1) = s + (j + 1) + k := by omega
            rwa [e] at hend)
          (by
            intro _
            have e : s + (j + 1) - 1 = s + j := by omega
            rw [e]
            exact ⟨hocc, by omega⟩)
      exact ⟨t', d', hrun, hlen', hinv', hperm⟩

theorem mod_pred_congr (n a b : Nat) (h : (a + 1) % n = (b + 1) % n) : a % n = b % n :=
  Nat.ModEq.add_right_cancel' 1 h

theorem mod_add_ne (n s a b : Nat) (ha : a < n) (hb : b < n) (hab : a ≠ b) :
    (s + a) % n ≠ (s + b) % n :=
  fun h => hab (mod_add_inj n s a b ha hb h)

theorem exists_first (P : Nat → Prop) [DecidablePred P] (n s : Nat)
    (h : ∃ i, i < n ∧ P i) :
    ∃ k, k < n ∧ P ((s + k) % n) ∧ ∀ i, i < k → ¬ P ((s + i) % n) := by
  obtain ⟨i, hi, hP⟩ := h
  have hn : 0 < n := by omega
  have hex : ∃ k, k < n ∧ P ((s + k) % n) := by
    refine ⟨(i + n - s % n) % n, Nat.mod_lt _ hn, ?_⟩
    have hs : s % n < n := Nat.mod_lt _ hn
    have e : (s + (i + n - s % n) % n) % n = i := by
      rw [Nat.add_mod_mod, ← Nat.mod_add_mod]
      have : s % n + (i + n - s % n) = i + n := by omega
      rw [this, Nat.add_mod_right, Nat.mod_eq_of_lt hi]
    rw [e]; exact hP
  refine ⟨Nat.find hex, (Nat.find_spec hex).1, (Nat.find_spec hex).2, ?_⟩
  intro i0 hi0 hP0
  have hlt := (Nat.find_spec hex).1
  exact Nat.find_min hex hi0 ⟨by omega, hP0⟩

theorem placeLoop_ok (endIt : Iter) (home : Iter → Nat) (t : List Iter) (d : List Nat)
    (it : Iter) (hinv : TInv endIt home t d) (hit : it ≠ endIt)
    (hempty : ∃ i, i < t.length ∧ t.getD i endIt = endIt) :
    ∃ t' d', placeLoop endIt t.length t d it 0 (home it % t.length) = .ok (t', d') ∧
      t'.length = t.length ∧ TInv endIt home t' d' ∧ (endIt :: t') ~ (it :: t) := by
  obtain ⟨k, hk, hend, hseg⟩ :=
    exists_first (fun i => t.getD i endIt = endIt) t.length (home it) hempty
  have := placeLoop_spec endIt home t.length (home it) k t.length t d it 0 0 rfl hinv hit
    (Nat.le_refl _) (by omega) hk rfl (fun i hi => hseg i hi) hend (fun h => absurd h (by omega))
  exact this

theorem getD_swapAt_left {α : Type} (l : List α) (dflt : α) (i j : Nat)
    (hi : i < l.length) (hij : i ≠ j) :
    (swapAt l dflt i j).getD i dflt = l.getD j dflt := by
  unfold swapAt
  rw [getD_set_ne _ _ _ _ _ (Ne.symm hij), getD_set_self _ _ _ _ hi]

theorem getD_swapAt_right {α : Type} (l : List α) (dflt : α) (i j : Nat)
    (hj : j < l.length) :
    (swapAt l dflt i j).getD j dflt = l.getD i dflt := by
  unfold swapAt
  rw [getD_set_self _ _ _ _ (by simpa using hj)]

theorem getD_swapAt_ne {α : Type} (l : List α) (dflt : α) (i j x : Nat)
    (hi : i ≠ x) (hj : j ≠ x) :
    (swapAt l dflt i j).getD x dflt = l.getD x dflt := by
  unfold swapAt
  rw [getD_set_ne _ _ _ _ _ hj, getD_set_ne _ _ _ _ _ hi]

theorem length_swapAt {α : Type} (l : List α) (dflt : α) (i j : Nat) :
    (swapAt l dflt i j).length = l.length := by
  simp [swapAt]

theorem swapAt_perm (t : List Iter) (dflt : Iter) (i j : Nat) (hi : i < t.length)
    (hj : j < t.length) : swapAt t dflt i j ~ t := by
  unfold swapAt
  have h1 := perm_set_cons t i (t.getD j dflt) dflt hi
  have h2 := perm_set_cons (t.set i (t.getD j dflt)) j (t.getD i dflt) dflt (by simpa using hj)
  have hx : (t.set i (t.getD j dflt)).getD j dflt = t.getD j dflt := by
    by_cases hij : i = j
    · subst hij
      rw [getD_set_self _ _ _ _ hi]
    · rw [getD_set_ne _ _ _ _ _ hij]
  rw [hx] at h2
  exact (List.perm_cons _).mp (h2.trans h1)

theorem shiftLoop_spec (endIt : Iter) (home : Iter → Nat) (n p : Nat) :
    ∀ (k fuel : Nat) (t : List Iter) (d : List Nat) (j g : Nat),
      t.length = n → d.length = n → j + 1 + k < n → k < fuel →
      t.getD ((p + j) % n) endIt = endIt → d.getD ((p + j) % n) 0 = 0 →
      (∀ i, i < n → t.getD i endIt ≠ endIt → d.getD i 0 < n) →
      (∀ i, i < n → t.getD i endIt ≠ endIt → (home (t.getD i endIt) + d.getD i 0) % n = i) →
      (∀ j0, (j0 + 1) % n ≠ (p + j + 1) % n → t.getD ((j0 + 1) % n) endIt ≠ endIt →
        0 < d.getD ((j0 + 1) % n) 0 →
        t.getD (j0 % n) endIt ≠ endIt ∧ d.getD ((j0 + 1) % n) 0 ≤ d.getD (j0 % n) 0 + 1) →
      (t.getD ((p + j + 1) % n) endIt ≠ endIt → 0 < d.getD ((p + j + 1) % n) 0 →
        d.getD ((p + j + 1) % n) 0 ≤ g + 1) →
      (0 < g → t.getD ((p + j + n - 1) % n) endIt ≠ endIt ∧
        g ≤ d.getD ((p + j + n - 1) % n) 0 + 1) →
      (∀ i, i < k → t.getD ((p + j + 1 + i) % n) endIt ≠ endIt ∧
        0 < d.getD ((p + j + 1 + i) % n) 0) →
      ¬ (t.getD ((p + j + 1 + k) % n) endIt ≠ endIt ∧ 0 < d.getD ((p + j + 1 + k) % n) 0) →
      ∃ t' d', shiftLoop endIt fuel t d ((p + j) % n) ((p + j + 1) % n) = .ok (t', d') ∧
        t'.length = n ∧ TInv endIt home t' d' ∧ t' ~ t := by
  intro k
  induction k with
  | zero =>
    intro fuel t d j g hlen hdlen hjk hfuel hpe hpd hlt hok hchain hg1 hg2 hseg hstop
    obtain ⟨f, rfl⟩ : ∃ f, fuel = f + 1 := ⟨fuel - 1, by omega⟩
    rw [Nat.add_zero] at hstop
    refine ⟨t, d, ?_, hlen, ?_, List.Perm.refl _⟩
    · rw [shiftLoop, if_neg hstop]
    · subst hlen
      refine ⟨hdlen, hlt, hok, ?_⟩
      intro j0 hocc hpos
      by_cases hj0 : (j0 + 1) % t.length = (p + j + 1) % t.length
      · rw [hj0] at hocc hpos
        exact absurd ⟨hocc, hpos⟩ hstop
      · exact hchain j0 hj0 hocc hpos
  | succ k ih =>
    intro fuel t d j g hlen hdlen hjk hfuel hpe hpd hlt hok hchain hg1 hg2 hseg hstop
    obtain ⟨f, rfl⟩ : ∃ f, fuel = f + 1 := ⟨fuel - 1, by omega⟩
    have hn : 0 < n := by omega
    have hcur := hseg 0 (by omega)
    rw [Nat.add_zero] at hcur
    obtain ⟨hco, hcd⟩ := hcur
    -- abbreviations for the three positions
    have hprev_lt : (p + j) % n < n := Nat.mod_lt _ hn
    have hcur_lt : (p + j + 1) % n < n := Nat.mod_lt _ hn
    have hpc : (p + j) % n ≠ (p + j + 1) % n :=
      mod_add_ne n p j (j + 1) (by omega) (by omega) (by omega)
    have hnx : (p + j + 1 + 1) % n ≠ (p + j + 1) % n :=
      mod_add_ne n p (j + 1 + 1) (j + 1) (by omega) (by omega) (by omega)
    have hnp : (p + j + 1 + 1) % n ≠ (p + j) % n :=
      mod_add_ne n p (j + 1 + 1) j (by omega) (by omega) (by omega)
    have hpp_eq : ((p + j + n - 1) + 1) % n = (p + j) % n := by
      have : p + j + n - 1 + 1 = p + j + n := by omega
      rw [this, Nat.add_mod_right]
    have hpp_p : (p + j + n - 1) % n ≠ (p + j) % n := by
      intro h
      have h1 := mod_succ_congr _ _ _ h
      rw [hpp_eq] at h1
      exact hpc h1
    have hpp_c : (p + j + n - 1) % n ≠ (p + j + 1) % n := by
      intro h
      have h1 := mod_succ_congr _ _ _ h
      rw [hpp_eq] at h1
      exact hnp h1.symm
    -- the arrays after one move
    have hT_prev : (swapAt t endIt ((p + j) % n) ((p + j + 1) % n)).getD ((p + j) % n) endIt
        = t.getD ((p + j + 1) % n) endIt :=
      getD_swapAt_left _ _ _ _ (by rw [hlen]; exact hprev_lt) hpc
    have hT_cur : (swapAt t endIt ((p + j) % n) ((p + j + 1) % n)).getD ((p + j + 1) % n) endIt
        = endIt := by
      rw [getD_swapAt_right _ _ _ _ (by rw [hlen]; exact hcur_lt), hpe]
    have hT_ne : ∀ x, x ≠ (p + j) % n → x ≠ (p + j + 1) % n →
        (swapAt t endIt ((p + j) % n) ((p + j + 1) % n)).getD x endIt = t.getD x endIt :=
      fun x h1 h2 => getD_swapAt_ne _ _ _ _ _ (Ne.symm h1) (Ne.symm h2)
    have hD_prev : (swapAt (d.set ((p + j + 1) % n) (d.getD ((p + j + 1) % n) 0 - 1)) 0
        ((p + j) % n) ((p + j + 1) % n)).getD ((p + j) % n) 0
        = d.getD ((p + j + 1) % n) 0 - 1 := by
      rw [getD_swapAt_left _ _ _ _ (by simp [hdlen]; exact hprev_lt) hpc,
        getD_set_self _ _ _ _ (by rw [hdlen]; exact hcur_lt)]
    have hD_cur : (swapAt (d.set ((p + j + 1) % n) (d.getD ((p + j + 1) % n) 0 - 1)) 0
        ((p + j) % n) ((p + j + 1) % n)).getD ((p + j + 1) % n) 0 = 0 := by
      rw [getD_swapAt_right _ _ _ _ (by simp [hdlen]; exact hcur_lt),
        getD_set_ne _ _ _ _ _ (Ne.symm hpc), hpd]
    have hD_ne : ∀ x, x ≠ (p + j) % n → x ≠ (p + j + 1) % n →
        (swapAt (d.set ((p + j + 1) % n) (d.getD ((p + j + 1) % n) 0 - 1)) 0
        ((p + j) % n) ((p + j + 1) % n)).getD x 0 = d.getD x 0 := by
      intro x h1 h2
      rw [getD_swapAt_ne _ _ _ _ _ (Ne.symm h1) (Ne.symm h2), getD_set_ne _ _ _ _ _ (Ne.symm h2)]
    have hnext : nextPos t.length ((p + j + 1) % n) = (p + j + 1 + 1) % n := by
      rw [hlen, nextPos_mod]
    have hT_len : (swapAt t endIt ((p + j) % n) ((p + j + 1) % n)).length = n := by
      rw [length_swapAt, hlen]
    have hD_len : (swapAt (d.set ((p + j + 1) % n) (d.getD ((p + j + 1) % n) 0 - 1)) 0
        ((p + j) % n) ((p + j + 1) % n)).length = n := by
      rw [length_swapAt, List.length_set, hdlen]
    have hT_perm : swapAt t endIt ((p + j) % n) ((p + j + 1) % n) ~ t :=
      swapAt_perm _ _ _ _ (by rw [hlen]; exact hprev_lt) (by rw [hlen]; exact hcur_lt)
    rw [shiftLoop, if_pos ⟨hco, hcd⟩, hnext]
    generalize swapAt t endIt ((p + j) % n) ((p + j + 1) % n) = t1 at *
    generalize swapAt (d.set ((p + j + 1) % n) (d.getD ((p + j + 1) % n) 0 - 1)) 0
        ((p + j) % n) ((p + j + 1) % n) = d1 at *
    have hseg_ne : ∀ i, i < k + 1 → (p + j + 1 + 1 + i) % n ≠ (p + j) % n ∧
        (p + j + 1 + 1 + i) % n ≠ (p + j + 1) % n := by
      intro i hi
      have e : p + j + 1 + 1 + i = p + (j + 1 + 1 + i) := by omega
      rw [e]
      exact ⟨mod_add_ne n p _ j (by omega) (by omega) (by omega),
        mod_add_ne n p _ (j + 1) (by omega) (by omega) (by omega)⟩
    obtain ⟨t', d', hrun, hlen', hinv', hperm⟩ :=
      ih f t1 d1 (j + 1) (d.getD ((p + j + 1) % n) 0) hT_len hD_len (by omega) (by omega)
        hT_cur hD_cur
        (by
          intro i hi hocc
          by_cases h1 : i = (p + j) % n
          · subst h1; rw [hD_prev]
            have := hlt _ hcur_lt hco
            omega
          · by_cases h2 : i = (p + j + 1) % n
            · subst h2; exact absurd hT_cur hocc
            · rw [hT_ne i h1 h2] at hocc
              rw [hD_ne i h1 h2]
              exact hlt i hi hocc)
        (by
          intro i hi hocc
          by_cases h1 : i = (p + j) % n
          · subst h1; rw [hD_prev, hT_prev]
            have h3 := hok _ hcur_lt hco
            have h4 : (home (t.getD ((p + j + 1) % n) endIt)
                + (d.getD ((p + j + 1) % n) 0 - 1) + 1) % n = (p + j + 1) % n := by
              have : home (t.getD ((p + j + 1) % n) endIt)
                + (d.getD ((p + j + 1) % n) 0 - 1) + 1
                = home (t.getD ((p + j + 1) % n) endIt) + d.getD ((p + j + 1) % n) 0 := by
                omega
              rw [this, h3]
            exact mod_pred_congr _ _ _ h4
          · by_cases h2 : i = (p + j + 1) % n
            · subst h2; exact absurd hT_cur hocc
            · rw [hT_ne i h1 h2] at hocc ⊢
              rw [hD_ne i h1 h2]
              exact hok i hi hocc)
        (by
          intro j0 hj0 hocc hpos
          have hb_c : j0 % n ≠ (p + j + 1) % n := by
            intro h
            exact hj0 (mod_succ_congr _ _ _ h)
          by_cases ha_c : (j0 + 1) % n = (p + j + 1) % n
          · rw [ha_c] at hocc
            exact absurd hT_cur hocc
          · by_cases ha_p : (j0 + 1) % n = (p + j) % n
            · have hb : j0 % n = (p + j + n - 1) % n := by
                apply mod_pred_congr
                rw [ha_p, hpp_eq]
              rw [ha_p] at hocc hpos ⊢
              rw [hD_prev] at hpos ⊢
              rw [hb, hT_ne _ hpp_p hpp_c, hD_ne _ hpp_p hpp_c]
              have h1 := hg1 hco hcd
              have h2 := hg2 (by omega)
              exact ⟨h2.1, by omega⟩
            · have hb_p : j0 % n ≠ (p + j) % n := by
                intro h
                exact ha_c (mod_succ_congr _ _ _ h)
              rw [hT_ne _ ha_p ha_c] at hocc
              rw [hD_ne _ ha_p ha_c] at hpos ⊢
              rw [hT_ne _ hb_p hb_c, hD_ne _ hb_p hb_c]
              exact hchain j0 ha_c hocc hpos)
        (by
          intro hocc hpos
          show d1.getD ((p + j + 1 + 1) % n) 0 ≤ d.getD ((p + j + 1) % n) 0 + 1
          change t1.getD ((p + j + 1 + 1) % n) endIt ≠ endIt at hocc
          change 0 < d1.getD ((p + j + 1 + 1) % n) 0 at hpos
          rw [hT_ne _ hnp hnx] at hocc
          rw [hD_ne _ hnp hnx] at hpos ⊢
          exact (hchain (p + j + 1) hnx hocc hpos).2)
        (by
          intro _
          have e : (p + (j + 1) + n - 1) % n = (p + j) % n := by
            have : p + (j + 1) + n - 1 = p + j + n := by omega
            rw [this, Nat.add_mod_right]
          rw [e, hT_prev, hD_prev]
          exact ⟨hco, by omega⟩)
        (by
          intro i hi
          obtain ⟨h1, h2⟩ := hseg_ne i (by omega)
          show t1.getD ((p + j + 1 + 1 + i) % n) endIt ≠ endIt ∧
            0 < d1.getD ((p + j + 1 + 1 + i) % n) 0
          rw [hT_ne _ h1 h2, hD_ne _ h1 h2]
          have := hseg (i + 1) (by omega)
          have e : p + j + 1 + (i + 1) = p + j + 1 + 1 + i := by omega
          rwa [e] at this)
        (by
          obtain ⟨h1, h2⟩ := hseg_ne k (by omega)
          show ¬ (t1.getD ((p + j + 1 + 1 + k) % n) endIt ≠ endIt ∧
            0 < d1.getD ((p + j + 1 + 1 + k) % n) 0)
          rw [hT_ne _ h1 h2, hD_ne _ h1 h2]
          have e : p + j + 1 + (k + 1) = p + j + 1 + 1 + k := by omega
          rwa [e] at hstop)
    exact ⟨t', d', hrun, hlen', hinv', hperm.trans hT_perm⟩

theorem exists_offset (n s i : Nat) (hi : i < n) : ∃ k, k < n ∧ (s + k) % n = i := by
  have hn : 0 < n := by omega
  refine ⟨(i + n - s % n) % n, Nat.mod_lt _ hn, ?_⟩
  have hs : s % n < n := Nat.mod_lt _ hn
  rw [Nat.add_mod_mod, ← Nat.mod_add_mod]
  have : s % n + (i + n - s % n) = i + n := by omega
  rw [this, Nat.add_mod_right, Nat.mod_eq_of_lt hi]

theorem shift_ok (endIt : Iter) (home : Iter → Nat) (t : List Iter) (d : List Nat)
    (hinv : TInv endIt home t d) (p : Nat) (hp : p < t.length)
    (hocc : t.getD p endIt ≠ endIt)
    (hempty : ∃ i, i < t.length ∧ t.getD i endIt = endIt) :
    ∃ t' d', shiftLoop endIt t.length (t.set p endIt) (d.set p 0) p (nextPos t.length p)
        = .ok (t', d') ∧
      t'.length = t.length ∧ TInv endIt home t' d' ∧ t' ~ t.set p endIt := by
  obtain ⟨e, he, hee⟩ := hempty
  have hep : e ≠ p := fun h => hocc (h ▸ hee)
  have hn2 : 2 ≤ t.length := by omega
  have hpd : p < d.length := by rw [hinv.len]; exact hp
  have hpmod : p % t.length = p := Nat.mod_eq_of_lt hp
  -- the arrays after the removal
  have hT_p : (t.set p endIt).getD p endIt = endIt := getD_set_self _ _ _ _ hp
  have hD_p : (d.set p 0).getD p 0 = 0 := getD_set_self _ _ _ _ hpd
  have hT_ne : ∀ x, x ≠ p → (t.set p endIt).getD x endIt = t.getD x endIt :=
    fun x hx => getD_set_ne _ _ _ _ _ (Ne.symm hx)
  have hD_ne : ∀ x, x ≠ p → (d.set p 0).getD x 0 = d.getD x 0 :=
    fun x hx => getD_set_ne _ _ _ _ _ (Ne.symm hx)
  have hT_len : (t.set p endIt).length = t.length := List.length_set _ _ _
  have hD_len : (d.set p 0).length = t.length := by rw [List.length_set, hinv.len]
  generalize t.set p endIt = t1 at *
  generalize d.set p 0 = d1 at *
  -- the stopping slot
  obtain ⟨ke, hke, hkee⟩ := exists_offset t.length (p + 1) e he
  have hke1 : ke ≠ t.length - 1 := by
    intro h
    apply hep
    rw [← hkee, h]
    have : p + 1 + (t.length - 1) = p + t.length := by omega
    rw [this, Nat.add_mod_right, hpmod]
  obtain ⟨k, hk, hstop, hseg⟩ := exists_first
    (fun i => ¬ (t1.getD i endIt ≠ endIt ∧ 0 < d1.getD i 0)) t.length (p + 1)
    ⟨e, he, by simp only [hT_ne e hep, hee]; simp⟩
  have hkke : k ≤ ke := by
    by_contra hlt
    apply hseg ke (by omega)
    simp only [hkee, hT_ne e hep, hee]; simp
  have hcur_ne : (p + 1) % t.length ≠ p := by
    have := mod_add_ne t.length p 1 0 (by omega) (by omega) (by omega)
    simpa [hpmod] using this
  have hpp_eq : (p + t.length - 1 + 1) % t.length = p := by
    have : p + t.length - 1 + 1 = p + t.length := by omega
    rw [this, Nat.add_mod_right, hpmod]
  have hpp_ne : (p + t.length - 1) % t.length ≠ p := by
    intro h
    have h1 := mod_succ_congr t.length (p + t.length - 1) p (by rw [h, hpmod])
    rw [hpp_eq] at h1
    exact hcur_ne h1.symm
  have hnext : nextPos t.length p = (p + 0 + 1) % t.length := by
    conv_lhs => rw [← hpmod]
    rw [nextPos_mod]
  rw [hnext]
  have key := shiftLoop_spec endIt home t.length p k t.length t1 d1 0 (d.getD p 0)
    hT_len hD_len (by omega) hk (by rw [Nat.add_zero, hpmod]; exact hT_p)
    (by rw [Nat.add_zero, hpmod]; exact hD_p)
    (by
      intro i hi ho
      by_cases h1 : i = p
      · subst h1; exact absurd hT_p ho
      · rw [hT_ne i h1] at ho; rw [hD_ne i h1]; exact hinv.psl_lt i hi ho)
    (by
      intro i hi ho
      by_cases h1 : i = p
      · subst h1; exact absurd hT_p ho
      · rw [hT_ne i h1] at ho ⊢; rw [hD_ne i h1]; exact hinv.psl_ok i hi ho)
    (by
      intro j0 hj0 ho hpos
      rw [Nat.add_zero] at hj0
      have hb : j0 % t.length ≠ p := by
        intro h
        apply hj0
        exact mod_succ_congr _ _ _ (by rw [h, hpmod])
      by_cases ha : (j0 + 1) % t.length = p
      · rw [ha] at ho; exact absurd hT_p ho
      · rw [hT_ne _ ha] at ho
        rw [hD_ne _ ha] at hpos ⊢
        rw [hT_ne _ hb, hD_ne _ hb]
        exact hinv.chain j0 ho hpos)
    (by
      rw [Nat.add_zero]
      intro ho hpos
      rw [hT_ne _ hcur_ne] at ho
      rw [hD_ne _ hcur_ne] at hpos ⊢
      have := (hinv.chain p ho hpos).2
      rwa [hpmod] at this)
    (by
      rw [Nat.add_zero]
      intro hg
      rw [hT_ne _ hpp_ne, hD_ne _ hpp_ne]
      have := hinv.chain (p + t.length - 1) (by rw [hpp_eq]; exact hocc) (by rw [hpp_eq]; exact hg)
      rwa [hpp_eq] at this)
    (by
      intro i hi
      have := hseg i hi
      rw [Nat.add_zero]
      exact not_not.mp this)
    (by rw [Nat.add_zero]; exact hstop)
  rw [Nat.add_zero, hpmod] at key
  rw [Nat.add_zero]
  exact key

theorem find?_id_of_mem (l : List (Node K V)) (hnd : (l.map (fun e => e.id)).Nodup)
    (e : Node K V) (he : e ∈ l) : l.find? (fun x => x.id == e.id) = some e := by
  induction l with
  | nil => cases he
  | cons a l ih =>
    rw [List.map_cons, List.nodup_cons] at hnd
    rcases List.mem_cons.mp he with rfl | he'
    · simp
    · have hne : a.id ≠ e.id := by
        intro h
        exact hnd.1 (h ▸ List.mem_map_of_mem _ he')
      rw [List.find?_cons_of_neg _ (by simpa using hne)]
      exact ih hnd.2 he'

theorem deref_handle (m : HashMap K V) (hnd : (m.elements_.map (fun e => e.id)).Nodup)
    (e : Node K V) (he : e ∈ m.elements_) : m.deref (m.handle e) = .ok e := by
  simp only [HashMap.deref, HashMap.handle, if_true]
  rw [find?_id_of_mem _ hnd e he]

theorem deref_ok (m : HashMap K V) (it : Iter) (e : Node K V) (h : m.deref it = .ok e) :
    e ∈ m.elements_ ∧ it = m.handle e := by
  cases it with
  | endOf l => simp [HashMap.deref] at h
  | node l i =>
    simp only [HashMap.deref] at h
    split at h
    · next hl =>
      split at h
      · next e' hf =>
        have he : e' = e := by simpa using h
        subst he
        have h1 := List.find?_some hf
        have h2 := List.mem_of_find?_eq_some hf
        refine ⟨h2, ?_⟩
        simp only [HashMap.handle, hl]
        congr 1
        have h3 : e'.id = i := by simpa using h1
        exact h3.symm
      · simp at h
    · simp at h

theorem handle_ne_end (m : HashMap K V) (e : Node K V) : m.handle e ≠ m.endIt := by
  simp [HashMap.handle, HashMap.endIt]

theorem handle_inj (m : HashMap K V) (a b : Node K V) (h : m.handle a = m.handle b) :
    a.id = b.id := by
  simpa [HashMap.handle] using h

theorem TableOK.slot_mem {m : HashMap K V} {l : List (Node K V)} (h : TableOK m l)
    (i : Nat) (hi : i < m.table_.length) (hocc : m.table_.getD i m.endIt ≠ m.endIt) :
    ∃ e, e ∈ l ∧ m.table_.getD i m.endIt = m.handle e := by
  have h1 : m.table_.getD i m.endIt ∈ m.table_.filter (fun x => decide (x ≠ m.endIt)) := by
    rw [List.mem_filter]
    refine ⟨?_, by simpa using hocc⟩
    rw [List.getD_eq_getElem _ _ hi]
    exact List.getElem_mem _
  have h2 := h.perm.mem_iff.mp h1
  obtain ⟨e, he, heq⟩ := List.mem_map.mp h2
  exact ⟨e, he, heq.symm⟩

theorem TableOK.mem_slot {m : HashMap K V} {l : List (Node K V)} (h : TableOK m l)
    (e : Node K V) (he : e ∈ l) :
    ∃ i, i < m.table_.length ∧ m.table_.getD i m.endIt = m.handle e := by
  have h1 : m.handle e ∈ m.table_.filter (fun x => decide (x ≠ m.endIt)) :=
    h.perm.mem_iff.mpr (List.mem_map_of_mem _ he)
  have h2 := (List.mem_filter.mp h1).1
  obtain ⟨i, hi, heq⟩ := List.mem_iff_getElem.mp h2
  exact ⟨i, hi, by rw [List.getD_eq_getElem _ _ hi]; exact heq⟩

theorem TableOK.exists_empty {m : HashMap K V} {l : List (Node K V)} (h : TableOK m l)
    (hlt : l.length < m.table_.length) :
    ∃ i, i < m.table_.length ∧ m.table_.getD i m.endIt = m.endIt := by
  have h1 : (m.table_.filter (fun x => decide (x ≠ m.endIt))).length < m.table_.length := by
    rw [h.perm.length_eq, List.length_map]; exact hlt
  obtain ⟨x, hx, hpx⟩ := List.length_filter_lt_length_iff_exists.mp h1
  obtain ⟨i, hi, heq⟩ := List.mem_iff_getElem.mp hx
  refine ⟨i, hi, ?_⟩
  rw [List.getD_eq_getElem _ _ hi, heq]
  simpa using hpx

theorem two_le_count (t : List Iter) (x : Iter) (i j : Nat) (hij : i < j)
    (h1 : t[i]? = some x) (h2 : t[j]? = some x) : 2 ≤ t.count x := by
  have hj : j < t.length := by
    by_contra h
    rw [List.getElem?_eq_none (by omega)] at h2
    cases h2
  have h2' : t[j] = x := by
    rw [List.getElem?_eq_getElem hj] at h2
    exact Option.some.inj h2
  have e : t = t.take j ++ t[j] :: t.drop (j + 1) := by
    simp
  rw [e, List.count_append, List.count_cons, h2']
  have hm : x ∈ t.take j := by
    apply List.mem_iff_getElem?.mpr
    refine ⟨i, ?_⟩
    rw [List.getElem?_take_of_lt hij]
    exact h1
  have := List.count_pos_iff.mpr hm
  simp
  omega

theorem TableOK.slot_inj {m : HashMap K V} {l : List (Node K V)} (h : TableOK m l)
    (hnd : (l.map (fun e => e.id)).Nodup)
    (i j : Nat) (hi : i < m.table_.length) (hj : j < m.table_.length)
    (hocc : m.table_.getD i m.endIt ≠ m.endIt)
    (heq : m.table_.getD i m.endIt = m.table_.getD j m.endIt) : i = j := by
  by_contra hne
  have hnd2 : (l.map m.handle).Nodup := by
    have : l.map m.handle = (l.map (fun e => e.id)).map (Iter.node m.listId) := by
      simp [HashMap.handle, Function.comp_def]
    rw [this]
    exact hnd.map (fun a b hab => by simpa using hab)
  have hnd3 := (h.perm.nodup_iff).mpr hnd2
  have hc := List.nodup_iff_count_le_one.mp hnd3 (m.table_.getD i m.endIt)
  rw [List.count_filter (by simpa using hocc)] at hc
  have hgi : m.table_[i]? = some (m.table_.getD i m.endIt) := by
    rw [List.getD_eq_getElem _ _ hi, List.getElem?_eq_getElem hi]
  have hgj : m.table_[j]? = some (m.table_.getD i m.endIt) := by
    rw [heq, List.getD_eq_getElem _ _ hj, List.getElem?_eq_getElem hj]
  rcases Nat.lt_or_gt_of_ne hne with hlt | hlt
  · have := two_le_count m.table_ _ i j hlt hgi hgj
    omega
  · have := two_le_count m.table_ _ j i hlt hgj hgi
    omega

theorem TInv.chain_back {endIt : Iter} {home : Iter → Nat} {t : List Iter} {d : List Nat}
    (h : TInv endIt home t d) :
    ∀ x j, t.getD ((j + x) % t.length) endIt ≠ endIt →
      x ≤ d.getD ((j + x) % t.length) 0 →
      t.getD (j % t.length) endIt ≠ endIt ∧
        d.getD ((j + x) % t.length) 0 ≤ d.getD (j % t.length) 0 + x := by
  intro x
  induction x with
  | zero =>
    intro j hocc _
    exact ⟨hocc, by simp⟩
  | succ x ih =>
    intro j hocc hle
    have e : j + (x + 1) = j + x + 1 := rfl
    rw [e] at hocc hle ⊢
    have hc := h.chain (j + x) hocc (by omega)
    have := ih j hc.1 (by have := hc.2; omega)
    refine ⟨this.1, ?_⟩
    have h2 := hc.2
    have h3 := this.2
    show d.getD ((j + x + 1) % t.length) 0 ≤ d.getD (j % t.length) 0 + (x + 1)
    omega

/-- Every slot on the forward path from the home of an occupant to its slot is occupied. -/
theorem TInv.path_occupied {endIt : Iter} {home : Iter → Nat} {t : List Iter} {d : List Nat}
    (h : TInv endIt home t d) (i : Nat) (hi : i < t.length)
    (hocc : t.getD i endIt ≠ endIt) (y : Nat) (hy : y ≤ d.getD i 0) :
    t.getD ((home (t.getD i endIt) + y) % t.length) endIt ≠ endIt := by
  have hok := h.psl_ok i hi hocc
  have e : home (t.getD i endIt) + y + (d.getD i 0 - y) = home (t.getD i endIt) + d.getD i 0 := by
    omega
  have := h.chain_back (d.getD i 0 - y) (home (t.getD i endIt) + y)
    (by rw [e, hok]; exact hocc) (by rw [e, hok]; omega)
  exact this.1

theorem locate_scan [DecidableEq K] (m : HashMap K V) (key : K) (h : Nat) :
    ∀ (r y fuel : Nat), r < fuel →
      (∀ i, i < r → m.slot ((h + y + i) % m.table_.length) ≠ m.endIt ∧
        ∃ e, m.deref (m.slot ((h + y + i) % m.table_.length)) = .ok e ∧ e.key ≠ key) →
      (m.slot ((h + y + r) % m.table_.length) = m.endIt ∨
        ∃ e, m.deref (m.slot ((h + y + r) % m.table_.length)) = .ok e ∧ e.key = key) →
      m.locate key fuel ((h + y) % m.table_.length) = .ok ((h + y + r) % m.table_.length) := by
  intro r
  induction r with
  | zero =>
    intro y fuel hf _ hstop
    obtain ⟨f, rfl⟩ : ∃ f, fuel = f + 1 := ⟨fuel - 1, by omega⟩
    simp only [Nat.add_zero] at hstop ⊢
    rw [HashMap.locate]
    rcases hstop with hs | ⟨e, he, hk⟩
    · rw [if_neg (by rw [hs]; exact fun h => h rfl)]
    · by_cases hs : m.slot ((h + y) % m.table_.length) = m.endIt
      · rw [if_neg (by rw [hs]; exact fun h => h rfl)]
      · rw [if_pos hs, he]
        simp [hk]
  | succ r ih =>
    intro y fuel hf hseg hstop
    obtain ⟨f, rfl⟩ : ∃ f, fuel = f + 1 := ⟨fuel - 1, by omega⟩
    have h0 := hseg 0 (by omega)
    rw [Nat.add_zero] at h0
    obtain ⟨hocc, e, he, hk⟩ := h0
    rw [HashMap.locate, if_pos hocc, he]
    simp only [hk, if_false]
    rw [nextPos_mod]
    have := ih (y + 1) f (by omega)
      (by
        intro i hi
        have := hseg (i + 1) (by omega)
        have e : h + y + (i + 1) = h + (y + 1) + i := by omega
        rwa [e] at this)
      (by
        have e : h + y + (r + 1) = h + (y + 1) + r := by omega
        rwa [e] at hstop)
    have e : h + y + (r + 1) = h + (y + 1) + r := by omega
    rw [e]
    exact this

theorem key_inj {l : List (Node K V)} (hnd : (l.map (fun e => e.key)).Nodup)
    {a b : Node K V} (ha : a ∈ l) (hb : b ∈ l) (h : a.key = b.key) : a = b :=
  List.inj_on_of_nodup_map hnd ha hb h

theorem Inv.slot_deref {m : HashMap K V} (hinv : Inv m) (i : Nat) (hi : i < m.table_.length)
    (hocc : m.slot i ≠ m.endIt) :
    ∃ e, e ∈ m.elements_ ∧ m.slot i = m.handle e ∧ m.deref (m.slot i) = .ok e := by
  obtain ⟨e, he, heq⟩ := hinv.table.slot_mem i hi hocc
  refine ⟨e, he, heq, ?_⟩
  show m.deref (m.table_.getD i m.endIt) = _
  rw [heq]
  exact deref_handle m hinv.ids_nodup e he

theorem Inv.cap_pos {m : HashMap K V} (hinv : Inv m) : 0 < m.table_.length := by
  have := hinv.size_lt
  omega

theorem Inv.locate_found [DecidableEq K] {m : HashMap K V} (hinv : Inv m) (e : Node K V)
    (he : e ∈ m.elements_) :
    ∃ pos, pos < m.table_.length ∧
      m.locate e.key m.table_.length (m.hasher_ e.key % m.table_.length) = .ok pos ∧
      m.slot pos = m.handle e ∧
      m.psl pos < m.table_.length ∧
      (m.hasher_ e.key + m.psl pos) % m.table_.length = pos ∧
      ∀ y, y ≤ m.psl pos → m.slot ((m.hasher_ e.key + y) % m.table_.length) ≠ m.endIt := by
  obtain ⟨i, hi, hslot⟩ := hinv.table.mem_slot e he
  have hn := hinv.cap_pos
  have hocc : m.table_.getD i m.endIt ≠ m.endIt := by
    rw [hslot]; exact handle_ne_end m e
  have hhash : m.hashOf (m.table_.getD i m.endIt) = m.hasher_ e.key := by
    rw [hslot, HashMap.hashOf, deref_handle m hinv.ids_nodup e he]
  have hok := hinv.table.tinv.psl_ok i hi hocc
  have hlt := hinv.table.tinv.psl_lt i hi hocc
  rw [hhash] at hok
  change m.psl i < m.table_.length at hlt
  change (m.hasher_ e.key + m.psl i) % m.table_.length = i at hok
  have hpath : ∀ y, y ≤ m.psl i → m.slot ((m.hasher_ e.key + y) % m.table_.length) ≠ m.endIt := by
    intro y hy
    have := hinv.table.tinv.path_occupied i hi hocc y hy
    rwa [hhash] at this
  refine ⟨i, hi, ?_, hslot, hlt, hok, hpath⟩
  have := locate_scan m e.key (m.hasher_ e.key) (m.psl i) 0 m.table_.length hlt
    (by
      intro y hy
      rw [Nat.add_zero]
      have hoccy := hpath y (by omega)
      have hylt : (m.hasher_ e.key + y) % m.table_.length < m.table_.length := Nat.mod_lt _ hn
      obtain ⟨e', he', hs', hd'⟩ := hinv.slot_deref _ hylt hoccy
      refine ⟨hoccy, e', hd', ?_⟩
      intro hk
      have hee : e' = e := key_inj hinv.keys_nodup he' he hk
      subst hee
      have := hinv.table.slot_inj hinv.ids_nodup _ i hylt hi hoccy (hs'.trans hslot.symm)
      rw [← hok] at this
      have := mod_add_inj _ _ _ _ (by omega) hlt this
      omega)
    (by
      right
      rw [Nat.add_zero]
      refine ⟨e, ?_, rfl⟩
      rw [hok]
      show m.deref (m.table_.getD i m.endIt) = _
      rw [hslot]
      exact deref_handle m hinv.ids_nodup e he)
  rw [Nat.add_zero] at this
  rw [this]
  congr 1

theorem Inv.locate_absent [DecidableEq K] {m : HashMap K V} (hinv : Inv m) (key : K)
    (habs : ∀ e, e ∈ m.elements_ → e.key ≠ key) :
    ∃ pos, pos < m.table_.length ∧
      m.locate key m.table_.length (m.hasher_ key % m.table_.length) = .ok pos ∧
      m.slot pos = m.endIt := by
  have hn := hinv.cap_pos
  obtain ⟨k, hk, hend, hseg⟩ := exists_first (fun i => m.slot i = m.endIt) m.table_.length
    (m.hasher_ key) (hinv.table.exists_empty hinv.size_lt)
  refine ⟨_, Nat.mod_lt _ hn, ?_, hend⟩
  have := locate_scan m key (m.hasher_ key) k 0 m.table_.length hk
    (by
      intro y hy
      rw [Nat.add_zero]
      have hoccy := hseg y hy
      have hylt : (m.hasher_ key + y) % m.table_.length < m.table_.length := Nat.mod_lt _ hn
      obtain ⟨e', he', _, hd'⟩ := hinv.slot_deref _ hylt hoccy
      exact ⟨hoccy, e', hd', habs e' he'⟩)
    (by left; rw [Nat.add_zero]; exact hend)
  rw [Nat.add_zero] at this
  exact this

theorem Inv.find_found [DecidableEq K] {m : HashMap K V} (hinv : Inv m) (e : Node K V)
    (he : e ∈ m.elements_) : m.find e.key = .ok (m.handle e) := by
  obtain ⟨pos, _, hloc, hslot, _⟩ := hinv.locate_found e he
  rw [HashMap.find, hloc]
  simp only
  rw [if_neg (by rw [hslot]; exact handle_ne_end m e), hslot]

theorem Inv.find_absent [DecidableEq K] {m : HashMap K V} (hinv : Inv m) (key : K)
    (habs : ∀ e, e ∈ m.elements_ → e.key ≠ key) : m.find key = .ok m.endIt := by
  obtain ⟨pos, _, hloc, hslot⟩ := hinv.locate_absent key habs
  rw [HashMap.find, hloc]
  simp only
  rw [if_pos hslot]

theorem TInv.congr {endIt : Iter} {home home' : Iter → Nat} {t : List Iter} {d : List Nat}
    (h : TInv endIt home t d)
    (heq : ∀ i, i < t.length → t.getD i endIt ≠ endIt →
      home' (t.getD i endIt) = home (t.getD i endIt)) :
    TInv endIt home' t d :=
  ⟨h.len, h.psl_lt, fun i hi hocc => by rw [heq i hi hocc]; exact h.psl_ok i hi hocc, h.chain⟩

theorem TableOK.of_perm {m : HashMap K V} {l l' : List (Node K V)} (h : TableOK m l)
    (hp : l ~ l') : TableOK m l' :=
  ⟨h.tinv, h.perm.trans (hp.map _)⟩

theorem getD_replicate_self {α : Type} (n i : Nat) (x : α) :
    (List.replicate n x).getD i x = x := by
  rw [List.getD_eq_getElem?_getD, List.getElem?_replicate]
  split <;> rfl

theorem TInv.replicate (endIt : Iter) (home : Iter → Nat) (n : Nat) :
    TInv endIt home (List.replicate n endIt) (List.replicate n 0) := by
  refine ⟨by simp, ?_, ?_, ?_⟩
  · intro i _ hocc
    exact absurd (getD_replicate_self _ _ _) hocc
  · intro i _ hocc
    exact absurd (getD_replicate_self _ _ _) hocc
  · intro j hocc _
    exact absurd (getD_replicate_self _ _ _) hocc

theorem insert_already_existed_spec (m : HashMap K V) (l : List (Node K V)) (e : Node K V)
    (htab : TableOK m l) (hnd : (m.elements_.map (fun e => e.id)).Nodup)
    (he : e ∈ m.elements_) (hlt : l.length < m.table_.length) :
    ∃ m', m.insert_already_existed (m.handle e) = .ok m' ∧ m'.elements_ = m.elements_ ∧
      m'.listId = m.listId ∧ m'.fresh = m.fresh ∧ m'.hasher_ = m.hasher_ ∧
      m'.table_.length = m.table_.length ∧ TableOK m' (e :: l) := by
  have hd := deref_handle m hnd e he
  have hh : m.hashOf (m.handle e) = m.hasher_ e.key := by
    rw [HashMap.hashOf, hd]
  obtain ⟨t', d', hrun, hlen, hinv, hperm⟩ :=
    placeLoop_ok m.endIt m.hashOf m.table_ m.probe_seq_lens_ (m.handle e) htab.tinv
      (handle_ne_end m e) (htab.exists_empty hlt)
  rw [hh] at hrun
  refine ⟨{ m with table_ := t', probe_seq_lens_ := d' }, ?_, rfl, rfl, rfl, rfl, hlen,
    ⟨hinv, ?_⟩⟩
  · rw [HashMap.insert_already_existed, hd]
    simp only
    rw [hrun]
  · have h1 := hperm.filter (fun x => decide (x ≠ m.endIt))
    rw [List.filter_cons_of_neg (by simp),
      List.filter_cons_of_pos (by simpa using handle_ne_end m e)] at h1
    exact h1.trans (List.Perm.cons _ htab.perm)

theorem rehashLoop_spec : ∀ (rest : List (Node K V)) (m : HashMap K V) (l : List (Node K V)),
    TableOK m l → (m.elements_.map (fun e => e.id)).Nodup →
    (∀ e, e ∈ rest → e ∈ m.elements_) → l.length + rest.length < m.table_.length →
    ∃ m', m.rehashLoop rest = .ok m' ∧ m'.elements_ = m.elements_ ∧ m'.listId = m.listId ∧
      m'.fresh = m.fresh ∧ m'.hasher_ = m.hasher_ ∧ m'.table_.length = m.table_.length ∧
      TableOK m' (rest.reverse ++ l) := by
  intro rest
  induction rest with
  | nil =>
    intro m l htab _ _ _
    exact ⟨m, rfl, rfl, rfl, rfl, rfl, rfl, by simpa using htab⟩
  | cons e rest ih =>
    intro m l htab hnd hsub hlt
    obtain ⟨m1, hrun, hel1, hid1, hfr1, hha1, hlen, htab1⟩ :=
      insert_already_existed_spec m l e htab hnd (hsub e (List.mem_cons_self _ _))
        (by simp at hlt; omega)
    obtain ⟨m', hrun', hel, hid, hfr, hha, hcap, htab'⟩ :=
      ih m1 (e :: l) htab1 (by rw [hel1]; exact hnd)
        (fun x hx => by rw [hel1]; exact hsub x (List.mem_cons_of_mem _ hx))
        (by rw [hlen]; simp at hlt ⊢; omega)
    refine ⟨m', ?_, hel.trans hel1, hid.trans hid1, hfr.trans hfr1, hha.trans hha1,
      hcap.trans hlen, ?_⟩
    · rw [HashMap.rehashLoop]
      have : Iter.node m.listId e.id = m.handle e := rfl
      rw [this, hrun]
      exact hrun'
    · simpa using htab'

theorem Inv.rehash_spec {m : HashMap K V} (hinv : Inv m) :
    ∃ m', m.rehash = .ok m' ∧ m'.elements_ = m.elements_ ∧ m'.listId = m.listId ∧
      m'.fresh = m.fresh ∧ m'.hasher_ = m.hasher_ ∧
      m'.table_.length = m.table_.length * 2 ∧ Inv m' := by
  have hlen := hinv.table.tinv.len
  obtain ⟨m0, hm0⟩ : ∃ m0 : HashMap K V, m0 =
      { m with table_ := List.replicate (m.table_.length * 2) m.endIt,
               probe_seq_lens_ := List.replicate (m.probe_seq_lens_.length * 2) 0 } := ⟨_, rfl⟩
  have h0el : m0.elements_ = m.elements_ := by rw [hm0]
  have h0id : m0.listId = m.listId := by rw [hm0]
  have h0fr : m0.fresh = m.fresh := by rw [hm0]
  have h0ha : m0.hasher_ = m.hasher_ := by rw [hm0]
  have h0end : m0.endIt = m.endIt := by rw [hm0]; rfl
  have h0t : m0.table_ = List.replicate (m.table_.length * 2) m0.endIt := by rw [hm0]; rfl
  have h0d : m0.probe_seq_lens_ = List.replicate (m.table_.length * 2) 0 := by
    rw [hm0, ← hlen]
  have hrw : m.rehash = m0.rehashLoop m0.elements_ := by rw [hm0]; rfl
  have htab0 : TableOK m0 [] := by
    refine ⟨?_, ?_⟩
    · rw [h0t, h0d]; exact TInv.replicate _ _ _
    · rw [h0t, List.filter_replicate]
      simp
  obtain ⟨m', hrun, hel, hid, hfr, hha, hcap, htab⟩ :=
    rehashLoop_spec m0.elements_ m0 [] htab0 (by rw [h0el]; exact hinv.ids_nodup)
      (fun e he => he)
      (by
        have := hinv.size_lt
        rw [h0el, h0t]
        simp
        omega)
  rw [h0t, List.length_replicate] at hcap
  refine ⟨m', by rw [hrw]; exact hrun, hel.trans h0el, hid.trans h0id, hfr.trans h0fr,
    hha.trans h0ha, hcap, ?_⟩
  have hel' := hel.trans h0el
  refine ⟨?_, ?_, ?_, ?_, ?_⟩
  · rw [hel']
    refine htab.of_perm ?_
    rw [h0el]
    simp
  · rw [hel']; exact hinv.ids_nodup
  · rw [hel']; exact hinv.keys_nodup
  · rw [hel', hfr.trans h0fr]; exact hinv.ids_lt
  · rw [hel', hcap]
    have := hinv.size_lt
    omega

theorem f32Exp_spec : ∀ (fuel n : Nat), n ≤ fuel →
    n / 2 ^ f32Exp fuel n < 2 ^ 24 ∧ (f32Exp fuel n = 0 → n < 2 ^ 24) ∧
      (0 < f32Exp fuel n → 2 ^ 23 ≤ n / 2 ^ f32Exp fuel n) := by
  intro fuel
  induction fuel with
  | zero =>
    intro n hn
    have : n = 0 := by omega
    subst this
    simp [f32Exp]
  | succ fuel ih =>
    intro n hn
    rw [f32Exp]
    by_cases hlt : n < 2 ^ 24
    · rw [if_pos hlt]
      simpa using hlt
    · rw [if_neg hlt]
      have hn2 : n / 2 ≤ fuel := by omega
      obtain ⟨h1, h2, h3⟩ := ih (n / 2) hn2
      have e : n / 2 ^ (f32Exp fuel (n / 2) + 1) = n / 2 / 2 ^ f32Exp fuel (n / 2) := by
        rw [Nat.pow_succ, Nat.mul_comm, Nat.div_div_eq_div_mul]
      rw [e]
      refine ⟨h1, by omega, ?_⟩
      intro _
      by_cases h0 : f32Exp fuel (n / 2) = 0
      · have := h2 h0
        rw [h0, Nat.pow_zero, Nat.div_one]
        omega
      · exact h3 (by omega)

theorem toFloat_of_lt (n : Nat) (h : n < 2 ^ 24) : toFloat n = n := by
  have h0 : f32Exp n n = 0 := by
    cases n with
    | zero => rfl
    | succ k => rw [f32Exp, if_pos h]
  simp [toFloat, h0, Nat.mod_one]

theorem toFloat_bounds (n : Nat) :
    2 ^ 24 * toFloat n ≤ (2 ^ 24 + 1) * n ∧ (2 ^ 24 - 1) * n ≤ 2 ^ 24 * toFloat n := by
  obtain ⟨_, h2, h3⟩ := f32Exp_spec n n (Nat.le_refl n)
  by_cases h0 : f32Exp n n = 0
  · rw [toFloat_of_lt n (h2 h0)]
    omega
  · have hq := h3 (by omega)
    have hdm := Nat.div_add_mod n (2 ^ f32Exp n n)
    have hr : n % 2 ^ f32Exp n n < 2 ^ f32Exp n n := Nat.mod_lt _ (by positivity)
    have hX : 2 ^ 23 * 2 ^ f32Exp n n ≤ n / 2 ^ f32Exp n n * 2 ^ f32Exp n n :=
      Nat.mul_le_mul_right _ hq
    have hX1 : (n / 2 ^ f32Exp n n + 1) * 2 ^ f32Exp n n
        = n / 2 ^ f32Exp n n * 2 ^ f32Exp n n + 2 ^ f32Exp n n := by ring
    have hn : n = n / 2 ^ f32Exp n n * 2 ^ f32Exp n n + n % 2 ^ f32Exp n n := by
      rw [Nat.mul_comm]; exact hdm.symm
    have hfl : toFloat n = n / 2 ^ f32Exp n n * 2 ^ f32Exp n n ∨
        toFloat n = (n / 2 ^ f32Exp n n + 1) * 2 ^ f32Exp n n ∧
          2 ^ f32Exp n n ≤ 2 * (n % 2 ^ f32Exp n n) := by
      simp only [toFloat]
      split
      · left; rfl
      · split
        · split
          · left; rfl
          · right; exact ⟨rfl, by omega⟩
        · right; exact ⟨rfl, by omega⟩
    have hfl2 : toFloat n = (n / 2 ^ f32Exp n n + 1) * 2 ^ f32Exp n n ∨
        toFloat n = n / 2 ^ f32Exp n n * 2 ^ f32Exp n n ∧
          2 * (n % 2 ^ f32Exp n n) ≤ 2 ^ f32Exp n n := by
      simp only [toFloat]
      split
      · right; exact ⟨rfl, by omega⟩
      · split
        · split
          · right; exact ⟨rfl, by omega⟩
          · left; rfl
        · left; rfl
    rw [hX1] at hfl hfl2
    generalize n / 2 ^ f32Exp n n * 2 ^ f32Exp n n = X at *
    generalize 2 ^ f32Exp n n = P at *
    generalize n % P = r at *
    generalize toFloat n = F at *
    norm_num at hX ⊢
    constructor
    · rcases hfl with h | ⟨h, h'⟩ <;> omega
    · rcases hfl2 with h | ⟨h, h'⟩ <;> omega

theorem needsRehash_eq (s c : Nat) :
    needsRehash s c = decide (toFloat (3 * toFloat c) < 4 * toFloat (s + 1)) := rfl

theorem needsRehash_false_lt (s c : Nat) (h : needsRehash s c = false) : s + 1 < c := by
  have h1 : 4 * toFloat (s + 1) ≤ toFloat (3 * toFloat c) := by
    simpa [needsRehash_eq] using h
  have hA := (toFloat_bounds (s + 1)).2
  have hC := (toFloat_bounds c).1
  have hD := (toFloat_bounds (3 * toFloat c)).1
  generalize toFloat (3 * toFloat c) = D at *
  generalize toFloat c = C at *
  generalize toFloat (s + 1) = A at *
  norm_num at hA hC hD
  omega

theorem Inv.emplaceBack_table {m : HashMap K V} (hinv : Inv m) (k : K) (v : V) :
    (((m.emplaceBack k v).elements_.map (fun e => e.id)).Nodup) ∧
      TableOK (m.emplaceBack k v) m.elements_ := by
  have hnd : ((m.emplaceBack k v).elements_.map (fun e => e.id)).Nodup := by
    show ((m.elements_ ++ [(⟨m.fresh, k, v⟩ : Node K V)]).map (fun e => e.id)).Nodup
    rw [List.map_append, List.nodup_append]
    refine ⟨hinv.ids_nodup, by simp, ?_⟩
    intro a ha hb
    obtain ⟨e, he, rfl⟩ := List.mem_map.mp ha
    have := hinv.ids_lt e he
    simp at hb
    omega
  refine ⟨hnd, ⟨?_, hinv.table.perm⟩⟩
  show TInv m.endIt (m.emplaceBack k v).hashOf m.table_ m.probe_seq_lens_
  refine hinv.table.tinv.congr ?_
  intro i hi hocc
  obtain ⟨e, he, heq⟩ := hinv.table.slot_mem i hi hocc
  rw [heq]
  have h1 : (m.emplaceBack k v).deref (m.handle e) = .ok e :=
    deref_handle (m.emplaceBack k v) hnd e (List.mem_append_left _ he)
  have h2 := deref_handle m hinv.ids_nodup e he
  rw [HashMap.hashOf, HashMap.hashOf, h1, h2]
  rfl

theorem Inv.grow_spec [DecidableEq K] {m : HashMap K V} (hinv : Inv m) :
    ∃ m1, (if needsRehash m.size m.table_.length then m.rehash else .ok m) = .ok m1 ∧
      Inv m1 ∧ m1.elements_ = m.elements_ ∧ m1.listId = m.listId ∧ m1.fresh = m.fresh ∧
      m1.hasher_ = m.hasher_ ∧
      m1.table_.length = (if needsRehash m.size m.table_.length then m.table_.length * 2
        else m.table_.length) ∧
      m.elements_.length + 1 < m1.table_.length := by
  by_cases hr : needsRehash m.size m.table_.length = true
  · obtain ⟨m1, h1, h2, h3, h4, h5, h6, h7⟩ := hinv.rehash_spec
    refine ⟨m1, by rw [if_pos hr]; exact h1, h7, h2, h3, h4, h5, by rw [if_pos hr]; exact h6, ?_⟩
    have := hinv.size_lt
    omega
  · refine ⟨m, by rw [if_neg hr], hinv, rfl, rfl, rfl, rfl, by rw [if_neg hr], ?_⟩
    exact needsRehash_false_lt _ _ (by simpa using hr)

theorem Inv.insert_spec [DecidableEq K] {m : HashMap K V} (hinv : Inv m) (kv : K × V) :
    ∃ m', m.insert kv = .ok m' ∧ Inv m' ∧ m'.listId = m.listId ∧ m'.hasher_ = m.hasher_ ∧
      m'.table_.length = (if needsRehash m.size m.table_.length then m.table_.length * 2
        else m.table_.length) ∧
      m.elements_.length + 1 < m'.table_.length ∧
      ((∃ e, e ∈ m.elements_ ∧ e.key = kv.1) → m'.elements_ = m.elements_ ∧ m'.fresh = m.fresh) ∧
      ((∀ e, e ∈ m.elements_ → e.key ≠ kv.1) →
        m'.elements_ = m.elements_ ++ [⟨m.fresh, kv.1, kv.2⟩] ∧ m'.fresh = m.fresh + 1) := by
  obtain ⟨m1, hg, hinv1, hel, hid, hfr, hha, hcap, hsz⟩ := hinv.grow_spec
  by_cases hp : ∃ e, e ∈ m.elements_ ∧ e.key = kv.1
  · obtain ⟨e, he, hk⟩ := hp
    have hf := hinv1.find_found e (by rw [hel]; exact he)
    rw [hk] at hf
    refine ⟨m1, ?_, hinv1, hid, hha, hcap, hsz, fun _ => ⟨hel, hfr⟩, ?_⟩
    · rw [HashMap.insert, hg]
      simp only
      rw [hf]
      simp only
      rw [if_pos (handle_ne_end m1 e)]
    · intro habs
      exact absurd hk (habs e he)
  · have habs : ∀ e, e ∈ m.elements_ → e.key ≠ kv.1 := by
      intro e he hk
      exact hp ⟨e, he, hk⟩
    have hf := hinv1.find_absent kv.1 (by rw [hel]; exact habs)
    obtain ⟨hnd2, htab2⟩ := hinv1.emplaceBack_table kv.1 kv.2
    have hmem : (⟨m1.fresh, kv.1, kv.2⟩ : Node K V) ∈ (m1.emplaceBack kv.1 kv.2).elements_ := by
      show _ ∈ m1.elements_ ++ [_]
      simp
    obtain ⟨m3, hrun, hel3, hid3, hfr3, hha3, hlen, htab3⟩ :=
      insert_already_existed_spec (m1.emplaceBack kv.1 kv.2) m1.elements_
        ⟨m1.fresh, kv.1, kv.2⟩ htab2 hnd2 hmem
        (by
          show m1.elements_.length < m1.table_.length
          rw [hel]; omega)
    change m3.elements_ = m1.elements_ ++ [⟨m1.fresh, kv.1, kv.2⟩] at hel3
    change m3.listId = m1.listId at hid3
    change m3.fresh = m1.fresh + 1 at hfr3
    change m3.hasher_ = m1.hasher_ at hha3
    change m3.table_.length = m1.table_.length at hlen
    refine ⟨m3, ?_, ?_, hid3.trans hid, hha3.trans hha, hlen.trans hcap,
      by rw [hlen]; exact hsz, ?_, ?_⟩
    · rw [HashMap.insert, hg]
      simp only
      rw [hf]
      simp only
      rw [if_neg (fun h => h rfl)]
      exact hrun
    · refine ⟨?_, ?_, ?_, ?_, ?_⟩
      · refine htab3.of_perm ?_
        rw [hel3]
        exact (List.perm_append_singleton _ _).symm
      · rw [hel3]; exact hnd2
      · rw [hel3, List.map_append, List.nodup_append]
        refine ⟨hinv1.keys_nodup, by simp, ?_⟩
        intro a ha hb
        obtain ⟨e, he, rfl⟩ := List.mem_map.mp ha
        simp at hb
        rw [hel] at he
        exact habs e he hb
      · intro e he
        rw [hfr3]
        rw [hel3] at he
        rcases List.mem_append.mp he with h | h
        · have := hinv1.ids_lt e h
          omega
        · simp at h
          subst h
          simp
      · rw [hel3, hlen, List.length_append, hel]
        simpa using hsz
    · intro hp'
      exact absurd hp' hp
    · intro _
      refine ⟨?_, ?_⟩
      · rw [hel3, hel, hfr]
      · rw [hfr3, hfr]

theorem perm_filter_id (l : List (Node K V)) (hnd : (l.map (fun e => e.id)).Nodup)
    (e : Node K V) (he : e ∈ l) : l ~ e :: l.filter (fun x => x.id != e.id) := by
  induction l with
  | nil => cases he
  | cons a l ih =>
    rw [List.map_cons, List.nodup_cons] at hnd
    by_cases hae : a.id = e.id
    · have hnot : e ∉ l := by
        intro h
        exact hnd.1 (hae ▸ List.mem_map_of_mem _ h)
      have hea : a = e := by
        rcases List.mem_cons.mp he with h | h
        · exact h.symm
        · exact absurd h hnot
      subst hea
      rw [List.filter_cons_of_neg (by simp)]
      have : l.filter (fun x => x.id != a.id) = l := by
        rw [List.filter_eq_self]
        intro x hx
        have : x.id ≠ a.id := fun h => hnd.1 (h ▸ List.mem_map_of_mem _ hx)
        simpa using this
      rw [this]
    · have he' : e ∈ l := by
        rcases List.mem_cons.mp he with h | h
        · exact absurd (by rw [h]) hae
        · exact h
      rw [List.filter_cons_of_pos (by simpa using hae)]
      exact (List.Perm.cons a (ih hnd.2 he')).trans (List.Perm.swap _ _ _)

theorem filter_id_eq_filter_key [DecidableEq K] (l : List (Node K V))
    (hnd : (l.map (fun e => e.id)).Nodup) (hkd : (l.map (fun e => e.key)).Nodup)
    (e : Node K V) (he : e ∈ l) :
    l.filter (fun x => x.id != e.id) = l.filter (fun x => decide (x.key ≠ e.key)) := by
  apply List.filter_congr
  intro x hx
  by_cases hxe : x = e
  · subst hxe; simp
  · have h1 : x.id ≠ e.id := fun h => hxe (List.inj_on_of_nodup_map hnd hx he h)
    have h2 : x.key ≠ e.key := fun h => hxe (List.inj_on_of_nodup_map hkd hx he h)
    simp [h1, h2]

theorem Inv.erase_spec [DecidableEq K] {m : HashMap K V} (hinv : Inv m) (key : K) :
    ∃ m', m.erase key = .ok m' ∧ Inv m' ∧ m'.listId = m.listId ∧ m'.hasher_ = m.hasher_ ∧
      m'.fresh = m.fresh ∧ m'.table_.length = m.table_.length ∧
      m'.elements_ = m.elements_.filter (fun x => decide (x.key ≠ key)) ∧
      ((∀ e, e ∈ m.elements_ → e.key ≠ key) → m' = m) := by
  by_cases hp : ∃ e, e ∈ m.elements_ ∧ e.key = key
  · obtain ⟨e, he, hk⟩ := hp
    subst hk
    obtain ⟨pos, hpos, hloc, hslot, _⟩ := hinv.locate_found e he
    have hd := deref_handle m hinv.ids_nodup e he
    have hocc : m.table_.getD pos m.endIt ≠ m.endIt := by
      show m.slot pos ≠ _
      rw [hslot]; exact handle_ne_end m e
    obtain ⟨t', d', hrun, hlen, htinv, hperm⟩ :=
      shift_ok m.endIt m.hashOf m.table_ m.probe_seq_lens_ hinv.table.tinv pos hpos hocc
        (hinv.table.exists_empty hinv.size_lt)
    obtain ⟨m', hm'⟩ : ∃ m' : HashMap K V, m' =
      { m with elements_ := m.elements_.filter (fun x => x.id != e.id),
               table_ := t', probe_seq_lens_ := d' } := ⟨_, rfl⟩
    have hel : m'.elements_ = m.elements_.filter (fun x => x.id != e.id) := by rw [hm']
    have hid : m'.listId = m.listId := by rw [hm']
    have hfr : m'.fresh = m.fresh := by rw [hm']
    have hha : m'.hasher_ = m.hasher_ := by rw [hm']
    have htb : m'.table_ = t' := by rw [hm']
    have hpd : m'.probe_seq_lens_ = d' := by rw [hm']
    have hend : m'.endIt = m.endIt := by rw [hm']; rfl
    have hhandle : ∀ x, m'.handle x = m.handle x := by intro x; rw [hm']; rfl
    have hsub : ∀ x, x ∈ m'.elements_ → x ∈ m.elements_ := by
      intro x hx
      rw [hel] at hx
      exact (List.mem_filter.mp hx).1
    have hnd' : (m'.elements_.map (fun e => e.id)).Nodup := by
      rw [hel]
      exact hinv.ids_nodup.sublist ((List.filter_sublist _).map _)
    have hpermE := perm_filter_id m.elements_ hinv.ids_nodup e he
    have hperm' : (t'.filter (fun x => decide (x ≠ m.endIt))) ~ m'.elements_.map m.handle := by
      have h1 := perm_set_cons m.table_ pos m.endIt m.endIt hpos
      have h2 := h1.filter (fun x => decide (x ≠ m.endIt))
      rw [List.filter_cons_of_pos (by simpa using hocc), List.filter_cons_of_neg (by simp)] at h2
      have h3 := h2.trans (hinv.table.perm.trans (hpermE.map m.handle))
      rw [List.map_cons] at h3
      have hs : m.table_.getD pos m.endIt = m.handle e := hslot
      rw [hs] at h3
      have h4 := (List.perm_cons _).mp h3
      rw [hel]
      exact (hperm.filter _).trans h4
    refine ⟨m', ?_, ?_, hid, hha, hfr, by rw [htb]; exact hlen, ?_, ?_⟩
    · rw [HashMap.erase, hloc]
      simp only
      rw [if_neg (by rw [hslot]; exact handle_ne_end m e), hslot, hd]
      simp only
      have hs : m.table_.getD pos m.endIt = m.handle e := hslot
      rw [hrun, hm']
    · refine ⟨⟨?_, ?_⟩, hnd', ?_, ?_, ?_⟩
      · rw [hend, htb, hpd]
        refine htinv.congr ?_
        intro i hi ho
        have hmem : t'.getD i m.endIt ∈ t'.filter (fun x => decide (x ≠ m.endIt)) := by
          rw [List.mem_filter]
          refine ⟨?_, by simpa using ho⟩
          rw [List.getD_eq_getElem _ _ hi]
          exact List.getElem_mem _
        obtain ⟨x, hx, hxe⟩ := List.mem_map.mp (hperm'.mem_iff.mp hmem)
        rw [← hxe]
        have h1 : m'.deref (m.handle x) = .ok x := by
          rw [← hhandle]; exact deref_handle m' hnd' x hx
        have h2 := deref_handle m hinv.ids_nodup x (hsub x hx)
        rw [HashMap.hashOf, HashMap.hashOf, h1, h2, hha]
      · rw [hend, htb]
        have : m'.handle = m.handle := funext hhandle
        rw [this]
        exact hperm'
      · rw [hel]
        exact hinv.keys_nodup.sublist ((List.filter_sublist _).map _)
      · intro x hx
        rw [hfr]
        exact hinv.ids_lt x (hsub x hx)
      · rw [hel, htb, hlen]
        exact Nat.lt_of_le_of_lt (List.length_filter_le _ _) hinv.size_lt
    · rw [hel]
      exact filter_id_eq_filter_key _ hinv.ids_nodup hinv.keys_nodup e he
    · intro habs
      exact absurd rfl (habs e he)
  · have habs : ∀ e, e ∈ m.elements_ → e.key ≠ key := by
      intro e he hk
      exact hp ⟨e, he, hk⟩
    obtain ⟨pos, _, hloc, hslot⟩ := hinv.locate_absent key habs
    refine ⟨m, ?_, hinv, rfl, rfl, rfl, rfl, ?_, fun _ => rfl⟩
    · rw [HashMap.erase, hloc]
      simp only
      rw [if_pos hslot]
    · symm
      rw [List.filter_eq_self]
      intro x hx
      simpa using habs x hx

theorem Inv.new (l : Nat) (hash : K → Nat) : Inv (HashMap.new l hash : HashMap K V) := by
  refine ⟨⟨?_, ?_⟩, ?_, ?_, ?_, ?_⟩
  · exact TInv.replicate _ _ _
  · show List.filter _ (List.replicate _ _) ~ _
    rw [List.filter_replicate]
    simp [HashMap.new, HashMap.endIt]
  · simp [HashMap.new]
  · simp [HashMap.new]
  · intro e he
    simp [HashMap.new] at he
  · simp [HashMap.new, INITIAL_SIZE_]

theorem Inv.clear {m : HashMap K V} (hinv : Inv m) : Inv m.clear := by
  have hlen := hinv.table.tinv.len
  refine ⟨⟨?_, ?_⟩, ?_, ?_, ?_, ?_⟩
  · show TInv m.endIt _ (List.replicate m.table_.length m.endIt)
      (List.replicate m.probe_seq_lens_.length 0)
    rw [hlen]
    exact TInv.replicate _ _ _
  · show List.filter _ (List.replicate _ m.endIt) ~ _
    rw [List.filter_replicate]
    simp [HashMap.clear, HashMap.endIt]
  · simp [HashMap.clear]
  · simp [HashMap.clear]
  · intro e he
    simp [HashMap.clear] at he
  · show (0 : Nat) < (List.replicate m.table_.length m.endIt).length
    rw [List.length_replicate]
    exact hinv.cap_pos

theorem Inv.assignAt_spec {m : HashMap K V} (hinv : Inv m) (e : Node K V)
    (he : e ∈ m.elements_) (v : V) :
    ∃ m', m.assignAt (m.handle e) v = .ok m' ∧ Inv m' ∧ m'.listId = m.listId ∧
      m'.hasher_ = m.hasher_ ∧ m'.fresh = m.fresh ∧ m'.table_ = m.table_ ∧
      m'.probe_seq_lens_ = m.probe_seq_lens_ ∧
      m'.elements_ = m.elements_.map
        (fun x => if x.id = e.id then { x with val := v } else x) := by
  have hd := deref_handle m hinv.ids_nodup e he
  obtain ⟨m', hm'⟩ : ∃ m' : HashMap K V, m' =
      { m with elements_ :=
          (m.elements_.map (fun x => if x.id = e.id then { x with val := v } else x)) } :=
    ⟨_, rfl⟩
  have hel : m'.elements_ = m.elements_.map
      (fun x => if x.id = e.id then { x with val := v } else x) := by rw [hm']
  have hid : m'.listId = m.listId := by rw [hm']
  have hfr : m'.fresh = m.fresh := by rw [hm']
  have hha : m'.hasher_ = m.hasher_ := by rw [hm']
  have htb : m'.table_ = m.table_ := by rw [hm']
  have hpd : m'.probe_seq_lens_ = m.probe_seq_lens_ := by rw [hm']
  have hend : m'.endIt = m.endIt := by rw [hm']; rfl
  have hids : m'.elements_.map (fun x => x.id) = m.elements_.map (fun x => x.id) := by
    rw [hel, List.map_map]
    apply List.map_congr_left
    intro x _
    simp only [Function.comp]
    split <;> rfl
  have hkeys : m'.elements_.map (fun x => x.key) = m.elements_.map (fun x => x.key) := by
    rw [hel, List.map_map]
    apply List.map_congr_left
    intro x _
    simp only [Function.comp]
    split <;> rfl
  have hhandles : m'.elements_.map m'.handle = m.elements_.map m.handle := by
    have h1 : ∀ l : List (Node K V), l.map m'.handle = (l.map (fun x => x.id)).map (Iter.node m.listId) := by
      intro l
      rw [List.map_map]
      apply List.map_congr_left
      intro x _
      simp [HashMap.handle, hid]
    have h2 : ∀ l : List (Node K V), l.map m.handle = (l.map (fun x => x.id)).map (Iter.node m.listId) := by
      intro l
      rw [List.map_map]
      apply List.map_congr_left
      intro x _
      simp [HashMap.handle]
    rw [h1, h2, hids]
  refine ⟨m', ?_, ?_, hid, hha, hfr, htb, hpd, hel⟩
  · rw [HashMap.assignAt, hd]
    simp only
    rw [hm']
  · refine ⟨⟨?_, ?_⟩, ?_, ?_, ?_, ?_⟩
    · rw [hend, htb, hpd]
      refine hinv.table.tinv.congr ?_
      intro i hi ho
      obtain ⟨x, hx, hxe⟩ := hinv.table.slot_mem i hi ho
      rw [hxe]
      have h2 := deref_handle m hinv.ids_nodup x hx
      have hx' : (if x.id = e.id then { x with val := v } else x) ∈ m'.elements_ := by
        rw [hel]
        exact List.mem_map_of_mem _ hx
      have h1 := deref_handle m' (by rw [hids]; exact hinv.ids_nodup) _ hx'
      have hh : m'.handle (if x.id = e.id then { x with val := v } else x) = m.handle x := by
        simp only [HashMap.handle, hid]
        split <;> rfl
      rw [hh] at h1
      rw [HashMap.hashOf, HashMap.hashOf, h1, h2, hha]
      by_cases hc : x.id = e.id
      · simp [hc]
      · simp [hc]
    · rw [hend, htb, hhandles]
      exact hinv.table.perm
    · rw [hids]; exact hinv.ids_nodup
    · rw [hkeys]; exact hinv.keys_nodup
    · intro x hx
      rw [hfr]
      have : x.id ∈ m'.elements_.map (fun x => x.id) := List.mem_map_of_mem _ hx
      rw [hids] at this
      obtain ⟨y, hy, hye⟩ := List.mem_map.mp this
      rw [← hye]
      exact hinv.ids_lt y hy
    · rw [hel, htb, List.length_map]
      exact hinv.size_lt

theorem Inv.index_spec [DecidableEq K] [Inhabited V] {m : HashMap K V} (hinv : Inv m) (k : K) :
    ∃ m' e, m.index k = .ok (m', m'.handle e) ∧ Inv m' ∧ e ∈ m'.elements_ ∧ e.key = k ∧
      m'.listId = m.listId ∧ m'.hasher_ = m.hasher_ ∧
      ((∃ x, x ∈ m.elements_ ∧ x.key = k) → m' = m) ∧
      ((∀ x, x ∈ m.elements_ → x.key ≠ k) →
        e = ⟨m.fresh, k, default⟩ ∧ m.insert (k, default) = .ok m' ∧
        m'.elements_ = m.elements_ ++ [⟨m.fresh, k, default⟩]) := by
  by_cases hp : ∃ x, x ∈ m.elements_ ∧ x.key = k
  · obtain ⟨e, he, hk⟩ := hp
    have hf := hinv.find_found e he
    rw [hk] at hf
    refine ⟨m, e, ?_, hinv, he, hk, rfl, rfl, fun _ => rfl, ?_⟩
    · rw [HashMap.index, hf]
      simp only
      rw [if_neg (handle_ne_end m e)]
    · intro habs
      exact absurd hk (habs e he)
  · have habs : ∀ x, x ∈ m.elements_ → x.key ≠ k := by
      intro x hx hk
      exact hp ⟨x, hx, hk⟩
    have hf := hinv.find_absent k habs
    obtain ⟨m', hins, hinv', hid, hha, _, _, _, hnew⟩ := hinv.insert_spec (k, default)
    obtain ⟨hel, _⟩ := hnew habs
    have hmem : (⟨m.fresh, k, default⟩ : Node K V) ∈ m'.elements_ := by
      rw [hel]; simp
    have hf' := hinv'.find_found ⟨m.fresh, k, default⟩ hmem
    refine ⟨m', ⟨m.fresh, k, default⟩, ?_, hinv', hmem, rfl, hid, hha, ?_, ?_⟩
    · rw [HashMap.index, hf]
      simp only [if_true]
      rw [hins]
      simp only
      rw [hf']
    · intro hp'
      exact absurd hp' hp
    · intro _
      exact ⟨rfl, hins, hel⟩

theorem Inv.indexAssign_spec [DecidableEq K] [Inhabited V] {m : HashMap K V} (hinv : Inv m)
    (k : K) (v : V) :
    ∃ m' m'' e, m.index k = .ok (m', m'.handle e) ∧ m.indexAssign k v = .ok m'' ∧ Inv m'' ∧
      e ∈ m'.elements_ ∧ e.key = k ∧
      m''.listId = m.listId ∧ m''.hasher_ = m.hasher_ ∧ m''.table_ = m'.table_ ∧
      m''.elements_ = m'.elements_.map
        (fun x => if x.id = e.id then { x with val := v } else x) := by
  obtain ⟨m', e, hidx, hinv', he, hk, hid, hha, _, _⟩ := hinv.index_spec k
  obtain ⟨m'', hrun, hinv'', hid2, hha2, _, htb, _, hel⟩ := hinv'.assignAt_spec e he v
  refine ⟨m', m'', e, hidx, ?_, hinv'', he, hk, hid2.trans hid, hha2.trans hha, htb, hel⟩
  rw [HashMap.indexAssign, hidx]
  exact hrun

theorem Reachable.inv [DecidableEq K] [Inhabited V] {m : HashMap K V} (h : Reachable m) :
    Inv m := by
  induction h with
  | new l hash => exact Inv.new l hash
  | insert kv _ hrun ih =>
    obtain ⟨m', h1, h2, _⟩ := ih.insert_spec kv
    rw [hrun] at h1
    cases h1
    exact h2
  | erase k _ hrun ih =>
    obtain ⟨m', h1, h2, _⟩ := ih.erase_spec k
    rw [hrun] at h1
    cases h1
    exact h2
  | index k it _ hrun ih =>
    obtain ⟨m', e, h1, h2, _⟩ := ih.index_spec k
    rw [hrun] at h1
    cases h1
    exact h2
  | indexAssign k v _ hrun ih =>
    obtain ⟨m', m'', e, _, h1, h2, _⟩ := ih.indexAssign_spec k v
    rw [hrun] at h1
    cases h1
    exact h2
  | clear _ ih => exact ih.clear

/-! ### The node list and the iteration sequence -/

theorem mem_toList_iff (m : HashMap K V) (k : K) (v : V) :
    (k, v) ∈ m.toList ↔ ∃ e, e ∈ m.elements_ ∧ e.key = k ∧ e.val = v := by
  simp only [HashMap.toList, List.mem_map, Prod.mk.injEq]

theorem mem_keys_iff (m : HashMap K V) (k : K) :
    k ∈ m.toList.map Prod.fst ↔ ∃ e, e ∈ m.elements_ ∧ e.key = k := by
  simp only [HashMap.toList, List.map_map, List.mem_map, Function.comp]

theorem Inv.at_found [DecidableEq K] {m : HashMap K V} (hinv : Inv m) (e : Node K V)
    (he : e ∈ m.elements_) : m.at e.key = .ok e.val := by
  rw [HashMap.at, hinv.find_found e he]
  simp only
  rw [if_neg (handle_ne_end m e), deref_handle m hinv.ids_nodup e he]

theorem Inv.at_absent [DecidableEq K] {m : HashMap K V} (hinv : Inv m) (k : K)
    (habs : ∀ e, e ∈ m.elements_ → e.key ≠ k) : m.at k = .error .outOfRange := by
  rw [HashMap.at, hinv.find_absent k habs]
  simp only [if_true]

theorem Inv.insert_toList [DecidableEq K] {m : HashMap K V} (hinv : Inv m) (kv : K × V) :
    ∃ m', m.insert kv = .ok m' ∧ Inv m' ∧ m'.listId = m.listId ∧ m'.hasher_ = m.hasher_ ∧
      m'.toList = refInsert m.toList kv := by
  obtain ⟨m', hrun, hinv', hid, hha, _, _, hpres, habs⟩ := hinv.insert_spec kv
  refine ⟨m', hrun, hinv', hid, hha, ?_⟩
  unfold refInsert
  by_cases hp : kv.1 ∈ m.toList.map Prod.fst
  · rw [if_pos hp]
    have := (hpres ((mem_keys_iff m kv.1).mp hp)).1
    simp only [HashMap.toList, this]
  · rw [if_neg hp]
    have hab : ∀ e, e ∈ m.elements_ → e.key ≠ kv.1 := by
      intro e he hk
      exact hp ((mem_keys_iff m kv.1).mpr ⟨e, he, hk⟩)
    have := (habs hab).1
    simp only [HashMap.toList, this, List.map_append, List.map_cons, List.map_nil]

theorem Inv.erase_toList [DecidableEq K] {m : HashMap K V} (hinv : Inv m) (k : K) :
    ∃ m', m.erase k = .ok m' ∧ Inv m' ∧ m'.listId = m.listId ∧ m'.hasher_ = m.hasher_ ∧
      m'.table_.length = m.table_.length ∧
      m'.toList = refErase m.toList k := by
  obtain ⟨m', hrun, hinv', hid, hha, _, hcap, hel, _⟩ := hinv.erase_spec k
  refine ⟨m', hrun, hinv', hid, hha, hcap, ?_⟩
  simp only [HashMap.toList, hel, refErase, List.filter_map]
  rfl

theorem Inv.run_spec [DecidableEq K] :
    ∀ (ops : List (Op K V)) (m : HashMap K V), Inv m →
      ∃ m', m.run ops = .ok m' ∧ Inv m' ∧ m'.toList = refRun m.toList ops := by
  intro ops
  induction ops with
  | nil => intro m hinv; exact ⟨m, rfl, hinv, rfl⟩
  | cons op rest ih =>
    intro m hinv
    cases op with
    | insert kv =>
      obtain ⟨m1, h1, hinv1, _, _, htl⟩ := hinv.insert_toList kv
      obtain ⟨m', h2, hinv', htl'⟩ := ih m1 hinv1
      refine ⟨m', ?_, hinv', ?_⟩
      · rw [HashMap.run, h1]; exact h2
      · rw [htl', htl]; rfl
    | erase k =>
      obtain ⟨m1, h1, hinv1, _, _, _, htl⟩ := hinv.erase_toList k
      obtain ⟨m', h2, hinv', htl'⟩ := ih m1 hinv1
      refine ⟨m', ?_, hinv', ?_⟩
      · rw [HashMap.run, h1]; exact h2
      · rw [htl', htl]; rfl

theorem refRun_append [DecidableEq K] (ops ops' : List (Op K V)) :
    ∀ l : List (K × V), refRun l (ops ++ ops') = refRun (refRun l ops) ops' := by
  induction ops with
  | nil => intro l; rfl
  | cons op rest ih =>
    intro l
    cases op with
    | insert kv => exact ih _
    | erase k => exact ih _

theorem Inv.insertAll_spec [DecidableEq K] :
    ∀ (kvs : List (K × V)) (m : HashMap K V), Inv m →
      ∃ m', m.insertAll kvs = .ok m' ∧ Inv m' ∧ m'.listId = m.listId ∧
        m'.hasher_ = m.hasher_ ∧ m'.toList = kvs.foldl refInsert m.toList := by
  intro kvs
  induction kvs with
  | nil => intro m hinv; exact ⟨m, rfl, hinv, rfl, rfl, rfl⟩
  | cons kv rest ih =>
    intro m hinv
    obtain ⟨m1, h1, hinv1, hid1, hha1, htl⟩ := hinv.insert_toList kv
    obtain ⟨m', h2, hinv', hid, hha, htl'⟩ := ih m1 hinv1
    refine ⟨m', ?_, hinv', hid.trans hid1, hha.trans hha1, ?_⟩
    · rw [HashMap.insertAll, h1]; exact h2
    · rw [htl', htl]; rfl

theorem foldl_refInsert_distinct [DecidableEq K] :
    ∀ (kvs l : List (K × V)), ((l ++ kvs).map Prod.fst).Nodup →
      kvs.foldl refInsert l = l ++ kvs := by
  intro kvs
  induction kvs with
  | nil => intro l _; simp
  | cons kv rest ih =>
    intro l hnd
    have hnot : kv.1 ∉ l.map Prod.fst := by
      intro h
      rw [List.map_append, List.nodup_append] at hnd
      exact hnd.2.2 h (by simp)
    rw [List.foldl_cons, refInsert, if_neg hnot]
    have e : l ++ kv :: rest = (l ++ [kv]) ++ rest := by simp
    rw [e] at hnd ⊢
    exact ih _ hnd

theorem sampleMap_reachable : Reachable sampleMap := by
  have h1 : ∃ m1, (HashMap.new 0 id : HashMap Nat Nat).insert (1, 10) = .ok m1 ∧
      m1.insert (9, 20) = .ok sampleMap := ⟨_, rfl, rfl⟩
  obtain ⟨m1, ha, hb⟩ := h1
  exact Reachable.insert (9, 20) (Reachable.insert (1, 10) (Reachable.new 0 id) ha) hb

/-- C1. Inserting pairs with pairwise-distinct keys into an empty map succeeds for every
hash function and every length; afterwards `size()` is the number of pairs, `find` of every
inserted key returns an iterator to the node with that key and the inserted value, and
`find` of every other key returns `end()`. -/
theorem C1_distinct_inserts [DecidableEq K] (l : Nat) (hash : K → Nat) (kvs : List (K × V))
    (hd : (kvs.map Prod.fst).Nodup) :
    ∃ m, (HashMap.new l hash).insertAll kvs = .ok m ∧ m.size = kvs.length ∧
      (∀ kv, kv ∈ kvs → ∃ it e, m.find kv.1 = .ok it ∧ it ≠ m.endIt ∧
        m.deref it = .ok e ∧ e.key = kv.1 ∧ e.val = kv.2) ∧
      (∀ k, k ∉ kvs.map Prod.fst → m.find k = .ok m.endIt) := by
  obtain ⟨m, hrun, hinv, _, _, htl⟩ := Inv.insertAll_spec kvs (HashMap.new l hash) (Inv.new l hash)
  have h0 : (HashMap.new l hash : HashMap K V).toList = [] := rfl
  rw [h0, foldl_refInsert_distinct kvs [] (by simpa using hd), List.nil_append] at htl
  refine ⟨m, hrun, ?_, ?_, ?_⟩
  · have := congrArg List.length htl
    simpa [HashMap.toList, HashMap.size] using this
  · intro kv hkv
    have hmem : (kv.1, kv.2) ∈ m.toList := by rw [htl]; exact hkv
    obtain ⟨e, he, hk, hv⟩ := (mem_toList_iff m kv.1 kv.2).mp hmem
    refine ⟨m.handle e, e, ?_, handle_ne_end m e, deref_handle m hinv.ids_nodup e he, hk, hv⟩
    rw [← hk]
    exact hinv.find_found e he
  · intro k hk
    apply hinv.find_absent
    intro e he hek
    apply hk
    rw [← htl]
    exact (mem_keys_iff m k).mpr ⟨e, he, hek⟩

theorem C1_distinct_inserts_witness :
    ((([(1, 10), (9, 20), (17, 30), (2, 40), (3, 50), (4, 60), (5, 70), (6, 80)] :
        List (Nat × Nat)).map Prod.fst).Nodup) ∧
    ∃ m, (HashMap.new 0 id).insertAll
        ([(1, 10), (9, 20), (17, 30), (2, 40), (3, 50), (4, 60), (5, 70), (6, 80)] :
          List (Nat × Nat)) = .ok m ∧ m.size = 8 ∧
      (∀ kv, kv ∈ ([(1, 10), (9, 20), (17, 30), (2, 40), (3, 50), (4, 60), (5, 70), (6, 80)] :
          List (Nat × Nat)) → ∃ it e, m.find kv.1 = .ok it ∧ it ≠ m.endIt ∧
        m.deref it = .ok e ∧ e.key = kv.1 ∧ e.val = kv.2) ∧
      (∀ k, k ∉ ([(1, 10), (9, 20), (17, 30), (2, 40), (3, 50), (4, 60), (5, 70), (6, 80)] :
          List (Nat × Nat)).map Prod.fst → m.find k = .ok m.endIt) :=
  ⟨by decide, C1_distinct_inserts 0 id _ (by decide)⟩

/-- C2. Every sequence of `insert` and `erase` calls on an empty map succeeds, and the
iteration from `begin()` to `end()` then yields exactly the pairs of the reference
insertion-ordered association list, in the same order. In particular a key that is erased
and inserted again is iterated last, and `insert (a,1), (b,2), (c,3)` followed by `erase b`
iterates as `[(a,1), (c,3)]`. -/
theorem C2_iteration_refines_reference [DecidableEq K] :
    (∀ (l : Nat) (hash : K → Nat) (ops : List (Op K V)),
      ∃ m, (HashMap.new l hash).run ops = .ok m ∧ m.toList = refRun [] ops) ∧
    (∀ (l : Nat) (hash : K → Nat) (ops : List (Op K V)) (k : K) (v : V),
      ∃ m, (HashMap.new l hash).run (ops ++ [Op.erase k, Op.insert (k, v)]) = .ok m ∧
        m.toList = (refRun [] ops).filter (fun p => decide (p.1 ≠ k)) ++ [(k, v)]) ∧
    (∀ (l : Nat) (hash : Char → Nat),
      ∃ m, (HashMap.new l hash).run
          [Op.insert ('a', 1), Op.insert ('b', 2), Op.insert ('c', 3), Op.erase 'b'] = .ok m ∧
        m.toList = [('a', 1), ('c', 3)]) := by
  have gen : ∀ {K' V' : Type} [DecidableEq K'] (l : Nat) (hash : K' → Nat)
      (ops : List (Op K' V')),
      ∃ m, (HashMap.new l hash).run ops = .ok m ∧ m.toList = refRun [] ops := by
    intro K' V' _ l hash ops
    obtain ⟨m, h1, _, h2⟩ := Inv.run_spec ops (HashMap.new l hash) (Inv.new l hash)
    exact ⟨m, h1, h2⟩
  refine ⟨gen, ?_, ?_⟩
  · intro l hash ops k v
    obtain ⟨m, h1, h2⟩ := gen l hash (ops ++ [Op.erase k, Op.insert (k, v)])
    refine ⟨m, h1, ?_⟩
    rw [h2, refRun_append]
    show refInsert (refErase (refRun [] ops) k) (k, v) = _
    rw [refInsert, if_neg]
    · rfl
    · simp [refErase]
  · intro l hash
    obtain ⟨m, h1, h2⟩ := @gen Char Nat _ l hash
      [Op.insert ('a', 1), Op.insert ('b', 2), Op.insert ('c', 3), Op.erase 'b']
    refine ⟨m, h1, ?_⟩
    rw [h2]
    decide

/-- C3. On a reachable map, `insert` of a pair whose key is already present succeeds and
changes neither `size()` nor the iteration sequence nor the value stored under the key,
which is not overwritten by the new value. -/
theorem C3_insert_present_noop [DecidableEq K] [Inhabited V] (m : HashMap K V)
    (hr : Reachable m) (k : K) (v' : V) (hk : k ∈ m.toList.map Prod.fst) :
    ∃ m', m.insert (k, v') = .ok m' ∧ m'.size = m.size ∧ m'.toList = m.toList ∧
      ∃ v, (k, v) ∈ m.toList ∧ m.at k = .ok v ∧ m'.at k = .ok v := by
  have hinv := hr.inv
  obtain ⟨m', hrun, hinv', _, _, _, _, hpres, _⟩ := hinv.insert_spec (k, v')
  obtain ⟨e, he, hek⟩ := (mem_keys_iff m k).mp hk
  have hel := (hpres ⟨e, he, hek⟩).1
  refine ⟨m', hrun, by simp only [HashMap.size, hel], by simp only [HashMap.toList, hel],
    e.val, (mem_toList_iff m k e.val).mpr ⟨e, he, hek, rfl⟩, ?_, ?_⟩
  · rw [← hek]; exact hinv.at_found e he
  · rw [← hek]; exact hinv'.at_found e (by rw [hel]; exact he)

theorem C3_insert_present_noop_witness :
    Reachable sampleMap ∧ 9 ∈ sampleMap.toList.map Prod.fst ∧
    ∃ m', sampleMap.insert (9, 77) = .ok m' ∧ m'.size = sampleMap.size ∧
      m'.toList = sampleMap.toList ∧
      ∃ v, (9, v) ∈ sampleMap.toList ∧ sampleMap.at 9 = .ok v ∧ m'.at 9 = .ok v :=
  ⟨sampleMap_reachable, by decide,
    C3_insert_present_noop sampleMap sampleMap_reachable 9 77 (by decide)⟩

theorem length_filter_key [DecidableEq K] (l : List (Node K V))
    (hnd : (l.map (fun e => e.id)).Nodup) (hkd : (l.map (fun e => e.key)).Nodup)
    (e : Node K V) (he : e ∈ l) :
    (l.filter (fun x => decide (x.key ≠ e.key))).length + 1 = l.length := by
  rw [← filter_id_eq_filter_key l hnd hkd e he]
  have := (perm_filter_id l hnd e he).length_eq
  rw [List.length_cons] at this
  exact this.symm

/-- C4. On a reachable map, `erase` of a present key succeeds; afterwards `find` of that
key returns `end()` and `size()` is exactly one less than before. -/
theorem C4_erase_present [DecidableEq K] [Inhabited V] (m : HashMap K V)
    (hr : Reachable m) (k : K) (hk : k ∈ m.toList.map Prod.fst) :
    ∃ m', m.erase k = .ok m' ∧ m'.find k = .ok m'.endIt ∧ m'.size + 1 = m.size := by
  have hinv := hr.inv
  obtain ⟨m', hrun, hinv', _, _, _, _, hel, _⟩ := hinv.erase_spec k
  obtain ⟨e, he, hek⟩ := (mem_keys_iff m k).mp hk
  refine ⟨m', hrun, ?_, ?_⟩
  · apply hinv'.find_absent
    intro x hx
    rw [hel] at hx
    simpa using (List.mem_filter.mp hx).2
  · subst hek
    simp only [HashMap.size, hel]
    exact length_filter_key m.elements_ hinv.ids_nodup hinv.keys_nodup e he

theorem C4_erase_present_witness :
    Reachable sampleMap ∧ 1 ∈ sampleMap.toList.map Prod.fst ∧
    ∃ m', sampleMap.erase 1 = .ok m' ∧ m'.find 1 = .ok m'.endIt ∧
      m'.size + 1 = sampleMap.size :=
  ⟨sampleMap_reachable, by decide, C4_erase_present sampleMap sampleMap_reachable 1 (by decide)⟩

/-- C5. On a reachable map, after `erase(k)` (with its backward shift when `k` is present)
every other present key `k'` is still reachable: it sits in a slot at cyclic distance `d`
from its home slot `hash(k') mod capacity`, every slot on the forward path from the home
slot to that slot is occupied, and `find(k')` returns the iterator of that slot, whose node
carries `k'` with its value unchanged. -/
theorem C5_erase_keeps_reachability [DecidableEq K] [Inhabited V] (m : HashMap K V)
    (hr : Reachable m) (k : K) :
    ∃ m', m.erase k = .ok m' ∧ m'.table_.length = m.table_.length ∧
      ∀ k' v', (k', v') ∈ m.toList → k' ≠ k →
        ∃ pos d e, pos < m'.table_.length ∧ d < m'.table_.length ∧
          (m'.hasher_ k' % m'.table_.length + d) % m'.table_.length = pos ∧
          (∀ y, y ≤ d →
            m'.slot ((m'.hasher_ k' % m'.table_.length + y) % m'.table_.length) ≠ m'.endIt) ∧
          m'.deref (m'.slot pos) = .ok e ∧ e.key = k' ∧ e.val = v' ∧
          m'.find k' = .ok (m'.slot pos) ∧ m'.at k' = .ok v' ∧ m.at k' = .ok v' := by
  have hinv := hr.inv
  obtain ⟨m', hrun, hinv', _, _, _, hcap, hel, _⟩ := hinv.erase_spec k
  refine ⟨m', hrun, hcap, ?_⟩
  intro k' v' hmem hne
  obtain ⟨e, he, hek, hev⟩ := (mem_toList_iff m k' v').mp hmem
  have he' : e ∈ m'.elements_ := by
    rw [hel, List.mem_filter]
    exact ⟨he, by simpa [hek] using hne⟩
  obtain ⟨pos, hpos, _, hslot, hlt, hok, hpath⟩ := hinv'.locate_found e he'
  subst hek
  refine ⟨pos, m'.psl pos, e, hpos, hlt, ?_, ?_, ?_, rfl, hev, ?_, ?_, ?_⟩
  · rw [Nat.mod_add_mod]; exact hok
  · intro y hy
    rw [Nat.mod_add_mod]; exact hpath y hy
  · rw [hslot]; exact deref_handle m' hinv'.ids_nodup e he'
  · rw [hslot]; exact hinv'.find_found e he'
  · rw [← hev]; exact hinv'.at_found e he'
  · rw [← hev]; exact hinv.at_found e he

theorem C5_erase_keeps_reachability_witness :
    Reachable sampleMap ∧ 1 ∈ sampleMap.toList.map Prod.fst ∧
    ∃ m', sampleMap.erase 1 = .ok m' ∧ m'.table_.length = sampleMap.table_.length ∧
      ∀ k' v', (k', v') ∈ sampleMap.toList → k' ≠ 1 →
        ∃ pos d e, pos < m'.table_.length ∧ d < m'.table_.length ∧
          (m'.hasher_ k' % m'.table_.length + d) % m'.table_.length = pos ∧
          (∀ y, y ≤ d →
            m'.slot ((m'.hasher_ k' % m'.table_.length + y) % m'.table_.length) ≠ m'.endIt) ∧
          m'.deref (m'.slot pos) = .ok e ∧ e.key = k' ∧ e.val = v' ∧
          m'.find k' = .ok (m'.slot pos) ∧ m'.at k' = .ok v' ∧ sampleMap.at k' = .ok v' :=
  ⟨sampleMap_reachable, by decide,
    C5_erase_keeps_reachability sampleMap sampleMap_reachable 1⟩

/-- C9. On a reachable map, `at(k)` fails with `std::out_of_range` exactly when `find(k)`
returns `end()`, that is its only failure, and otherwise it returns the value of the node
`find(k)` points to, which is the value iterated for `k`; `find` and `operator[]` always
return. The member `at` is a function of the map to a value and has no effect on it. -/
theorem C9_at_fails_iff_absent [DecidableEq K] [Inhabited V] (m : HashMap K V)
    (hr : Reachable m) (k : K) :
    (m.at k = .error .outOfRange ↔ m.find k = .ok m.endIt) ∧
    (∀ f, m.at k = .error f → f = .outOfRange) ∧
    (∀ it, m.find k = .ok it → it ≠ m.endIt →
      ∃ e, m.deref it = .ok e ∧ e.key = k ∧ (k, e.val) ∈ m.toList ∧ m.at k = .ok e.val) ∧
    (∃ it, m.find k = .ok it) ∧ (∃ r, m.index k = .ok r) := by
  have hinv := hr.inv
  have hidx : ∃ r, m.index k = .ok r := by
    obtain ⟨m', e, h, _⟩ := hinv.index_spec k
    exact ⟨_, h⟩
  by_cases hp : ∃ e, e ∈ m.elements_ ∧ e.key = k
  · obtain ⟨e, he, hek⟩ := hp
    subst hek
    have hf := hinv.find_found e he
    have ha := hinv.at_found e he
    refine ⟨?_, ?_, ?_, ⟨_, hf⟩, hidx⟩
    · rw [hf, ha]
      constructor
      · intro h; cases h
      · intro h
        exact absurd (Except.ok.inj h) (handle_ne_end m e)
    · intro f h
      rw [ha] at h
      cases h
    · intro it hit _
      rw [hf] at hit
      cases hit
      exact ⟨e, deref_handle m hinv.ids_nodup e he, rfl,
        (mem_toList_iff m e.key e.val).mpr ⟨e, he, rfl, rfl⟩, ha⟩
  · have habs : ∀ e, e ∈ m.elements_ → e.key ≠ k := fun e he hk => hp ⟨e, he, hk⟩
    have hf := hinv.find_absent k habs
    have ha := hinv.at_absent k habs
    refine ⟨?_, ?_, ?_, ⟨_, hf⟩, hidx⟩
    · rw [hf, ha]
      exact ⟨fun _ => rfl, fun _ => rfl⟩
    · intro f h
      rw [ha] at h
      cases h
      rfl
    · intro it hit hne
      rw [hf] at hit
      cases hit
      exact absurd rfl hne

theorem C9_at_fails_iff_absent_witness :
    Reachable sampleMap ∧
    ((sampleMap.at 5 = .error .outOfRange ↔ sampleMap.find 5 = .ok sampleMap.endIt) ∧
    (∀ f, sampleMap.at 5 = .error f → f = .outOfRange) ∧
    (∀ it, sampleMap.find 5 = .ok it → it ≠ sampleMap.endIt →
      ∃ e, sampleMap.deref it = .ok e ∧ e.key = 5 ∧ (5, e.val) ∈ sampleMap.toList ∧
        sampleMap.at 5 = .ok e.val) ∧
    (∃ it, sampleMap.find 5 = .ok it) ∧ (∃ r, sampleMap.index 5 = .ok r)) :=
  ⟨sampleMap_reachable, C9_at_fails_iff_absent sampleMap sampleMap_reachable 5⟩

theorem toList_assign [DecidableEq K] (l : List (Node K V))
    (hnd : (l.map (fun e => e.id)).Nodup) (hkd : (l.map (fun e => e.key)).Nodup)
    (e : Node K V) (he : e ∈ l) (v : V) :
    (l.map (fun x => if x.id = e.id then { x with val := v } else x)).map
        (fun x => (x.key, x.val))
      = (l.map (fun x => (x.key, x.val))).map
        (fun p => if p.1 = e.key then (p.1, v) else p) := by
  rw [List.map_map, List.map_map]
  apply List.map_congr_left
  intro x hx
  simp only [Function.comp]
  by_cases hxe : x = e
  · subst hxe; simp
  · have h1 : x.id ≠ e.id := fun h => hxe (List.inj_on_of_nodup_map hnd hx he h)
    have h2 : x.key ≠ e.key := fun h => hxe (List.inj_on_of_nodup_map hkd hx he h)
    simp [h1, h2]

/-- C10. On a reachable map: if the key is absent, `m[k]` appends the key with a
default-constructed value as the last iterated pair, `size()` grows by one, the returned
reference denotes that value, and after `m[k] = v` the call `m.at(k)` returns `v`; if the
key is present, `m[k]` leaves the map as it is and returns a reference to the existing
value, and `m[k] = v` replaces only the value iterated under `k`. -/
theorem C10_index_operator [DecidableEq K] [Inhabited V] (m : HashMap K V)
    (hr : Reachable m) (k : K) (v : V) :
    (k ∉ m.toList.map Prod.fst →
      ∃ m' it e, m.index k = .ok (m', it) ∧ m'.toList = m.toList ++ [(k, default)] ∧
        m'.size = m.size + 1 ∧ m'.deref it = .ok e ∧ e.key = k ∧ e.val = default ∧
        ∃ m'', m.indexAssign k v = .ok m'' ∧ m''.toList = m.toList ++ [(k, v)] ∧
          m''.at k = .ok v) ∧
    (k ∈ m.toList.map Prod.fst →
      ∃ it e, m.index k = .ok (m, it) ∧ m.deref it = .ok e ∧ e.key = k ∧
        (k, e.val) ∈ m.toList ∧
        ∃ m'', m.indexAssign k v = .ok m'' ∧ m''.size = m.size ∧
          m''.toList = m.toList.map (fun p => if p.1 = k then (p.1, v) else p) ∧
          m''.at k = .ok v) := by
  have hinv := hr.inv
  obtain ⟨m', m'', e, hidx, hasg, hinv'', he, hek, _, _, _, hel''⟩ := hinv.indexAssign_spec k v
  obtain ⟨m2, e2, hidx2, hinv', he2m, _, _, _, hpres, habs⟩ := hinv.index_spec k
  rw [hidx] at hidx2
  have hm : m2 = m' := (Prod.mk.inj (Except.ok.inj hidx2)).1.symm
  have hee : e2.id = e.id := by
    have := (Prod.mk.inj (Except.ok.inj hidx2)).2
    rw [hm] at this
    exact (handle_inj m' e e2 this).symm
  subst hm
  have he2 : e2 = e := by
    exact List.inj_on_of_nodup_map hinv'.ids_nodup he2m he hee
  subst he2
  have htl'' : m''.toList = m2.toList.map (fun p => if p.1 = k then (p.1, v) else p) := by
    simp only [HashMap.toList, hel'']
    rw [← hek]
    exact toList_assign m2.elements_ hinv'.ids_nodup hinv'.keys_nodup e2 he v
  have hat'' : m''.at k = .ok v := by
    have hmem : ({ e2 with val := v } : Node K V) ∈ m''.elements_ := by
      rw [hel'']
      apply List.mem_map.mpr
      exact ⟨e2, he, by simp⟩
    have := hinv''.at_found _ hmem
    rw [← hek]
    exact this
  constructor
  · intro hk
    have hab : ∀ x, x ∈ m.elements_ → x.key ≠ k := by
      intro x hx hxk
      exact hk ((mem_keys_iff m k).mpr ⟨x, hx, hxk⟩)
    obtain ⟨he2, _, hel⟩ := habs hab
    have htl : m2.toList = m.toList ++ [(k, default)] := by
      simp only [HashMap.toList, hel, List.map_append, List.map_cons, List.map_nil]
    refine ⟨m2, m2.handle e2, e2, hidx, htl, ?_, deref_handle m2 hinv'.ids_nodup e2 he, hek,
      by rw [he2], m'', hasg, ?_, hat''⟩
    · simp only [HashMap.size, hel, List.length_append, List.length_cons, List.length_nil]
    · rw [htl'', htl, List.map_append]
      congr 1
      · conv_rhs => rw [← List.map_id m.toList]
        apply List.map_congr_left
        intro p hp
        have : p.1 ≠ k := by
          intro h
          apply hk
          rw [← h]
          exact List.mem_map_of_mem _ hp
        simp [this]
      · simp
  · intro hk
    have hm : m2 = m := hpres ((mem_keys_iff m k).mp hk)
    subst hm
    refine ⟨m2.handle e2, e2, hidx, deref_handle m2 hinv.ids_nodup e2 he, hek,
      (mem_toList_iff m2 k e2.val).mpr ⟨e2, he, hek, rfl⟩, m'', hasg, ?_, htl'', hat''⟩
    simp only [HashMap.size, hel'', List.length_map]

theorem C10_index_operator_witness :
    Reachable sampleMap ∧
    ((5 ∉ sampleMap.toList.map Prod.fst →
      ∃ m' it e, sampleMap.index 5 = .ok (m', it) ∧
        m'.toList = sampleMap.toList ++ [(5, default)] ∧
        m'.size = sampleMap.size + 1 ∧ m'.deref it = .ok e ∧ e.key = 5 ∧ e.val = default ∧
        ∃ m'', sampleMap.indexAssign 5 42 = .ok m'' ∧
          m''.toList = sampleMap.toList ++ [(5, 42)] ∧ m''.at 5 = .ok 42) ∧
    (5 ∈ sampleMap.toList.map Prod.fst →
      ∃ it e, sampleMap.index 5 = .ok (sampleMap, it) ∧ sampleMap.deref it = .ok e ∧
        e.key = 5 ∧ (5, e.val) ∈ sampleMap.toList ∧
        ∃ m'', sampleMap.indexAssign 5 42 = .ok m'' ∧ m''.size = sampleMap.size ∧
          m''.toList = sampleMap.toList.map (fun p => if p.1 = 5 then (p.1, 42) else p) ∧
          m''.at 5 = .ok 42)) :=
  ⟨sampleMap_reachable, C10_index_operator sampleMap sampleMap_reachable 5 42⟩

theorem sampleOther_reachable : Reachable sampleOther :=
  Reachable.insert (1, 10) (Reachable.new 1 id) rfl

/-- C6. After `a = b` for the distinct maps `a` (empty) and `b` (holding `1 ↦ 10`), `a`
iterates the pairs of `b` and `b` is unchanged, but the index table of `a` is the table of
`b`: its occupied slot holds the iterator to the node of `b`, its other slots hold the
`end()` of `b`, which differs from the `end()` of `a`, and `a.find(2)` for the absent key 2
dereferences that past-the-end iterator instead of returning `a.end()`. -/
theorem C6_copy_assignment_keeps_foreign_table :
    Reachable (sampleStore 0) ∧ Reachable (sampleStore 1) ∧
    (copyAssign sampleStore 0 1 1).toList = (sampleStore 1).toList ∧
    (copyAssign sampleStore 0 1 0).toList = (sampleStore 1).toList ∧
    (copyAssign sampleStore 0 1 0).table_ = (sampleStore 1).table_ ∧
    (copyAssign sampleStore 0 1 0).endIt = Iter.endOf 0 ∧
    (copyAssign sampleStore 0 1 0).slot 1 = Iter.node 1 0 ∧
    (copyAssign sampleStore 0 1 0).slot 2 = Iter.endOf 1 ∧
    (copyAssign sampleStore 0 1 0).find 2 = .error .badIterator ∧
    (sampleStore 1).find 2 = .ok (sampleStore 1).endIt := by
  refine ⟨Reachable.new 0 id, sampleOther_reachable, ?_, ?_, ?_, ?_, ?_, ?_, ?_, ?_⟩ <;> rfl

/-- C7. After the self-assignment `m = m` of the map holding `1 ↦ 10` and `9 ↦ 20`,
`size()` is 0 and the iteration is empty, while the index table still holds the iterators
of the destroyed nodes, so that `find(1)` dereferences an invalid iterator. -/
theorem C7_self_assignment_loses_entries :
    Reachable sampleMap ∧ sampleMap.size = 2 ∧ sampleMap.toList = [(1, 10), (9, 20)] ∧
    sampleMap.find 1 = .ok (Iter.node 0 0) ∧
    (copyAssign (fun _ => sampleMap) 0 0 0).size = 0 ∧
    (copyAssign (fun _ => sampleMap) 0 0 0).toList = [] ∧
    (copyAssign (fun _ => sampleMap) 0 0 0).table_ = sampleMap.table_ ∧
    (copyAssign (fun _ => sampleMap) 0 0 0).find 1 = .error .badIterator := by
  refine ⟨sampleMap_reachable, ?_, ?_, ?_, ?_, ?_, ?_, ?_⟩ <;> rfl

theorem growCap_add (a b : Nat) : ∀ (cap size : Nat),
    growCap cap size (a + b) = growCap (growCap cap size a) (size + a) b := by
  induction a with
  | zero => intro cap size; simp [growCap]
  | succ a ih =>
    intro cap size
    have e : a + 1 + b = (a + b) + 1 := by omega
    rw [e, growCap, growCap, ih]
    congr 1
    omega

theorem growCap_stay (cap : Nat) : ∀ (n size : Nat),
    (∀ i, i < n → needsRehash (size + i) cap = false) → growCap cap size n = cap := by
  intro n
  induction n with
  | zero => intro size _; rfl
  | succ n ih =>
    intro size h
    have h0 := h 0 (by omega)
    rw [Nat.add_zero] at h0
    rw [growCap, h0]
    simp only [Bool.false_eq_true, if_false]
    apply ih
    intro i hi
    have := h (i + 1) (by omega)
    have e : size + (i + 1) = size + 1 + i := by omega
    rwa [e] at this

theorem needsRehash_exact (s c : Nat) (hs : s + 1 < 2 ^ 24)
    (hc : toFloat (3 * toFloat c) = 3 * c) :
    needsRehash s c = decide (3 * c < 4 * (s + 1)) := by
  rw [needsRehash_eq, hc, toFloat_of_lt _ hs]

theorem toFloat_three_pow : ∀ j, j < 26 → toFloat (3 * toFloat (2 ^ j)) = 3 * 2 ^ j := by
  decide

/-- One growth phase: from `8 * u` slots and `3 * u + 1` entries, `3 * u` further inserts
of new keys end with `16 * u` slots. -/
theorem growCap_phase (u : Nat) (hu : 0 < u) (hlt : 6 * u + 1 < 2 ^ 24)
    (hc : toFloat (3 * toFloat (8 * u)) = 3 * (8 * u)) :
    growCap (8 * u) (3 * u + 1) (3 * u) = 16 * u := by
  have e : 3 * u = (3 * u - 1) + 1 := by omega
  rw [e, growCap_add]
  have h1 : growCap (8 * u) (3 * u - 1 + 1 + 1) (3 * u - 1) = 8 * u := by
    apply growCap_stay
    intro i hi
    rw [needsRehash_exact _ _ (by omega) hc]
    simp only [decide_eq_false_iff_not]
    omega
  rw [h1, growCap, growCap, needsRehash_exact _ _ (by omega) hc]
  have : 3 * (8 * u) < 4 * (3 * u - 1 + 1 + 1 + (3 * u - 1) + 1) := by omega
  simp only [this, decide_True, if_true]
  omega

theorem growCap_pow : ∀ k, k < 22 → growCap 8 0 (3 * 2 ^ (k + 1) + 1) = 2 ^ (k + 4) := by
  intro k
  induction k with
  | zero => intro _; decide
  | succ k ih =>
    intro hk
    have h := ih (by omega)
    have e : 3 * 2 ^ (k + 1 + 1) + 1 = (3 * 2 ^ (k + 1) + 1) + 3 * 2 ^ (k + 1) := by
      rw [Nat.pow_succ]; omega
    rw [e, growCap_add, h, Nat.zero_add]
    have hp : 2 ^ (k + 4) = 8 * 2 ^ (k + 1) := by
      rw [Nat.pow_add]; omega
    have hle : 2 ^ (k + 1) ≤ 2 ^ 21 := Nat.pow_le_pow_right (by omega) (by omega)
    have := growCap_phase (2 ^ (k + 1)) (by positivity) (by omega)
      (by rw [← hp]; exact toFloat_three_pow (k + 4) (by omega))
    rw [hp, this]
    have h16 : 2 ^ (k + 1 + 4) = 2 ^ (k + 1) * 16 := by rw [Nat.pow_add]
    omega

theorem toFloat_le_threshold (n : Nat) (h : n ≤ 25165825) : toFloat n ≤ 25165824 := by
  by_cases hlt : n < 2 ^ 24
  · rw [toFloat_of_lt n hlt]; omega
  · have he : f32Exp n n = 1 := by
      obtain ⟨f, rfl⟩ : ∃ f, n = f + 1 := ⟨n - 1, by omega⟩
      rw [f32Exp, if_neg hlt]
      obtain ⟨g, rfl⟩ : ∃ g, f = g + 1 := ⟨f - 1, by omega⟩
      rw [f32Exp, if_pos (by omega)]
    simp only [toFloat, he, Nat.pow_one]
    split
    · omega
    · split
      · split <;> omega
      · omega

theorem needsRehash_last_phase (s : Nat) (h : s ≤ 25165824) :
    needsRehash s (2 ^ 25) = false := by
  have h1 := toFloat_le_threshold (s + 1) (by omega)
  have h2 := toFloat_three_pow 25 (by omega)
  rw [needsRehash_eq, h2]
  simp only [decide_eq_false_iff_not]
  omega

theorem growCap_last : growCap 8 0 25165824 = 2 ^ 25 := by
  have e : 25165824 = (3 * 2 ^ (21 + 1) + 1) + 12582911 := by norm_num
  rw [e, growCap_add, growCap_pow 21 (by omega)]
  apply growCap_stay
  intro i hi
  apply needsRehash_last_phase
  omega

theorem Inv.insertAll_fresh [DecidableEq K] [Inhabited V] :
    ∀ (kvs : List (K × V)) (m : HashMap K V), Inv m → Reachable m →
      (kvs.map Prod.fst).Nodup →
      (∀ kv, kv ∈ kvs → ∀ e, e ∈ m.elements_ → e.key ≠ kv.1) →
      ∃ m', m.insertAll kvs = .ok m' ∧ Reachable m' ∧ m'.size = m.size + kvs.length ∧
        m'.table_.length = growCap m.table_.length m.size kvs.length ∧
        m'.toList = m.toList ++ kvs := by
  intro kvs
  induction kvs with
  | nil => intro m _ hr _ _; exact ⟨m, rfl, hr, rfl, rfl, by simp⟩
  | cons kv rest ih =>
    intro m hinv hr hnd hfresh
    rw [List.map_cons, List.nodup_cons] at hnd
    obtain ⟨m1, hrun, hinv1, _, _, hcap, _, _, habs⟩ := hinv.insert_spec kv
    obtain ⟨hel, _⟩ := habs (fun e he => hfresh kv (List.mem_cons_self _ _) e he)
    have hsize : m1.size = m.size + 1 := by
      simp only [HashMap.size, hel, List.length_append, List.length_cons, List.length_nil]
    have htl1 : m1.toList = m.toList ++ [kv] := by
      simp only [HashMap.toList, hel, List.map_append, List.map_cons, List.map_nil]
    obtain ⟨m', hrun', hr', hsz', hcap', htl'⟩ := ih m1 hinv1 (Reachable.insert kv hr hrun) hnd.2
      (by
        intro kv' hkv' e he
        rw [hel] at he
        rcases List.mem_append.mp he with h | h
        · exact hfresh kv' (List.mem_cons_of_mem _ hkv') e h
        · have : e = ⟨m.fresh, kv.1, kv.2⟩ := by simpa using h
          rw [this]
          intro hk
          have hk' : kv.1 = kv'.1 := hk
          exact hnd.1 (by rw [hk']; exact List.mem_map_of_mem _ hkv'))
    refine ⟨m', ?_, hr', ?_, ?_, by rw [htl', htl1]; simp⟩
    · rw [HashMap.insertAll, hrun]; exact hrun'
    · rw [hsz', hsize, List.length_cons]; omega
    · rw [hcap', hcap, hsize, List.length_cons, growCap]

/-- C8. The map reached by inserting the 25165824 keys `0, …, 25165823` has 33554432
slots; the growth check of the next `insert` compares `float(25165825) = 25165824.0f` with
`0.75f * 33554432 = 25165824.0f`, does not rehash, and the call leaves 25165825 entries in
33554432 slots, a load factor above 0.75. -/
theorem C8_load_factor_exceeded :
    toFloat 25165825 = 25165824 ∧ needsRehash 25165824 33554432 = false ∧
    ∃ m m' : HashMap Nat Nat, Reachable m ∧ m.size = 25165824 ∧
      m.table_.length = 33554432 ∧ m.insert (25165824, 0) = .ok m' ∧
      m'.size = 25165825 ∧ m'.table_.length = 33554432 ∧
      3 * m'.table_.length < 4 * m'.size := by
  refine ⟨by decide, by decide, ?_⟩
  have hnd : (((List.range 25165824).map (fun i => (i, 0))).map Prod.fst).Nodup := by
    rw [List.map_map]
    exact (List.nodup_range _).map (fun a b h => h)
  obtain ⟨m, _, hr, hsz, hcap, htl⟩ :=
    Inv.insertAll_fresh ((List.range 25165824).map (fun i => ((i, 0) : Nat × Nat)))
      (HashMap.new 0 id) (Inv.new 0 id) (Reachable.new 0 id) hnd
      (fun _ _ e he => absurd he (List.not_mem_nil e))
  rw [List.length_map, List.length_range] at hsz hcap
  have hsz0 : (HashMap.new 0 id : HashMap Nat Nat).size = 0 := rfl
  have hcap0 : (HashMap.new 0 id : HashMap Nat Nat).table_.length = 8 := rfl
  rw [hsz0, Nat.zero_add] at hsz
  rw [hsz0, hcap0, growCap_last] at hcap
  have hinv := hr.inv
  have hfresh : ∀ e, e ∈ m.elements_ → e.key ≠ 25165824 := by
    intro e he hk
    have hmem : (e.key, e.val) ∈ m.toList := (mem_toList_iff m _ _).mpr ⟨e, he, rfl, rfl⟩
    have htl0 : (HashMap.new 0 id : HashMap Nat Nat).toList = [] := rfl
    rw [htl, htl0, List.nil_append] at hmem
    obtain ⟨i, hi, hie⟩ := List.mem_map.mp hmem
    have hlt := List.mem_range.mp hi
    have : i = e.key := congrArg Prod.fst hie
    omega
  obtain ⟨m', hrun, _, _, _, hcap', _, _, habs⟩ := hinv.insert_spec (25165824, 0)
  obtain ⟨hel, _⟩ := habs hfresh
  have hsize : m'.size = 25165825 := by
    have hs : m.elements_.length = 25165824 := hsz
    simp only [HashMap.size, hel, List.length_append, List.length_cons, List.length_nil, hs]
  have hnr : needsRehash m.size m.table_.length = false := by
    rw [hsz, hcap]
    exact needsRehash_last_phase _ (by omega)
  rw [hnr] at hcap'
  simp only [Bool.false_eq_true, if_false] at hcap'
  rw [hcap] at hcap'
  refine ⟨m, m', hr, hsz, by rw [hcap]; norm_num, hrun, hsize, by rw [hcap']; norm_num, ?_⟩
  rw [hcap', hsize]
  norm_num

theorem find?_key_toList [DecidableEq K] (l : List (Node K V)) (k : K) :
    (l.map (fun e => (e.key, e.val))).find? (fun p => decide (p.1 = k))
      = (l.find? (fun e => decide (e.key = k))).map (fun e => (e.key, e.val)) := by
  rw [List.find?_map]
  rfl

theorem Inv.lookup_spec [DecidableEq K] {m : HashMap K V} (hinv : Inv m) (k : K) :
    m.lookup k = .ok (refLookup m.toList k) := by
  unfold refLookup HashMap.toList
  rw [find?_key_toList]
  cases hf : m.elements_.find? (fun e => decide (e.key = k)) with
  | none =>
    have habs : ∀ e, e ∈ m.elements_ → e.key ≠ k := by
      intro e he
      have := List.find?_eq_none.mp hf e he
      simpa using this
    rw [HashMap.lookup, hinv.find_absent k habs]
    simp
  | some e =>
    have he := List.mem_of_find?_eq_some hf
    have hk : e.key = k := by simpa using List.find?_some hf
    have h1 := hinv.find_found e he
    rw [hk] at h1
    rw [HashMap.lookup, h1]
    simp only
    rw [if_neg (handle_ne_end m e), deref_handle m hinv.ids_nodup e he]
    rfl

theorem Inv.at_spec [DecidableEq K] {m : HashMap K V} (hinv : Inv m) (k : K) :
    m.at k = (match refLookup m.toList k with
      | some p => .ok p.2
      | none => .error .outOfRange) := by
  unfold refLookup HashMap.toList
  rw [find?_key_toList]
  cases hf : m.elements_.find? (fun e => decide (e.key = k)) with
  | none =>
    have habs : ∀ e, e ∈ m.elements_ → e.key ≠ k := by
      intro e he
      have := List.find?_eq_none.mp hf e he
      simpa using this
    rw [hinv.at_absent k habs]
    rfl
  | some e =>
    have he := List.mem_of_find?_eq_some hf
    have hk : e.key = k := by simpa using List.find?_some hf
    have h1 := hinv.at_found e he
    rw [hk] at h1
    rw [h1]
    rfl

theorem Inv.keys_nodup_toList {m : HashMap K V} (hinv : Inv m) :
    (m.toList.map Prod.fst).Nodup := by
  have : m.toList.map Prod.fst = m.elements_.map (fun e => e.key) := by
    simp [HashMap.toList, Function.comp_def]
  rw [this]
  exact hinv.keys_nodup

theorem Reachable.insertAll [DecidableEq K] [Inhabited V] :
    ∀ (kvs : List (K × V)) (m m' : HashMap K V), Reachable m → m.insertAll kvs = .ok m' →
      Reachable m' := by
  intro kvs
  induction kvs with
  | nil =>
    intro m m' hr h
    cases h
    exact hr
  | cons kv rest ih =>
    intro m m' hr h
    rw [HashMap.insertAll] at h
    cases h1 : m.insert kv with
    | error f => rw [h1] at h; cases h
    | ok m1 =>
      rw [h1] at h
      exact ih m1 m' (Reachable.insert kv hr h1) h

/-- C12. On a reachable map, `erase` of an absent key returns the map as it is: the node
list, the index table, the displacements, the capacity and hence `size()` and the iteration
sequence are those of before the call. -/
theorem C12_erase_absent_noop [DecidableEq K] [Inhabited V] (m : HashMap K V)
    (hr : Reachable m) (k : K) (hk : k ∉ m.toList.map Prod.fst) :
    m.erase k = .ok m := by
  obtain ⟨m', hrun, _, _, _, _, _, _, hsame⟩ := hr.inv.erase_spec k
  have : m' = m := hsame (fun e he hek => hk ((mem_keys_iff m k).mpr ⟨e, he, hek⟩))
  rw [this] at hrun
  exact hrun

theorem C12_erase_absent_noop_witness :
    Reachable sampleMap ∧ 17 ∉ sampleMap.toList.map Prod.fst ∧
    sampleMap.erase 17 = .ok sampleMap :=
  ⟨sampleMap_reachable, by decide, C12_erase_absent_noop sampleMap sampleMap_reachable 17 (by decide)⟩

theorem foldl_refInsert_eq [DecidableEq K] :
    ∀ (kvs l : List (K × V)),
      kvs.foldl refInsert l
        = l ++ (firstOccurrences kvs).filter (fun p => decide (p.1 ∉ l.map Prod.fst)) := by
  intro kvs
  induction kvs with
  | nil => intro l; simp [firstOccurrences]
  | cons kv rest ih =>
    intro l
    rw [List.foldl_cons, ih, firstOccurrences, refInsert]
    by_cases hp : kv.1 ∈ l.map Prod.fst
    · rw [if_pos hp, List.filter_cons_of_neg (by simpa using hp), List.filter_filter]
      congr 1
      apply List.filter_congr
      intro p _
      by_cases h1 : p.1 ∈ l.map Prod.fst
      · simp [h1]
      · have : p.1 ≠ kv.1 := fun h => h1 (h ▸ hp)
        simp [h1, this]
    · rw [if_neg hp, List.filter_cons_of_pos (by simpa using hp), List.filter_filter,
        List.append_assoc, List.singleton_append]
      congr 2
      apply List.filter_congr
      intro p _
      by_cases h1 : p.1 ∈ l.map Prod.fst
      · simp [h1]
      · by_cases h2 : p.1 = kv.1
        · simp [h2]
        · simp [h1, h2]

theorem mem_firstOccurrences [DecidableEq K] (k : K) (v : V) :
    ∀ kvs : List (K × V), (k, v) ∈ firstOccurrences kvs ↔ refLookup kvs k = some (k, v) := by
  intro kvs
  induction kvs with
  | nil => simp [firstOccurrences, refLookup]
  | cons kv rest ih =>
    rw [firstOccurrences, List.mem_cons, List.mem_filter]
    unfold refLookup at ih ⊢
    by_cases hk : kv.1 = k
    · rw [List.find?_cons_of_pos _ (by simpa using hk)]
      constructor
      · rintro (h | ⟨_, h⟩)
        · rw [h]
        · simp [hk] at h
      · intro h
        left
        exact (Option.some.inj h).symm
    · rw [List.find?_cons_of_neg _ (by simpa using hk), ← ih]
      constructor
      · rintro (h | ⟨h, _⟩)
        · exact absurd (congrArg Prod.fst h).symm hk
        · exact h
      · intro h
        right
        exact ⟨h, by simpa using fun h' : k = kv.1 => hk h'.symm⟩

theorem firstOccurrences_keys [DecidableEq K] :
    ∀ kvs : List (K × V), ∀ k, k ∈ (firstOccurrences kvs).map Prod.fst ↔ k ∈ kvs.map Prod.fst := by
  intro kvs
  induction kvs with
  | nil => intro k; simp [firstOccurrences]
  | cons kv rest ih =>
    intro k
    rw [firstOccurrences, List.map_cons, List.mem_cons, List.map_cons, List.mem_cons, ← ih k]
    by_cases hk : k = kv.1
    · simp [hk]
    · simp only [hk, false_or]
      simp only [List.mem_map, List.mem_filter]
      constructor
      · rintro ⟨p, ⟨hp, _⟩, rfl⟩
        exact ⟨p, hp, rfl⟩
      · rintro ⟨p, hp, rfl⟩
        exact ⟨p, ⟨hp, by simpa using hk⟩, rfl⟩

theorem firstOccurrences_nodup [DecidableEq K] :
    ∀ kvs : List (K × V), ((firstOccurrences kvs).map Prod.fst).Nodup := by
  intro kvs
  induction kvs with
  | nil => simp [firstOccurrences]
  | cons kv rest ih =>
    rw [firstOccurrences, List.map_cons, List.nodup_cons]
    constructor
    · intro h
      obtain ⟨p, hp, hpk⟩ := List.mem_map.mp h
      have := (List.mem_filter.mp hp).2
      simp at this
      exact this hpk
    · exact ih.sublist ((List.filter_sublist _).map _)

/-- C14. For every hash function and every finite sequence of pairs, possibly with
repeated keys, the range constructor succeeds and the map iterates exactly the first pair
of every key, in the order of the first occurrences: every key of the sequence is iterated
exactly once, with the value of its first occurrence. -/
theorem C14_range_constructor_first_wins [DecidableEq K] [Inhabited V] (l : Nat)
    (hash : K → Nat) (kvs : List (K × V)) :
    ∃ m, HashMap.fromRange l kvs hash = .ok m ∧ Reachable m ∧
      m.toList = firstOccurrences kvs ∧ (m.toList.map Prod.fst).Nodup ∧
      (∀ k, k ∈ m.toList.map Prod.fst ↔ k ∈ kvs.map Prod.fst) ∧
      (∀ k v, (k, v) ∈ m.toList ↔ refLookup kvs k = some (k, v)) ∧
      (∀ k, m.lookup k = .ok (refLookup kvs k)) := by
  obtain ⟨m, hrun, hinv, _, _, htl⟩ :=
    Inv.insertAll_spec kvs (HashMap.new l hash) (Inv.new l hash)
  have h0 : (HashMap.new l hash : HashMap K V).toList = [] := rfl
  rw [h0, foldl_refInsert_eq] at htl
  have htl' : m.toList = firstOccurrences kvs := by
    rw [htl, List.nil_append, List.filter_eq_self]
    intro p _
    simp
  refine ⟨m, hrun, Reachable.insertAll _ _ _ (Reachable.new l hash) hrun, htl', ?_, ?_, ?_, ?_⟩
  · rw [htl']; exact firstOccurrences_nodup kvs
  · intro k; rw [htl']; exact firstOccurrences_keys kvs k
  · intro k v; rw [htl']; exact mem_firstOccurrences k v kvs
  · intro k
    rw [hinv.lookup_spec k, htl']
    congr 1
    cases h : refLookup kvs k with
    | none =>
      unfold refLookup at h ⊢
      rw [List.find?_eq_none] at h ⊢
      intro p hp hpk
      have hk : p.1 = k := by simpa using hpk
      have h1 : k ∈ (firstOccurrences kvs).map Prod.fst := hk ▸ List.mem_map_of_mem _ hp
      obtain ⟨q, hq, hqk⟩ := List.mem_map.mp ((firstOccurrences_keys kvs k).mp h1)
      exact h q hq (by simpa using hqk)
    | some p =>
      have hpk : p.1 = k := by
        unfold refLookup at h
        simpa using List.find?_some h
      have hmem : (k, p.2) ∈ firstOccurrences kvs := by
        rw [mem_firstOccurrences, h, ← hpk]
      have hnd := firstOccurrences_nodup kvs
      cases h2 : refLookup (firstOccurrences kvs) k with
      | none =>
        unfold refLookup at h2
        have := List.find?_eq_none.mp h2 _ hmem
        simp at this
      | some q =>
        unfold refLookup at h2
        have hq := List.mem_of_find?_eq_some h2
        have hqk : q.1 = k := by simpa using List.find?_some h2
        have : q = (k, p.2) := List.inj_on_of_nodup_map hnd hq hmem hqk
        rw [this, ← hpk]

theorem dist_of_mod (n r d i : Nat) (hr : r < n) (hd : d < n) (h : (r + d) % n = i) :
    d = (i + n - r) % n ∧ (d : Int) = ((i : Int) - (r : Int)) % (n : Int) := by
  by_cases hlt : r + d < n
  · rw [Nat.mod_eq_of_lt hlt] at h
    subst h
    constructor
    · have : r + d + n - r = d + n := by omega
      rw [this, Nat.add_mod_right, Nat.mod_eq_of_lt hd]
    · have : ((r + d : Nat) : Int) - (r : Int) = (d : Int) := by push_cast; ring
      rw [this, Int.emod_eq_of_lt (by omega) (by omega)]
  · have h2 : (r + d) % n = r + d - n := by
      rw [Nat.mod_eq_sub_mod (by omega), Nat.mod_eq_of_lt (by omega)]
    rw [h2] at h
    subst h
    constructor
    · have : r + d - n + n - r = d := by omega
      rw [this, Nat.mod_eq_of_lt hd]
    · have : ((r + d - n : Nat) : Int) - (r : Int) = (d : Int) + (-1) * (n : Int) := by
        rw [Nat.cast_sub (by omega)]; push_cast; ring
      rw [this, Int.add_mul_emod_self, Int.emod_eq_of_lt (by omega) (by omega)]

/-- C15. In every reachable state, every occupied slot `i` holds the iterator of a node of
`elements_`, and the stored displacement `probe_seq_lens_[i]` is
`(i - hash(key) mod capacity) mod capacity` for the key of that node, both as the natural
number `(i + capacity - hash(key) mod capacity) mod capacity` and in integer arithmetic. -/
theorem C15_displacement_formula [DecidableEq K] [Inhabited V] (m : HashMap K V)
    (hr : Reachable m) (i : Nat) (hi : i < m.table_.length) (hocc : m.slot i ≠ m.endIt) :
    ∃ e, e ∈ m.elements_ ∧ m.deref (m.slot i) = .ok e ∧
      m.psl i = (i + m.table_.length - m.hasher_ e.key % m.table_.length) % m.table_.length ∧
      (m.psl i : Int) = ((i : Int) - ((m.hasher_ e.key % m.table_.length : Nat) : Int))
        % (m.table_.length : Int) := by
  have hinv := hr.inv
  obtain ⟨e, he, hslot, hd⟩ := hinv.slot_deref i hi hocc
  have hok := hinv.table.tinv.psl_ok i hi hocc
  have hlt := hinv.table.tinv.psl_lt i hi hocc
  have hh : m.hashOf (m.table_.getD i m.endIt) = m.hasher_ e.key := by
    change m.hashOf (m.slot i) = _
    rw [HashMap.hashOf, hd]
  rw [hh, ← Nat.mod_add_mod] at hok
  have := dist_of_mod m.table_.length (m.hasher_ e.key % m.table_.length) (m.psl i) i
    (Nat.mod_lt _ hinv.cap_pos) hlt hok
  exact ⟨e, he, hd, this.1, this.2⟩

theorem C15_displacement_formula_witness :
    Reachable sampleMap ∧ 2 < sampleMap.table_.length ∧ sampleMap.slot 2 ≠ sampleMap.endIt ∧
    ∃ e, e ∈ sampleMap.elements_ ∧ sampleMap.deref (sampleMap.slot 2) = .ok e ∧
      sampleMap.psl 2 = (2 + sampleMap.table_.length
        - sampleMap.hasher_ e.key % sampleMap.table_.length) % sampleMap.table_.length ∧
      (sampleMap.psl 2 : Int) = (((2 : Nat) : Int)
        - ((sampleMap.hasher_ e.key % sampleMap.table_.length : Nat) : Int))
        % (sampleMap.table_.length : Int) :=
  ⟨sampleMap_reachable, by decide, by decide,
    C15_displacement_formula sampleMap sampleMap_reachable 2 (by decide) (by decide)⟩

/-- C19. In every reachable state, whenever slot `(i + 1) mod capacity` is occupied (and so
in particular whenever slot `i` and its cyclic successor are both occupied), the stored
displacements satisfy `probe_seq_lens_[(i + 1) mod capacity] ≤ probe_seq_lens_[i] + 1`;
a successor with positive displacement moreover has an occupied predecessor. -/
theorem C19_robin_hood_ordering [DecidableEq K] [Inhabited V] (m : HashMap K V)
    (hr : Reachable m) (i : Nat) (hi : i < m.table_.length)
    (hsucc : m.slot ((i + 1) % m.table_.length) ≠ m.endIt) :
    m.psl ((i + 1) % m.table_.length) ≤ m.psl i + 1 ∧
      (0 < m.psl ((i + 1) % m.table_.length) → m.slot i ≠ m.endIt) := by
  have hinv := hr.inv
  by_cases h0 : 0 < m.psl ((i + 1) % m.table_.length)
  · have := hinv.table.tinv.chain i hsucc h0
    rw [Nat.mod_eq_of_lt hi] at this
    exact ⟨this.2, fun _ => this.1⟩
  · constructor
    · have : m.psl ((i + 1) % m.table_.length) = 0 := by omega
      rw [this]; omega
    · intro h; exact absurd h h0

theorem C19_robin_hood_ordering_witness :
    Reachable sampleMap ∧ 1 < sampleMap.table_.length ∧
    sampleMap.slot ((1 + 1) % sampleMap.table_.length) ≠ sampleMap.endIt ∧
    (sampleMap.psl ((1 + 1) % sampleMap.table_.length) ≤ sampleMap.psl 1 + 1 ∧
      (0 < sampleMap.psl ((1 + 1) % sampleMap.table_.length) →
        sampleMap.slot 1 ≠ sampleMap.endIt)) :=
  ⟨sampleMap_reachable, by decide, by decide,
    C19_robin_hood_ordering sampleMap sampleMap_reachable 1 (by decide) (by decide)⟩

/-- C18. In every reachable state the capacity exceeds `size()` and the index table has an
empty slot, so the probe loop of `find` and `erase` returns for every key within
`table_.size()` steps; `rehash` returns; and in `insert`, after the growth check, the
capacity exceeds `size() + 1`, so that the placement loop of `insert_already_existed`,
which runs after the new node is appended, returns as well, and the invariant
`size() < capacity` holds again after the call. -/
theorem C18_probe_loops_terminate [DecidableEq K] [Inhabited V] (m : HashMap K V)
    (hr : Reachable m) :
    m.size < m.table_.length ∧
    (∃ i, i < m.table_.length ∧ m.slot i = m.endIt) ∧
    (∀ k, ∃ pos, pos < m.table_.length ∧
      m.locate k m.table_.length (m.hasher_ k % m.table_.length) = .ok pos) ∧
    (∀ k, ∃ it, m.find k = .ok it) ∧
    (∀ k, ∃ m', m.erase k = .ok m' ∧ m'.size < m'.table_.length) ∧
    (∃ m', m.rehash = .ok m' ∧ m'.size < m'.table_.length) ∧
    (∀ kv : K × V, ∃ m1 m',
      (if needsRehash m.size m.table_.length then m.rehash else .ok m) = .ok m1 ∧
      m1.size + 1 < m1.table_.length ∧ (∃ it, m1.find kv.1 = .ok it) ∧
      m.insert kv = .ok m' ∧ m'.size < m'.table_.length ∧
      (kv.1 ∉ m.toList.map Prod.fst →
        (m1.emplaceBack kv.1 kv.2).size < (m1.emplaceBack kv.1 kv.2).table_.length ∧
        (m1.emplaceBack kv.1 kv.2).insert_already_existed (Iter.node m1.listId m1.fresh)
          = .ok m')) := by
  have hinv := hr.inv
  refine ⟨hinv.size_lt, hinv.table.exists_empty hinv.size_lt, ?_, ?_, ?_, ?_, ?_⟩
  · intro k
    by_cases hp : ∃ e, e ∈ m.elements_ ∧ e.key = k
    · obtain ⟨e, he, rfl⟩ := hp
      obtain ⟨pos, hpos, hloc, _⟩ := hinv.locate_found e he
      exact ⟨pos, hpos, hloc⟩
    · obtain ⟨pos, hpos, hloc, _⟩ := hinv.locate_absent k (fun e he hk => hp ⟨e, he, hk⟩)
      exact ⟨pos, hpos, hloc⟩
  · intro k
    by_cases hp : ∃ e, e ∈ m.elements_ ∧ e.key = k
    · obtain ⟨e, he, rfl⟩ := hp
      exact ⟨_, hinv.find_found e he⟩
    · exact ⟨_, hinv.find_absent k (fun e he hk => hp ⟨e, he, hk⟩)⟩
  · intro k
    obtain ⟨m', hrun, hinv', _⟩ := hinv.erase_spec k
    exact ⟨m', hrun, hinv'.size_lt⟩
  · obtain ⟨m', hrun, _, _, _, _, _, hinv'⟩ := hinv.rehash_spec
    exact ⟨m', hrun, hinv'.size_lt⟩
  · intro kv
    obtain ⟨m1, hg, hinv1, hel, _, _, _, _, hsz⟩ := hinv.grow_spec
    obtain ⟨m', hrun, hinv', _⟩ := hinv.insert_spec kv
    have hfind : ∃ it, m1.find kv.1 = .ok it := by
      by_cases hp : ∃ e, e ∈ m1.elements_ ∧ e.key = kv.1
      · obtain ⟨e, he, hk⟩ := hp
        rw [← hk]
        exact ⟨_, hinv1.find_found e he⟩
      · exact ⟨_, hinv1.find_absent kv.1 (fun e he hk => hp ⟨e, he, hk⟩)⟩
    refine ⟨m1, m', hg, by simp only [HashMap.size, hel]; exact hsz, hfind, hrun,
      hinv'.size_lt, ?_⟩
    intro hk
    have habs : ∀ e, e ∈ m1.elements_ → e.key ≠ kv.1 := by
      intro e he hek
      rw [hel] at he
      exact hk ((mem_keys_iff m kv.1).mpr ⟨e, he, hek⟩)
    have hf := hinv1.find_absent kv.1 habs
    constructor
    · show (m1.elements_ ++ [_]).length < m1.table_.length
      rw [List.length_append, hel]
      simpa using hsz
    · rw [← hrun, HashMap.insert, hg]
      simp only
      rw [hf]
      simp only
      rw [if_neg (fun h => h rfl)]

theorem C18_probe_loops_terminate_witness :
    Reachable sampleMap ∧
    (sampleMap.size < sampleMap.table_.length ∧
    (∃ i, i < sampleMap.table_.length ∧ sampleMap.slot i = sampleMap.endIt) ∧
    (∀ k, ∃ pos, pos < sampleMap.table_.length ∧
      sampleMap.locate k sampleMap.table_.length
        (sampleMap.hasher_ k % sampleMap.table_.length) = .ok pos) ∧
    (∀ k, ∃ it, sampleMap.find k = .ok it) ∧
    (∀ k, ∃ m', sampleMap.erase k = .ok m' ∧ m'.size < m'.table_.length) ∧
    (∃ m', sampleMap.rehash = .ok m' ∧ m'.size < m'.table_.length) ∧
    (∀ kv : Nat × Nat, ∃ m1 m',
      (if needsRehash sampleMap.size sampleMap.table_.length then sampleMap.rehash
        else .ok sampleMap) = .ok m1 ∧
      m1.size + 1 < m1.table_.length ∧ (∃ it, m1.find kv.1 = .ok it) ∧
      sampleMap.insert kv = .ok m' ∧ m'.size < m'.table_.length ∧
      (kv.1 ∉ sampleMap.toList.map Prod.fst →
        (m1.emplaceBack kv.1 kv.2).size < (m1.emplaceBack kv.1 kv.2).table_.length ∧
        (m1.emplaceBack kv.1 kv.2).insert_already_existed (Iter.node m1.listId m1.fresh)
          = .ok m'))) :=
  ⟨sampleMap_reachable, C18_probe_loops_terminate sampleMap sampleMap_reachable⟩

theorem refLookup_none_iff [DecidableEq K] (l : List (K × V)) (k : K) :
    refLookup l k = none ↔ k ∉ l.map Prod.fst := by
  unfold refLookup
  rw [List.find?_eq_none]
  constructor
  · intro h hk
    obtain ⟨p, hp, hpk⟩ := List.mem_map.mp hk
    exact h p hp (by simpa using hpk)
  · intro h p hp hpk
    apply h
    have : p.1 = k := by simpa using hpk
    rw [← this]
    exact List.mem_map_of_mem _ hp

theorem Inv.indexAssign_toList [DecidableEq K] [Inhabited V] {m : HashMap K V}
    (hinv : Inv m) (k : K) (v : V) :
    ∃ m'', m.indexAssign k v = .ok m'' ∧ Inv m'' ∧ m''.hasher_ = m.hasher_ ∧
      (k ∈ m.toList.map Prod.fst →
        m''.toList = m.toList.map (fun p => if p.1 = k then (p.1, v) else p)) ∧
      (k ∉ m.toList.map Prod.fst → m''.toList = m.toList ++ [(k, v)]) := by
  obtain ⟨m', m'', e, hidx, hasg, hinv'', he, hek, _, hha, _, hel''⟩ :=
    hinv.indexAssign_spec k v
  obtain ⟨m2, e2, hidx2, hinv', he2m, _, _, _, hpres, habs⟩ := hinv.index_spec k
  rw [hidx] at hidx2
  have hm : m2 = m' := (Prod.mk.inj (Except.ok.inj hidx2)).1.symm
  subst hm
  have htl'' : m''.toList = m2.toList.map (fun p => if p.1 = k then (p.1, v) else p) := by
    simp only [HashMap.toList, hel'']
    rw [← hek]
    exact toList_assign m2.elements_ hinv'.ids_nodup hinv'.keys_nodup e he v
  refine ⟨m'', hasg, hinv'', hha, ?_, ?_⟩
  · intro hk
    have hm : m2 = m := hpres ((mem_keys_iff m k).mp hk)
    rw [htl'', hm]
  · intro hk
    have hab : ∀ x, x ∈ m.elements_ → x.key ≠ k := by
      intro x hx hxk
      exact hk ((mem_keys_iff m k).mpr ⟨x, hx, hxk⟩)
    obtain ⟨_, _, hel⟩ := habs hab
    have htl : m2.toList = m.toList ++ [(k, default)] := by
      simp only [HashMap.toList, hel, List.map_append, List.map_cons, List.map_nil]
    rw [htl'', htl, List.map_append]
    congr 1
    · conv_rhs => rw [← List.map_id m.toList]
      apply List.map_congr_left
      intro p hp
      have : p.1 ≠ k := by
        intro h
        apply hk
        rw [← h]
        exact List.mem_map_of_mem _ hp
      simp [this]
    · simp

theorem Inv.call_spec [DecidableEq K] [Inhabited V] {m : HashMap K V} (hinv : Inv m)
    (c : Call K V) :
    ∃ m', m.call c = .ok (m', (refCall m.toList c).2) ∧ Inv m' ∧
      m'.toList = (refCall m.toList c).1 ∧ m'.hasher_ = m.hasher_ := by
  cases c with
  | insert kv =>
    obtain ⟨m', hrun, hinv', _, hha, htl⟩ := hinv.insert_toList kv
    exact ⟨m', by rw [HashMap.call, hrun]; rfl, hinv', htl, hha⟩
  | erase k =>
    obtain ⟨m', hrun, hinv', _, hha, _, htl⟩ := hinv.erase_toList k
    exact ⟨m', by rw [HashMap.call, hrun]; rfl, hinv', htl, hha⟩
  | index k =>
    obtain ⟨m', e, hidx, hinv', he, hek, _, hha, hpres, habs⟩ := hinv.index_spec k
    have hd := deref_handle m' hinv'.ids_nodup e he
    cases hl : refLookup m.toList k with
    | none =>
      have hk := (refLookup_none_iff m.toList k).mp hl
      have hab : ∀ x, x ∈ m.elements_ → x.key ≠ k := by
        intro x hx hxk
        exact hk ((mem_keys_iff m k).mpr ⟨x, hx, hxk⟩)
      obtain ⟨he2, _, hel⟩ := habs hab
      refine ⟨m', ?_, hinv', ?_, hha⟩
      · rw [HashMap.call, hidx]
        simp only
        rw [hd]
        simp only [refCall, hl, he2]
      · simp only [refCall, hl]
        simp only [HashMap.toList, hel, List.map_append, List.map_cons, List.map_nil]
    | some p =>
      have hk : k ∈ m.toList.map Prod.fst := by
        by_contra hn
        rw [(refLookup_none_iff m.toList k).mpr hn] at hl
        cases hl
      have hm : m' = m := hpres ((mem_keys_iff m k).mp hk)
      subst hm
      have h1 := hinv.lookup_spec k
      rw [hl, HashMap.lookup, ← hek, hinv.find_found e he] at h1
      simp only at h1
      rw [if_neg (handle_ne_end m' e), hd] at h1
      have hp : p = (e.key, e.val) := (Option.some.inj (Except.ok.inj h1)).symm
      refine ⟨m', ?_, hinv, ?_, rfl⟩
      · rw [HashMap.call, hidx]
        simp only
        rw [hd]
        simp only [refCall, hl, hp]
      · simp only [refCall, hl]
  | indexAssign k v =>
    obtain ⟨m'', hrun, hinv'', hha, hpres, habs⟩ := hinv.indexAssign_toList k v
    cases hl : refLookup m.toList k with
    | none =>
      refine ⟨m'', ?_, hinv'', ?_, hha⟩
      · rw [HashMap.call, hrun]
        simp only [refCall, hl]
      · simp only [refCall, hl]
        exact habs ((refLookup_none_iff m.toList k).mp hl)
    | some p =>
      refine ⟨m'', ?_, hinv'', ?_, hha⟩
      · rw [HashMap.call, hrun]
        simp only [refCall, hl]
      · simp only [refCall, hl]
        apply hpres
        by_contra hn
        rw [(refLookup_none_iff m.toList k).mpr hn] at hl
        cases hl
  | find k =>
    refine ⟨m, ?_, hinv, rfl, rfl⟩
    rw [HashMap.call, hinv.lookup_spec k]
    rfl
  | atKey k =>
    refine ⟨m, ?_, hinv, ?_, rfl⟩
    · rw [HashMap.call, hinv.at_spec k]
      cases hl : refLookup m.toList k with
      | none => simp only [refCall, hl]
      | some p => simp only [refCall, hl]
    · cases hl : refLookup m.toList k with
      | none => simp only [refCall, hl]
      | some p => simp only [refCall, hl]
  | clear =>
    exact ⟨m.clear, rfl, hinv.clear, rfl, rfl⟩

theorem Inv.trace_spec [DecidableEq K] [Inhabited V] :
    ∀ (cs : List (Call K V)) (m : HashMap K V), Inv m →
      m.trace cs = .ok (refTrace m.toList cs) := by
  intro cs
  induction cs with
  | nil => intro m _; rfl
  | cons c rest ih =>
    intro m hinv
    obtain ⟨m', hrun, hinv', htl, _⟩ := hinv.call_spec c
    rw [HashMap.trace, hrun]
    simp only
    rw [ih m' hinv', refTrace, htl]
    have : m'.size = (refCall m.toList c).1.length := by
      rw [← htl]; simp [HashMap.size, HashMap.toList]
    rw [this]

theorem Inv.calls_spec [DecidableEq K] [Inhabited V] :
    ∀ (cs : List (Call K V)) (m : HashMap K V), Inv m →
      ∃ m', m.calls cs = .ok m' ∧ Inv m' ∧ m'.toList = refCalls m.toList cs ∧
        m'.hasher_ = m.hasher_ := by
  intro cs
  induction cs with
  | nil => intro m hinv; exact ⟨m, rfl, hinv, rfl, rfl⟩
  | cons c rest ih =>
    intro m hinv
    obtain ⟨m1, hrun, hinv1, htl, hha⟩ := hinv.call_spec c
    obtain ⟨m', hrun', hinv', htl', hha'⟩ := ih m1 hinv1
    refine ⟨m', ?_, hinv', ?_, hha'.trans hha⟩
    · rw [HashMap.calls, hrun]; exact hrun'
    · rw [htl', htl]; rfl

/-- C13. After `clear()` on a reachable map, `size()` is 0, `empty()` is true, `find`
returns `end()` for every key, every slot is empty with displacement 0 and the capacity is
the one before the call; and every later sequence of `insert`, `erase`, `operator[]`,
`m[k] = v`, `find`, `at` and `clear` calls succeeds and gives the caller the same results,
the same `size()` and the same iteration sequence after every call as the same sequence on
a freshly constructed map, whatever the hash function of that map. -/
theorem C13_clear_behaves_as_fresh [DecidableEq K] [Inhabited V] (m : HashMap K V)
    (hr : Reachable m) :
    m.clear.size = 0 ∧ m.clear.empty = true ∧
    (∀ k, m.clear.find k = .ok m.clear.endIt) ∧
    (∀ i, i < m.clear.table_.length → m.clear.slot i = m.clear.endIt ∧ m.clear.psl i = 0) ∧
    m.clear.table_.length = m.table_.length ∧
    m.clear.probe_seq_lens_.length = m.probe_seq_lens_.length ∧
    (∀ (l : Nat) (hash : K → Nat) (cs : List (Call K V)),
      m.clear.trace cs = (HashMap.new l hash).trace cs ∧
      m.clear.trace cs = .ok (refTrace [] cs)) := by
  have hinv := hr.inv.clear
  refine ⟨rfl, rfl, ?_, ?_, ?_, ?_, ?_⟩
  · intro k
    apply hinv.find_absent
    intro e he
    cases he
  · intro i _
    constructor
    · show (List.replicate m.table_.length m.endIt).getD i m.endIt = m.endIt
      exact getD_replicate_self _ _ _
    · show (List.replicate m.probe_seq_lens_.length 0).getD i 0 = 0
      exact getD_replicate_self _ _ _
  · show (List.replicate m.table_.length m.endIt).length = _
    rw [List.length_replicate]
  · show (List.replicate m.probe_seq_lens_.length 0).length = _
    rw [List.length_replicate]
  · intro l hash cs
    have h1 := Inv.trace_spec cs m.clear hinv
    have h2 := Inv.trace_spec cs (HashMap.new l hash) (Inv.new l hash)
    have e1 : m.clear.toList = [] := rfl
    have e2 : (HashMap.new l hash : HashMap K V).toList = [] := rfl
    rw [e1] at h1
    rw [e2] at h2
    exact ⟨h1.trans h2.symm, h1⟩

theorem C13_clear_behaves_as_fresh_witness :
    Reachable sampleMap ∧
    (sampleMap.clear.size = 0 ∧ sampleMap.clear.empty = true ∧
    (∀ k, sampleMap.clear.find k = .ok sampleMap.clear.endIt) ∧
    (∀ i, i < sampleMap.clear.table_.length →
      sampleMap.clear.slot i = sampleMap.clear.endIt ∧ sampleMap.clear.psl i = 0) ∧
    sampleMap.clear.table_.length = sampleMap.table_.length ∧
    sampleMap.clear.probe_seq_lens_.length = sampleMap.probe_seq_lens_.length ∧
    (∀ (l : Nat) (hash : Nat → Nat) (cs : List (Call Nat Nat)),
      sampleMap.clear.trace cs = (HashMap.new l hash).trace cs ∧
      sampleMap.clear.trace cs = .ok (refTrace [] cs))) :=
  ⟨sampleMap_reachable, C13_clear_behaves_as_fresh sampleMap sampleMap_reachable⟩

/-- C20. For any two hash functions and any sequence of `insert`, `erase`, `operator[]`,
`m[k] = v`, `find`, `at` and `clear` calls on two freshly constructed maps, both runs
succeed, the callers receive the same results, `size()` and iteration sequence after every
call, and the two final maps have the same `size()`, the same iteration sequence and the
same `find` and `at` result for every key. -/
theorem C20_hash_independence [DecidableEq K] [Inhabited V] (l1 l2 : Nat)
    (h1 h2 : K → Nat) (cs : List (Call K V)) :
    ∃ m1 m2, (HashMap.new l1 h1).calls cs = .ok m1 ∧ (HashMap.new l2 h2).calls cs = .ok m2 ∧
      m1.hasher_ = h1 ∧ m2.hasher_ = h2 ∧
      m1.size = m2.size ∧ m1.toList = m2.toList ∧
      (∀ k, m1.lookup k = m2.lookup k ∧ m1.at k = m2.at k ∧
        m1.lookup k = .ok (refLookup m1.toList k)) ∧
      (HashMap.new l1 h1).trace cs = (HashMap.new l2 h2).trace cs ∧
      (HashMap.new l1 h1).trace cs = .ok (refTrace [] cs) := by
  obtain ⟨m1, hr1, hinv1, htl1, hha1⟩ := Inv.calls_spec cs (HashMap.new l1 h1) (Inv.new l1 h1)
  obtain ⟨m2, hr2, hinv2, htl2, hha2⟩ := Inv.calls_spec cs (HashMap.new l2 h2) (Inv.new l2 h2)
  have e1 : (HashMap.new l1 h1 : HashMap K V).toList = [] := rfl
  have e2 : (HashMap.new l2 h2 : HashMap K V).toList = [] := rfl
  rw [e1] at htl1
  rw [e2] at htl2
  have htl : m1.toList = m2.toList := htl1.trans htl2.symm
  have t1 := Inv.trace_spec cs (HashMap.new l1 h1) (Inv.new l1 h1)
  have t2 := Inv.trace_spec cs (HashMap.new l2 h2) (Inv.new l2 h2)
  rw [e1] at t1
  rw [e2] at t2
  refine ⟨m1, m2, hr1, hr2, hha1, hha2, ?_, htl, ?_, t1.trans t2.symm, t1⟩
  · have := congrArg List.length htl
    simpa [HashMap.toList, HashMap.size] using this
  · intro k
    refine ⟨?_, ?_, hinv1.lookup_spec k⟩
    · rw [hinv1.lookup_spec k, hinv2.lookup_spec k, htl]
    · rw [hinv1.at_spec k, hinv2.at_spec k, htl]

theorem Inv.occupied_eq {m : HashMap K V} (hinv : Inv m) : m.occupied = m.size := by
  rw [HashMap.occupied, hinv.table.perm.length_eq, List.length_map]
  rfl

/-- C16. In every reachable state, which includes every state left by construction, range
and copy construction, `insert`, `erase`, `operator[]` and `clear`, the number of occupied
slots equals `size()`, the length of `elements_`, and every node is referenced by exactly
one slot. Copy assignment breaks this: after `a = b` for an empty `a` and `b` holding one
pair, `a` has `size() == 1` and 8 slots different from `a.end()`, none of which refers to
the node of `a`; after the self-assignment `m = m` of a map of two pairs, `size()` is 0 and
two slots are occupied. -/
theorem C16_size_matches_occupied_slots [DecidableEq K] [Inhabited V] :
    (∀ m : HashMap K V, Reachable m →
      m.size = m.elements_.length ∧ m.occupied = m.size ∧
      ∀ e, e ∈ m.elements_ → ∃ i, i < m.table_.length ∧ m.slot i = m.handle e ∧
        ∀ j, j < m.table_.length → m.slot j = m.handle e → j = i) ∧
    (∀ (l : Nat) (kvs : List (K × V)) (hash : K → Nat) (m : HashMap K V),
      HashMap.fromRange l kvs hash = .ok m → Reachable m) ∧
    (∀ (l : Nat) (oth c : HashMap K V), Reachable oth → HashMap.copy l oth = .ok c →
      Reachable c) ∧
    ((copyAssign sampleStore 0 1 0).size = 1 ∧ (copyAssign sampleStore 0 1 0).occupied = 8 ∧
      (∀ i, i < 8 → (copyAssign sampleStore 0 1 0).slot i
        ≠ (copyAssign sampleStore 0 1 0).handle ⟨0, 1, 10⟩) ∧
      (copyAssign sampleStore 0 1 0).elements_.map (fun e => (e.id, e.key, e.val))
        = [(0, 1, 10)]) ∧
    (sampleMap.size = 2 ∧ sampleMap.occupied = 2 ∧
      (copyAssign (fun _ => sampleMap) 0 0 0).size = 0 ∧
      (copyAssign (fun _ => sampleMap) 0 0 0).occupied = 2) := by
  refine ⟨?_, ?_, ?_, ?_, ?_⟩
  · intro m hr
    have hinv := hr.inv
    refine ⟨rfl, hinv.occupied_eq, ?_⟩
    intro e he
    obtain ⟨i, hi, hslot⟩ := hinv.table.mem_slot e he
    refine ⟨i, hi, hslot, ?_⟩
    intro j hj hj2
    have hocc : m.table_.getD j m.endIt ≠ m.endIt := by
      change m.slot j ≠ _
      rw [hj2]; exact handle_ne_end m e
    exact hinv.table.slot_inj hinv.ids_nodup j i hj hi hocc (hj2.trans hslot.symm)
  · intro l kvs hash m h
    exact Reachable.insertAll kvs _ m (Reachable.new l hash) h
  · intro l oth c _ h
    exact Reachable.insertAll oth.toList _ c (Reachable.new l oth.hasher_) h
  · refine ⟨rfl, rfl, ?_, rfl⟩
    decide
  · exact ⟨rfl, rfl, rfl, rfl⟩

theorem toFloat_of_dvd (n : Nat) (h : 2 ^ f32Exp n n ∣ n) : toFloat n = n := by
  have hr : n % 2 ^ f32Exp n n = 0 := Nat.mod_eq_zero_of_dvd h
  have hpos : 0 < 2 ^ f32Exp n n := by positivity
  simp only [toFloat, hr, Nat.mul_zero]
  rw [if_pos hpos]
  exact Nat.div_mul_cancel h

theorem f32Exp_le_of_div_lt (n j : Nat) (h : n / 2 ^ j < 2 ^ 24) : f32Exp n n ≤ j := by
  obtain ⟨_, _, h3⟩ := f32Exp_spec n n (Nat.le_refl n)
  by_contra hlt
  have hpos : 0 < f32Exp n n := by omega
  have h4 := h3 hpos
  have h5 : n / 2 ^ f32Exp n n ≤ n / 2 ^ (j + 1) :=
    Nat.div_le_div_left (Nat.pow_le_pow_right (by omega) (by omega)) (by positivity)
  have h6 : n / 2 ^ (j + 1) = n / 2 ^ j / 2 := by
    rw [Nat.pow_succ, Nat.div_div_eq_div_mul]
  omega

theorem f32Exp_dvd (a j : Nat) (ha : a < 2 ^ 24) :
    2 ^ f32Exp (a * 2 ^ j) (a * 2 ^ j) ∣ a * 2 ^ j := by
  have h1 : a * 2 ^ j / 2 ^ j < 2 ^ 24 := by
    rw [Nat.mul_div_cancel _ (by positivity)]; exact ha
  have h2 := f32Exp_le_of_div_lt _ _ h1
  exact Dvd.dvd.mul_left (Nat.pow_dvd_pow 2 h2) a

theorem toFloat_mul_pow (a j : Nat) (ha : a < 2 ^ 24) : toFloat (a * 2 ^ j) = a * 2 ^ j :=
  toFloat_of_dvd _ (f32Exp_dvd a j ha)

theorem toFloat_le_of_le (n t : Nat) (h : n ≤ t) (ht : 2 ^ f32Exp t t ∣ t) :
    toFloat n ≤ t := by
  obtain ⟨t1, _, _⟩ := f32Exp_spec t t (Nat.le_refl t)
  have hle : f32Exp n n ≤ f32Exp t t := by
    apply f32Exp_le_of_div_lt
    exact Nat.lt_of_le_of_lt (Nat.div_le_div_right h) t1
  have hdvd : 2 ^ f32Exp n n ∣ t := Dvd.dvd.trans (Nat.pow_dvd_pow 2 hle) ht
  obtain ⟨u, hu⟩ := hdvd
  have hpos : 0 < 2 ^ f32Exp n n := by positivity
  have hdm := Nat.div_add_mod n (2 ^ f32Exp n n)
  have hr : n % 2 ^ f32Exp n n < 2 ^ f32Exp n n := Nat.mod_lt _ hpos
  have hup : 0 < n % 2 ^ f32Exp n n → (n / 2 ^ f32Exp n n + 1) * 2 ^ f32Exp n n ≤ t := by
    intro hr0
    have hq : n / 2 ^ f32Exp n n < u := by
      by_contra hge
      have : u * 2 ^ f32Exp n n ≤ n / 2 ^ f32Exp n n * 2 ^ f32Exp n n :=
        Nat.mul_le_mul_right _ (by omega)
      rw [Nat.mul_comm] at hu
      rw [Nat.mul_comm (2 ^ f32Exp n n)] at hdm
      omega
    rw [hu, Nat.mul_comm (2 ^ f32Exp n n)]
    exact Nat.mul_le_mul_right _ hq
  have hdown : n / 2 ^ f32Exp n n * 2 ^ f32Exp n n ≤ t := by
    rw [Nat.mul_comm (2 ^ f32Exp n n)] at hdm
    omega
  simp only [toFloat]
  split
  · exact hdown
  · split
    · split
      · exact hdown
      · exact hup (by omega)
    · exact hup (by omega)

theorem Inv.index_cap [DecidableEq K] [Inhabited V] {m : HashMap K V} (hinv : Inv m) (k : K)
    (m' : HashMap K V) (it : Iter) (h : m.index k = .ok (m', it)) :
    m'.table_.length = m.table_.length ∨ m'.table_.length = m.table_.length * 2 := by
  obtain ⟨m2, e, hidx, _, _, _, _, _, hpres, habs⟩ := hinv.index_spec k
  rw [h] at hidx
  have hm : m2 = m' := (Prod.mk.inj (Except.ok.inj hidx)).1.symm
  subst hm
  by_cases hp : ∃ x, x ∈ m.elements_ ∧ x.key = k
  · left; rw [hpres hp]
  · obtain ⟨_, hins, _⟩ := habs (fun x hx hk => hp ⟨x, hx, hk⟩)
    obtain ⟨m3, hrun, _, _, _, hcap, _⟩ := hinv.insert_spec (k, default)
    rw [hins] at hrun
    cases hrun
    rw [hcap]
    split
    · right; rfl
    · left; rfl

theorem Reachable.cap_pow [DecidableEq K] [Inhabited V] {m : HashMap K V} (h : Reachable m) :
    ∃ j, m.table_.length = 8 * 2 ^ j := by
  induction h with
  | new l hash => exact ⟨0, by simp [HashMap.new, INITIAL_SIZE_]⟩
  | insert kv hr hrun ih =>
    obtain ⟨j, hj⟩ := ih
    obtain ⟨m', h1, _, _, _, hcap, _⟩ := hr.inv.insert_spec kv
    rw [hrun] at h1
    cases h1
    rw [hcap, hj]
    split
    · exact ⟨j + 1, by rw [Nat.pow_succ]; ring⟩
    · exact ⟨j, rfl⟩
  | erase k hr hrun ih =>
    obtain ⟨m', h1, _, _, _, _, hcap, _⟩ := hr.inv.erase_spec k
    rw [hrun] at h1
    cases h1
    rw [hcap]; exact ih
  | index k it hr hrun ih =>
    obtain ⟨j, hj⟩ := ih
    rcases hr.inv.index_cap k _ it hrun with h | h
    · exact ⟨j, by rw [h, hj]⟩
    · exact ⟨j + 1, by rw [h, hj, Nat.pow_succ]; ring⟩
  | indexAssign k v hr hrun ih =>
    obtain ⟨j, hj⟩ := ih
    obtain ⟨m', m'', e, hidx, h1, _, _, _, _, _, htb, _⟩ := hr.inv.indexAssign_spec k v
    rw [hrun] at h1
    cases h1
    rw [htb]
    rcases hr.inv.index_cap k _ _ hidx with h | h
    · exact ⟨j, by rw [h, hj]⟩
    · exact ⟨j + 1, by rw [h, hj, Nat.pow_succ]; ring⟩
  | clear hr ih =>
    obtain ⟨j, hj⟩ := ih
    exact ⟨j, by simp [HashMap.clear, hj]⟩

theorem Reachable.growth_check_eq [DecidableEq K] [Inhabited V] {m : HashMap K V}
    (h : Reachable m) (s : Nat) :
    needsRehash s m.table_.length = decide (3 * m.table_.length < 4 * toFloat (s + 1)) := by
  obtain ⟨j, hj⟩ := h.cap_pow
  have e1 : m.table_.length = 1 * 2 ^ (j + 3) := by rw [hj, Nat.pow_add]; ring
  have e2 : 3 * m.table_.length = 3 * 2 ^ (j + 3) := by rw [e1]; ring
  rw [needsRehash_eq]
  have h1 : toFloat m.table_.length = m.table_.length := by
    rw [e1]; exact toFloat_mul_pow 1 _ (by norm_num)
  rw [h1, e2, toFloat_mul_pow 3 _ (by norm_num)]

theorem Reachable.growth_check_false [DecidableEq K] [Inhabited V] {m : HashMap K V}
    (h : Reachable m) (s : Nat) (hs : 4 * (s + 1) ≤ 3 * m.table_.length) :
    needsRehash s m.table_.length = false := by
  obtain ⟨j, hj⟩ := h.cap_pow
  rw [h.growth_check_eq s]
  have hT : s + 1 ≤ 3 * 2 ^ (j + 1) := by
    rw [hj] at hs
    have : 2 ^ (j + 1) = 2 ^ j * 2 := Nat.pow_succ 2 j
    omega
  have := toFloat_le_of_le (s + 1) (3 * 2 ^ (j + 1)) hT (f32Exp_dvd 3 (j + 1) (by norm_num))
  simp only [decide_eq_false_iff_not]
  rw [hj]
  have e : 2 ^ (j + 1) = 2 ^ j * 2 := Nat.pow_succ 2 j
  omega

theorem exists_large_map :
    ∃ m : HashMap Nat Nat, Reachable m ∧ m.size = 25165824 ∧ m.table_.length = 33554432 ∧
      m.toList = (List.range 25165824).map (fun i => (i, 0)) := by
  have hnd : (((List.range 25165824).map (fun i => (i, 0))).map Prod.fst).Nodup := by
    rw [List.map_map]
    exact (List.nodup_range _).map (fun a b h => h)
  obtain ⟨m, _, hr, hsz, hcap, htl⟩ :=
    Inv.insertAll_fresh ((List.range 25165824).map (fun i => ((i, 0) : Nat × Nat)))
      (HashMap.new 0 id) (Inv.new 0 id) (Reachable.new 0 id) hnd
      (fun _ _ e he => absurd he (List.not_mem_nil e))
  rw [List.length_map, List.length_range] at hsz hcap
  have hsz0 : (HashMap.new 0 id : HashMap Nat Nat).size = 0 := rfl
  have hcap0 : (HashMap.new 0 id : HashMap Nat Nat).table_.length = 8 := rfl
  have htl0 : (HashMap.new 0 id : HashMap Nat Nat).toList = [] := rfl
  rw [hsz0, Nat.zero_add] at hsz
  rw [hsz0, hcap0, growCap_last] at hcap
  rw [htl0, List.nil_append] at htl
  exact ⟨m, hr, hsz, by rw [hcap]; norm_num, htl⟩

/-- C17. `insert` runs the growth check before the duplicate check: on a reachable map,
`insert` of a present key doubles the capacity exactly when the check
`(size() + 1) > LOAD_FACTOR_ * table_.size()` holds, and leaves `size()` and the iteration
sequence as they are; a map of 8 slots and 6 keys has 16 slots after one of the 6 keys is
inserted again. With fewer than `2 ^ 24` entries the check is `4 * (size() + 1) >
3 * capacity`, and whenever `4 * (size() + 1) ≤ 3 * capacity` no `insert` changes the
capacity. But the check is a `float` comparison: the reachable map of 25165824 keys in
33554432 slots has `4 * (size() + 1) > 3 * capacity`, and `insert` of its key 0 leaves the
capacity at 33554432. -/
theorem C17_growth_before_duplicate_check [DecidableEq K] [Inhabited V] :
    (∀ (m : HashMap K V) (k : K) (v : V), Reachable m → k ∈ m.toList.map Prod.fst →
      ∃ m', m.insert (k, v) = .ok m' ∧ Reachable m' ∧ m'.size = m.size ∧
        m'.toList = m.toList ∧
        m'.table_.length = (if needsRehash m.size m.table_.length then m.table_.length * 2
          else m.table_.length)) ∧
    (∀ m : HashMap K V, Reachable m → m.size + 1 < 2 ^ 24 →
      (needsRehash m.size m.table_.length = true ↔
        3 * m.table_.length < 4 * (m.size + 1))) ∧
    (∀ (m : HashMap K V) (kv : K × V), Reachable m →
      4 * (m.size + 1) ≤ 3 * m.table_.length →
      ∃ m', m.insert kv = .ok m' ∧ m'.table_.length = m.table_.length) ∧
    (∃ m m' : HashMap Nat Nat,
      (HashMap.new 0 id).insertAll [(1, 1), (2, 2), (3, 3), (4, 4), (5, 5), (6, 6)] = .ok m ∧
      m.size = 6 ∧ m.table_.length = 8 ∧ m.insert (3, 99) = .ok m' ∧
      m'.table_.length = 16 ∧ m'.size = 6 ∧ m'.toList = m.toList) ∧
    (∃ m m' : HashMap Nat Nat, Reachable m ∧ m.size = 25165824 ∧
      m.table_.length = 33554432 ∧ 0 ∈ m.toList.map Prod.fst ∧
      3 * m.table_.length < 4 * (m.size + 1) ∧
      m.insert (0, 7) = .ok m' ∧ m'.table_.length = 33554432) := by
  refine ⟨?_, ?_, ?_, ?_, ?_⟩
  · intro m k v hr hk
    obtain ⟨m', hrun, _, _, _, hcap, _, hpres, _⟩ := hr.inv.insert_spec (k, v)
    have hel := (hpres ((mem_keys_iff m k).mp hk)).1
    exact ⟨m', hrun, Reachable.insert (k, v) hr hrun, by simp only [HashMap.size, hel],
      by simp only [HashMap.toList, hel], hcap⟩
  · intro m hr hs
    rw [hr.growth_check_eq m.size, toFloat_of_lt _ hs]
    simp
  · intro m kv hr hs
    obtain ⟨m', hrun, _, _, _, hcap, _⟩ := hr.inv.insert_spec kv
    rw [hr.growth_check_false m.size hs] at hcap
    exact ⟨m', hrun, by simpa using hcap⟩
  · exact ⟨_, _, rfl, rfl, rfl, rfl, rfl, rfl, rfl⟩
  · obtain ⟨m, hr, hsz, hcap, htl⟩ := exists_large_map
    obtain ⟨m', hrun, _, _, _, hcap', _⟩ := hr.inv.insert_spec (0, 7)
    have hnr : needsRehash m.size m.table_.length = false := by
      rw [hsz, hcap]
      exact needsRehash_last_phase _ (by omega)
    rw [hnr] at hcap'
    refine ⟨m, m', hr, hsz, hcap, ?_, by rw [hsz, hcap]; norm_num, hrun,
      by simpa [hcap] using hcap'⟩
    rw [htl, List.map_map]
    exact List.mem_map.mpr ⟨0, List.mem_range.mpr (by norm_num), rfl⟩

theorem TableOK.slot_cases {m : HashMap K V} {l : List (Node K V)} (h : TableOK m l)
    (i : Nat) (hi : i < m.table_.length) :
    m.slot i = m.endIt ∨ ∃ e, e ∈ l ∧ m.slot i = m.handle e := by
  by_cases hocc : m.slot i = m.endIt
  · exact Or.inl hocc
  · right
    have hmem : m.slot i ∈ m.table_ := by
      change m.table_.getD i m.endIt ∈ m.table_
      rw [List.getD_eq_getElem _ _ hi]
      exact List.getElem_mem hi
    have h1 : m.slot i ∈ m.table_.filter (fun x => decide (x ≠ m.endIt)) :=
      List.mem_filter.mpr ⟨hmem, by simpa using hocc⟩
    obtain ⟨e, he, heq⟩ := List.mem_map.mp (h.perm.mem_iff.mp h1)
    exact ⟨e, he, heq.symm⟩

theorem copy_capacity_example :
    ∃ (m1 m0 c0 : HashMap Nat Nat),
      (HashMap.new 0 id : HashMap Nat Nat).insertAll
        [(0, 0), (1, 0), (2, 0), (3, 0), (4, 0), (5, 0), (6, 0)] = .ok m1 ∧
      m1.erase 0 = .ok m0 ∧ HashMap.copy 1 m0 = .ok c0 ∧ c0.toList = m0.toList ∧
      m0.table_.length = 16 ∧ c0.table_.length = 8 :=
  ⟨_, _, _, rfl, rfl, rfl, rfl, rfl, rfl⟩

/-- C11. For every reachable map `m` the copy constructor, run for a new list object `l`,
succeeds with a map `c` that iterates exactly the pairs of `m` in the same order, has the
same `size()` and hash function, and on which `find` gives the same pair or the same
`end()` outcome as on `m` for every key. The index table of `c` is rebuilt: its iterators
are `end()` of the new list `l` or refer to nodes of `l`, one slot per node, and its capacity
is the one that `size()` insertions of absent keys into a fresh table of 8 slots produce,
whatever the capacity of `m` is. The capacities can differ: a map grown to 16 slots by seven
insertions and then reduced to six pairs is copied into a table of 8 slots. -/
theorem C11_copy_constructor [DecidableEq K] [Inhabited V] (m : HashMap K V)
    (hr : Reachable m) (l : Nat) :
    ∃ c, HashMap.copy l m = .ok c ∧ Reachable c ∧ c.toList = m.toList ∧ c.size = m.size ∧
      c.hasher_ = m.hasher_ ∧
      (∀ k, c.lookup k = m.lookup k ∧ m.lookup k = .ok (refLookup m.toList k)) ∧
      c.listId = l ∧ c.endIt = Iter.endOf l ∧
      c.table_.length = growCap INITIAL_SIZE_ 0 m.size ∧
      c.probe_seq_lens_.length = c.table_.length ∧
      (∀ i, i < c.table_.length →
        c.slot i = Iter.endOf l ∨ ∃ e, e ∈ c.elements_ ∧ c.slot i = Iter.node l e.id) ∧
      (∀ e, e ∈ c.elements_ → ∃ i, i < c.table_.length ∧ c.slot i = Iter.node l e.id) ∧
      c.occupied = c.size ∧
      ∃ (m0 c0 : HashMap Nat Nat), Reachable m0 ∧ HashMap.copy 1 m0 = .ok c0 ∧
        c0.toList = m0.toList ∧ m0.table_.length = 16 ∧ c0.table_.length = 8 := by
  have hinv := hr.inv
  have hnd : (m.toList.map Prod.fst).Nodup := hinv.keys_nodup_toList
  obtain ⟨c, hrun, hinvc, hid, hha, htl⟩ :=
    Inv.insertAll_spec m.toList (HashMap.new l m.hasher_) (Inv.new l m.hasher_)
  obtain ⟨c', hrun', _, _, hcap, _⟩ :=
    Inv.insertAll_fresh m.toList (HashMap.new l m.hasher_) (Inv.new l m.hasher_)
      (Reachable.new l m.hasher_) hnd (fun _ _ e he => by cases he)
  have hcc : c' = c := by
    rw [hrun] at hrun'
    cases hrun'
    rfl
  rw [hcc] at hcap
  have h0 : (HashMap.new l m.hasher_ : HashMap K V).toList = [] := rfl
  rw [h0, foldl_refInsert_distinct m.toList [] (by simpa using hnd), List.nil_append] at htl
  have hl : c.listId = l := hid
  have hlen : m.toList.length = m.size := by simp [HashMap.toList, HashMap.size]
  have hcap2 : c.table_.length = growCap INITIAL_SIZE_ 0 m.size := by
    rw [hcap, hlen]
    rfl
  refine ⟨c, hrun, Reachable.insertAll _ _ _ (Reachable.new l m.hasher_) hrun, htl, ?_, hha,
    ?_, hl, ?_, hcap2, hinvc.table.tinv.len, ?_, ?_, hinvc.occupied_eq, ?_⟩
  · have := congrArg List.length htl
    simpa [HashMap.toList, HashMap.size] using this
  · intro k
    rw [hinvc.lookup_spec k, hinv.lookup_spec k, htl]
    exact ⟨rfl, rfl⟩
  · rw [HashMap.endIt, hl]
  · intro i hi
    rcases hinvc.table.slot_cases i hi with h | ⟨e, he, h⟩
    · left
      rw [h, HashMap.endIt, hl]
    · right
      refine ⟨e, he, ?_⟩
      rw [h, HashMap.handle, hl]
  · intro e he
    obtain ⟨i, hi, h⟩ := hinvc.table.mem_slot e he
    refine ⟨i, hi, ?_⟩
    change c.table_.getD i c.endIt = _
    rw [h, HashMap.handle, hl]
  · obtain ⟨m1, m0, c0, h1, h2, h3, h4, h5, h6⟩ := copy_capacity_example
    exact ⟨m0, c0, Reachable.erase 0 (Reachable.insertAll _ _ _ (Reachable.new 0 id) h1) h2,
      h3, h4, h5, h6⟩

theorem C11_copy_constructor_witness :
    Reachable sampleMap ∧
    ∃ c, HashMap.copy 7 sampleMap = .ok c ∧ Reachable c ∧ c.toList = sampleMap.toList ∧
      c.size = sampleMap.size ∧ c.hasher_ = sampleMap.hasher_ ∧
      (∀ k, c.lookup k = sampleMap.lookup k ∧
        sampleMap.lookup k = .ok (refLookup sampleMap.toList k)) ∧
      c.listId = 7 ∧ c.endIt = Iter.endOf 7 ∧
      c.table_.length = growCap INITIAL_SIZE_ 0 sampleMap.size ∧
      c.probe_seq_lens_.length = c.table_.length ∧
      (∀ i, i < c.table_.length →
        c.slot i = Iter.endOf 7 ∨ ∃ e, e ∈ c.elements_ ∧ c.slot i = Iter.node 7 e.id) ∧
      (∀ e, e ∈ c.elements_ → ∃ i, i < c.table_.length ∧ c.slot i = Iter.node 7 e.id) ∧
      c.occupied = c.size ∧
      ∃ (m0 c0 : HashMap Nat Nat), Reachable m0 ∧ HashMap.copy 1 m0 = .ok c0 ∧
        c0.toList = m0.toList ∧ m0.table_.length = 16 ∧ c0.table_.length = 8 :=
  ⟨sampleMap_reachable, C11_copy_constructor sampleMap sampleMap_reachable 7⟩

end RobinHood
